import Mathlib

/-!
# CryptoSpider: Keccak-256, address derivation and the mask engine

A shallow embedding of `src/keccak.h` and of the address / mask functions of
`src/main.cpp`, followed by the properties proved of them.

Conventions of the embedding

* a byte (`uint8_t`) is a `Nat` below 256, a lane (`uint64_t`) a `Nat` below `2^64`;
  operations that can leave the machine width are reduced explicitly;
* `std::vector<uint8_t>` is `List Nat`, `std::string` is `List Char`;
* a C array is a `List` of the declared size, read with `lane` / `List.getD` and
  written with `List.set`;
* a `for` loop over a fixed range is a `List.foldl` over the list of its indices,
  the `while` loop of `keccak256` takes fuel and answers `none` when it runs out.
-/

namespace Keccak

/-! ## `src/keccak.h` -/

/-- Number of rounds, `KECCAK_ROUNDS`. -/
def KECCAK_ROUNDS : Nat := 24

/-- Two to the 64: the number of values of a `uint64_t`. -/
def W64 : Nat := 18446744073709551616

/-- Rotation `(x << y) | (x >> (64 - y))` on `uint64_t`. -/
def ROTL64 (x y : Nat) : Nat :=
  ((x <<< y) % W64) ||| (x >>> (64 - y))

/-- Complement `~x` of a `uint64_t`. -/
def not64 (x : Nat) : Nat := (W64 - 1) ^^^ x

/-- Round constants. -/
def keccakf_rndc : List Nat :=
  [0x0000000000000001, 0x0000000000008082, 0x800000000000808a,
   0x8000000080008000, 0x000000000000808b, 0x0000000080000001,
   0x8000000080008081, 0x8000000000008009, 0x000000000000008a,
   0x0000000000000088, 0x0000000080008009, 0x000000008000000a,
   0x000000008000808b, 0x800000000000008b, 0x8000000000008089,
   0x8000000000008003, 0x8000000000008002, 0x8000000000000080,
   0x000000000000800a, 0x800000008000000a, 0x8000000080008081,
   0x8000000000008080, 0x0000000080000001, 0x8000000080008008]

/-- Rotation amounts. -/
def keccakf_rotc : List Nat :=
  [1, 3, 6, 10, 15, 21, 28, 36, 45, 55, 2, 14,
   27, 41, 56, 8, 25, 43, 62, 18, 39, 61, 20, 44]

/-- Lane permutation. -/
def keccakf_piln : List Nat :=
  [10, 7, 11, 17, 18, 3, 5, 16, 8, 21, 24, 4,
   15, 23, 19, 13, 12, 2, 20, 14, 22, 9, 6, 1]

/-- Read of an array cell, `a[i]`. -/
def lane (a : List Nat) (i : Nat) : Nat := a.getD i 0

/-- Theta, first loop: the five column parities `bc`. -/
def thetaBC (st : List Nat) : List Nat :=
  (List.range 5).map fun i =>
    lane st i ^^^ lane st (i + 5) ^^^ lane st (i + 10) ^^^ lane st (i + 15) ^^^ lane st (i + 20)

/-- Theta, second loop. -/
def theta (st : List Nat) : List Nat :=
  let bc := thetaBC st
  (List.range 5).foldl (fun st i =>
    let t := lane bc ((i + 4) % 5) ^^^ ROTL64 (lane bc ((i + 1) % 5)) 1
    [0, 5, 10, 15, 20].foldl (fun st j => st.set (j + i) (lane st (j + i) ^^^ t)) st) st

/-- One iteration of the Rho Pi loop on the pair `(st, t)`. -/
def rhoPiStep (p : List Nat × Nat) (i : Nat) : List Nat × Nat :=
  let j := lane keccakf_piln i
  let bc0 := lane p.1 j
  (p.1.set j (ROTL64 p.2 (lane keccakf_rotc i)), bc0)

/-- Rho Pi. -/
def rhoPi (st : List Nat) : List Nat :=
  ((List.range 24).foldl rhoPiStep (st, lane st 1)).1

/-- Chi on the row starting at lane `j`. -/
def chiRow (st : List Nat) (j : Nat) : List Nat :=
  let bc := (List.range 5).map fun i => lane st (j + i)
  (List.range 5).foldl (fun st i =>
    st.set (j + i) (lane st (j + i) ^^^ (not64 (lane bc ((i + 1) % 5)) &&& lane bc ((i + 2) % 5)))) st

/-- Chi. -/
def chi (st : List Nat) : List Nat :=
  [0, 5, 10, 15, 20].foldl chiRow st

/-- Iota of round `round`. -/
def iota (round : Nat) (st : List Nat) : List Nat :=
  st.set 0 (lane st 0 ^^^ lane keccakf_rndc round)

/-- Body of the round loop. -/
def keccakRound (st : List Nat) (round : Nat) : List Nat :=
  iota round (chi (rhoPi (theta st)))

/-- The permutation `keccakf`. -/
def keccakf (st : List Nat) : List Nat :=
  (List.range KECCAK_ROUNDS).foldl keccakRound st

/-- Rate in bytes: `rsiz = 200 - 2 * 32`. -/
def rsiz : Nat := 200 - 2 * 32

/-- Rate in lanes: `rsizw = rsiz / 8`. -/
def rsizw : Nat := rsiz / 8

/-- `memcpy(temp, input.data() + offset, n)`: the first `n` cells of `temp` are overwritten. -/
def memcpy (temp input : List Nat) (offset n : Nat) : List Nat :=
  (input.drop offset).take n ++ temp.drop n

/-- `memset(temp, 0, n)`. -/
def memset0 (temp : List Nat) (n : Nat) : List Nat :=
  List.replicate n 0 ++ temp.drop n

/-- Inner loop `word |= ((uint64_t)temp[i * 8 + j]) << (j * 8)` for `j < 8`, from `word = 0`. -/
def loadWord (temp : List Nat) (i : Nat) : Nat :=
  (List.range 8).foldl (fun word j => word ||| ((lane temp (i * 8 + j) <<< (j * 8)) % W64)) 0

/-- Loop `st[i] ^= word` for `i < rsizw`. -/
def xorBlock (st temp : List Nat) : List Nat :=
  (List.range rsizw).foldl (fun st i => st.set i (lane st i ^^^ loadWord temp i)) st

/-- Local variables of `keccak256`, with a ghost counter of the `keccakf` invocations. -/
structure Sponge where
  st : List Nat
  temp : List Nat
  offset : Nat
  calls : Nat

/-- Body of the loop over the full blocks. -/
def absorbBlock (input : List Nat) (s : Sponge) : Sponge :=
  let temp := memcpy s.temp input s.offset rsiz
  { st := keccakf (xorBlock s.st temp), temp := temp, offset := s.offset + rsiz,
    calls := s.calls + 1 }

/-- Loop `while (offset + rsiz <= inputLen)`; `none` when the fuel does not reach its exit. -/
def absorbLoop (input : List Nat) : Nat → Sponge → Option Sponge
  | 0, s => if s.offset + rsiz ≤ input.length then none else some s
  | fuel + 1, s =>
    if s.offset + rsiz ≤ input.length then absorbLoop input fuel (absorbBlock input s)
    else some s

/-- Final block: copy of the remaining bytes, padding, absorption. -/
def absorbLast (input : List Nat) (s : Sponge) : Sponge :=
  let remaining := input.length - s.offset
  let temp := memset0 s.temp rsiz
  let temp := if remaining > 0 then memcpy temp input s.offset remaining else temp
  let temp := temp.set remaining 0x01
  let temp := temp.set (rsiz - 1) (lane temp (rsiz - 1) ^^^ 0x80)
  { st := keccakf (xorBlock s.st temp), temp := temp, offset := s.offset, calls := s.calls + 1 }

/-- Extraction loop: `output[i * 8 + j] = (word >> (j * 8)) & 0xFF` for `i < 4`, `j < 8`. -/
def extract (st : List Nat) : List Nat :=
  (List.range 4).foldl (fun output i =>
    let word := lane st i
    (List.range 8).foldl (fun output j => output.set (i * 8 + j) ((word >>> (j * 8)) &&& 0xFF))
      output) (List.replicate 32 0)

/-- Hash `keccak256` run on `fuel` for its loop, from the buffer content `temp0` (the
    buffer `temp[144]` is not initialised): the digest and the number of `keccakf` calls. -/
def keccak256Run (temp0 : List Nat) (fuel : Nat) (input : List Nat) : Option (List Nat × Nat) :=
  match absorbLoop input fuel
      { st := List.replicate 25 0, temp := temp0, offset := 0, calls := 0 } with
  | none => none
  | some s => let s := absorbLast input s; some (extract s.st, s.calls)

/-- Hash `Keccak::keccak256`: the run on fuel `inputLen / rsiz`, which reaches the exit of
    the loop (`keccak256Run_eq`). -/
def keccak256 (input : List Nat) : List Nat :=
  match keccak256Run (List.replicate 144 0) (input.length / rsiz) input with
  | some r => r.1
  | none => []

/-! ### The same functions with every array access checked

Each function below is the function of the same name without its final `C`, with the
reads and writes of `st`, `bc`, `temp`, `output`, of the input and of the three tables made
partial: an index out of the bounds of its array answers `none`. -/

/-- Checked read `a[i]`. -/
def readC (a : List Nat) (i : Nat) : Option Nat := a[i]?

/-- Checked write `a[i] = v`. -/
def writeC (a : List Nat) (i v : Nat) : Option (List Nat) :=
  if i < a.length then some (a.set i v) else none

/-- Theta with checked accesses; `bc` is the array `bc[5]`. -/
def thetaC (st : List Nat) : Option (List Nat) := do
  let bc ← (List.range 5).foldlM (fun bc i => do
    let x0 ← readC st i
    let x1 ← readC st (i + 5)
    let x2 ← readC st (i + 10)
    let x3 ← readC st (i + 15)
    let x4 ← readC st (i + 20)
    writeC bc i (x0 ^^^ x1 ^^^ x2 ^^^ x3 ^^^ x4)) (List.replicate 5 0)
  (List.range 5).foldlM (fun st i => do
    let b4 ← readC bc ((i + 4) % 5)
    let b1 ← readC bc ((i + 1) % 5)
    let t := b4 ^^^ ROTL64 b1 1
    [0, 5, 10, 15, 20].foldlM (fun st j => do
      let x ← readC st (j + i)
      writeC st (j + i) (x ^^^ t)) st) st

/-- One iteration of the Rho Pi loop with checked accesses. -/
def rhoPiStepC (p : List Nat × Nat) (i : Nat) : Option (List Nat × Nat) := do
  let j ← readC keccakf_piln i
  let bc0 ← readC p.1 j
  let r ← readC keccakf_rotc i
  let st ← writeC p.1 j (ROTL64 p.2 r)
  pure (st, bc0)

/-- Rho Pi with checked accesses. -/
def rhoPiC (st : List Nat) : Option (List Nat) := do
  let t ← readC st 1
  let p ← (List.range 24).foldlM rhoPiStepC (st, t)
  pure p.1

/-- Chi on one row with checked accesses. -/
def chiRowC (st : List Nat) (j : Nat) : Option (List Nat) := do
  let bc ← (List.range 5).foldlM (fun bc i => do
    let x ← readC st (j + i)
    writeC bc i x) (List.replicate 5 0)
  (List.range 5).foldlM (fun st i => do
    let x ← readC st (j + i)
    let b1 ← readC bc ((i + 1) % 5)
    let b2 ← readC bc ((i + 2) % 5)
    writeC st (j + i) (x ^^^ (not64 b1 &&& b2))) st

/-- Chi with checked accesses. -/
def chiC (st : List Nat) : Option (List Nat) :=
  [0, 5, 10, 15, 20].foldlM chiRowC st

/-- Iota with checked accesses. -/
def iotaC (round : Nat) (st : List Nat) : Option (List Nat) := do
  let x ← readC st 0
  let c ← readC keccakf_rndc round
  writeC st 0 (x ^^^ c)

/-- Body of the round loop with checked accesses. -/
def keccakRoundC (st : List Nat) (round : Nat) : Option (List Nat) := do
  let st ← thetaC st
  let st ← rhoPiC st
  let st ← chiC st
  iotaC round st

/-- The permutation `keccakf` with checked accesses. -/
def keccakfC (st : List Nat) : Option (List Nat) :=
  (List.range KECCAK_ROUNDS).foldlM keccakRoundC st

/-- Checked `memcpy(temp, input.data() + offset, n)`: the source range lies in the input and
    the destination range in the buffer. -/
def memcpyC (temp input : List Nat) (offset n : Nat) : Option (List Nat) :=
  if offset + n ≤ input.length ∧ n ≤ temp.length then some (memcpy temp input offset n)
  else none

/-- Checked `memset(temp, 0, n)`. -/
def memset0C (temp : List Nat) (n : Nat) : Option (List Nat) :=
  if n ≤ temp.length then some (memset0 temp n) else none

/-- Inner loop of the absorption with checked reads of `temp`. -/
def loadWordC (temp : List Nat) (i : Nat) : Option Nat :=
  (List.range 8).foldlM (fun word j => do
    let b ← readC temp (i * 8 + j)
    pure (word ||| ((b <<< (j * 8)) % W64))) 0

/-- Loop `st[i] ^= word` with checked accesses. -/
def xorBlockC (st temp : List Nat) : Option (List Nat) :=
  (List.range rsizw).foldlM (fun st i => do
    let word ← loadWordC temp i
    let x ← readC st i
    writeC st i (x ^^^ word)) st

/-- Body of the loop over the full blocks, checked. -/
def absorbBlockC (input : List Nat) (s : Sponge) : Option Sponge := do
  let temp ← memcpyC s.temp input s.offset rsiz
  let st ← xorBlockC s.st temp
  let st ← keccakfC st
  pure { st := st, temp := temp, offset := s.offset + rsiz, calls := s.calls + 1 }

/-- Loop over the full blocks, checked; `none` also when the fuel does not reach the exit. -/
def absorbLoopC (input : List Nat) : Nat → Sponge → Option Sponge
  | 0, s => if s.offset + rsiz ≤ input.length then none else some s
  | fuel + 1, s =>
    if s.offset + rsiz ≤ input.length then (absorbBlockC input s).bind (absorbLoopC input fuel)
    else some s

/-- Final block, checked. -/
def absorbLastC (input : List Nat) (s : Sponge) : Option Sponge := do
  let remaining := input.length - s.offset
  let temp ← memset0C s.temp rsiz
  let temp ← (if remaining > 0 then memcpyC temp input s.offset remaining else some temp)
  let temp ← writeC temp remaining 0x01
  let last ← readC temp (rsiz - 1)
  let temp ← writeC temp (rsiz - 1) (last ^^^ 0x80)
  let st ← xorBlockC s.st temp
  let st ← keccakfC st
  pure { st := st, temp := temp, offset := s.offset, calls := s.calls + 1 }

/-- Extraction loop with checked accesses. -/
def extractC (st : List Nat) : Option (List Nat) :=
  (List.range 4).foldlM (fun output i => do
    let word ← readC st i
    (List.range 8).foldlM (fun output j =>
      writeC output (i * 8 + j) ((word >>> (j * 8)) &&& 0xFF)) output) (List.replicate 32 0)

/-- Hash `keccak256` with every access checked, from the buffer content `temp0` of the
    array `temp[144]`. -/
def keccak256C (temp0 : List Nat) (fuel : Nat) (input : List Nat) : Option (List Nat) := do
  let s ← absorbLoopC input fuel
    { st := List.replicate 25 0, temp := temp0, offset := 0, calls := 0 }
  let s ← absorbLastC input s
  extractC s.st

end Keccak

/-! ## `src/main.cpp`: address derivation -/

open Keccak

/-- Address of a public key, `getAddressBytes`: the hash of the key without its first byte,
    cut to its last 20 bytes. On an empty key `publicKey.begin() + 1` lies past the end:
    `none`. -/
def getAddressBytes (publicKey : List Nat) : Option (List Nat) :=
  match publicKey with
  | [] => none
  | _ :: pubKeyBytes =>
    let hash := keccak256 pubKeyBytes
    some (hash.drop (hash.length - 20))

/-- Lookup table `hexChars`. -/
def hexChars : List Char := "0123456789abcdef".toList

/-- Output of `ss << std::hex << std::setw(2) << std::setfill('0') << static_cast<int>(byte)`:
    the hexadecimal digits of the value, filled on the left with `'0'` up to two characters. -/
def putHexW2 (byte : Nat) : List Char :=
  let digits := Nat.toDigits 16 byte
  List.replicate (2 - digits.length) '0' ++ digits

/-- Text of an address in lower case, `addressBytesToHex`. -/
def addressBytesToHex (addressBytes : List Nat) : List Char :=
  addressBytes.foldl (fun ss byte => ss ++ putHexW2 byte) "0x".toList

/-- First loop of `getAddressWithChecksum`: the text `addressLower`. -/
def addressLower (addressBytes : List Nat) : List Char :=
  addressBytes.foldl (fun s byte =>
    s ++ [hexChars.getD ((byte >>> 4) &&& 0x0F) '0', hexChars.getD (byte &&& 0x0F) '0']) []

/-- Body of the second loop of `getAddressWithChecksum` at index `i`; `none` when
    `hash[hashByteIndex]` or `addressLower[i]` is read out of range. -/
def checksumStep (addressLower : List Char) (hash : List Nat) (result : List Char) (i : Nat) :
    Option (List Char) :=
  match addressLower[i]?, hash[i / 2]? with
  | some c, some h =>
    let isHighNibble := i % 2 == 0
    let hashNibble := if isHighNibble then (h >>> 4) &&& 0x0F else h &&& 0x0F
    let c := if hashNibble ≥ 8 ∧ 'a'.toNat ≤ c.toNat ∧ c.toNat ≤ 'f'.toNat
      then Char.ofNat (c.toNat - 'a'.toNat + 'A'.toNat) else c
    some (result ++ [c])
  | _, _ => none

/-- Text of an address with its EIP-55 checksum, `getAddressWithChecksum`. -/
def getAddressWithChecksum (addressBytes : List Nat) : Option (List Char) :=
  let lower := addressLower addressBytes
  let hash := keccak256 (lower.map Char.toNat)
  (List.range lower.length).foldl
    (fun result i => result.bind fun r => checksumStep lower hash r i) (some "0x".toList)

/-! ## `src/main.cpp`: the mask -/

/-- Compiled mask, `struct Mask`; the arrays are lists of the declared sizes 2 and 6. -/
structure Mask where
  prefixChar : List Char
  prefixWildcard : List Bool
  prefixCaseSensitive : List Bool
  suffixChar : List Char
  suffixWildcard : List Bool
  suffixCaseSensitive : List Bool
  suffixLength : Nat
  checkCase : Bool
deriving DecidableEq, Repr

/-- Initial value of the global `globalMask`: zero-initialised arrays and the two default
    member initialisers. -/
def globalMask0 : Mask :=
  { prefixChar := List.replicate 2 (Char.ofNat 0)
    prefixWildcard := List.replicate 2 false
    prefixCaseSensitive := List.replicate 2 false
    suffixChar := List.replicate 6 (Char.ofNat 0)
    suffixWildcard := List.replicate 6 false
    suffixCaseSensitive := List.replicate 6 false
    suffixLength := 4
    checkCase := false }

/-- Function `std::tolower` of the C locale. -/
def tolower (c : Char) : Char :=
  if 'A'.toNat ≤ c.toNat ∧ c.toNat ≤ 'Z'.toNat then Char.ofNat (c.toNat - 'A'.toNat + 'a'.toNat)
  else c

/-- Comparison of one position: `some false` is `return false`, `some true` lets the function
    go on, `none` is a read out of range (of a mask array or of the text `addr`). A wildcard
    position reads nothing of `addr`. -/
def checkPosition (wildcard caseSensitive : Option Bool) (maskChar : Option Char)
    (addr : List Char) (pos : Nat) : Option Bool :=
  match wildcard with
  | none => none
  | some true => some true
  | some false =>
    match addr[pos]?, maskChar, caseSensitive with
    | some addrChar, some maskChar, some cs =>
      if cs then some (addrChar == maskChar) else some (tolower addrChar == tolower maskChar)
    | _, _, _ => none

/-- Number of values of a `size_t`. -/
def SIZE : Nat := 18446744073709551616

/-- Body of the suffix loop at index `i`; `r` is the outcome so far (`some true` while the
    function has not returned). -/
def suffixStep (g : Mask) (addr : List Char) (suffixStart : Nat) (r : Option Bool) (i : Nat) :
    Option Bool :=
  match r with
  | some true =>
    checkPosition g.suffixWildcard[i]? g.suffixCaseSensitive[i]? g.suffixChar[i]? addr
      ((suffixStart + i) % SIZE)
  | r => r

/-- Comparisons of `matchesMaskFast` on the text `addr` (the address text without `0x`): the
    two prefix positions, then the suffix loop from `suffixStart = addr.length() - suffixLength`
    (in `size_t`). -/
def matchesText (g : Mask) (addr : List Char) : Option Bool :=
  match checkPosition g.prefixWildcard[0]? g.prefixCaseSensitive[0]? g.prefixChar[0]? addr 0 with
  | some true =>
    match checkPosition g.prefixWildcard[1]? g.prefixCaseSensitive[1]? g.prefixChar[1]? addr 1
      with
    | some true =>
      let suffixStart := (addr.length + SIZE - g.suffixLength % SIZE) % SIZE
      (List.range g.suffixLength).foldl (suffixStep g addr suffixStart) (some true)
    | r => r
  | r => r

/-- Match of an address against the mask, `matchesMaskFast`, the global mask being the
    argument `g`. -/
def matchesMaskFast (g : Mask) (addressBytes : List Nat) : Option Bool :=
  let addressStr :=
    if g.checkCase then getAddressWithChecksum addressBytes
    else some (addressBytesToHex addressBytes)
  match addressStr with
  | none => none
  | some addressStr => matchesText g (addressStr.drop 2)

/-- Lambda `isValidHexChar` of `main`. -/
def isValidHexChar (c : Char) : Bool :=
  ('0'.toNat ≤ c.toNat && c.toNat ≤ '9'.toNat) ||
  ('a'.toNat ≤ c.toNat && c.toNat ≤ 'f'.toNat) ||
  ('A'.toNat ≤ c.toNat && c.toNat ≤ 'F'.toNat) ||
  c == '?'

/-- Test `c >= 'A' && c <= 'F'`. -/
def isUpperHex (c : Char) : Bool :=
  'A'.toNat ≤ c.toNat && c.toNat ≤ 'F'.toNat

/-- Loop `for (char c : mask) if (c >= 'A' && c <= 'F') { hasUpperCase = true; break; }`. -/
def scanUpper : List Char → Bool
  | [] => false
  | c :: cs => if isUpperHex c then true else scanUpper cs

/-- Loop `for (char c : mask) if (!isValidHexChar(c)) return 1;`: `true` when it returns. -/
def scanInvalid : List Char → Bool
  | [] => false
  | c :: cs => if !isValidHexChar c then true else scanInvalid cs

/-- Fill of the prefix fields at index `i`. -/
def fillPrefix (original : List Char) (g : Mask) (i : Nat) : Mask :=
  let c := original.getD i (Char.ofNat 0)
  if c == '?' then
    { g with prefixWildcard := g.prefixWildcard.set i true
             prefixChar := g.prefixChar.set i (Char.ofNat 0)
             prefixCaseSensitive := g.prefixCaseSensitive.set i false }
  else
    { g with prefixWildcard := g.prefixWildcard.set i false
             prefixChar := g.prefixChar.set i c
             prefixCaseSensitive := g.prefixCaseSensitive.set i (isUpperHex c) }

/-- Fill of the suffix fields at index `i`. -/
def fillSuffix (original : List Char) (g : Mask) (i : Nat) : Mask :=
  let c := original.getD i (Char.ofNat 0)
  if c == '?' then
    { g with suffixWildcard := g.suffixWildcard.set i true
             suffixChar := g.suffixChar.set i (Char.ofNat 0)
             suffixCaseSensitive := g.suffixCaseSensitive.set i false }
  else
    { g with suffixWildcard := g.suffixWildcard.set i false
             suffixChar := g.suffixChar.set i c
             suffixCaseSensitive := g.suffixCaseSensitive.set i (isUpperHex c) }

/-- Observable state of `main` up to the start of the workers: the global mask, the number
    of worker threads started and the value returned, if `main` has returned. -/
structure MainState where
  globalMask : Mask
  threadsStarted : Nat
  returned : Option Nat
deriving DecidableEq, Repr

/-- Function `main` from the two patterns read to the start of the workers (lines 320 to
    422), on `numThreads` hardware threads. -/
def mainSetup (numThreads : Nat) (prefixMask suffixMask : List Char) (s : MainState) :
    MainState :=
  if prefixMask.length ≠ 2 then { s with returned := some 1 }
  else if suffixMask.length ≠ 4 ∧ suffixMask.length ≠ 6 then { s with returned := some 1 }
  else if scanInvalid prefixMask then { s with returned := some 1 }
  else if scanInvalid suffixMask then { s with returned := some 1 }
  else
    let hasUpperCase := if scanUpper prefixMask then true else scanUpper suffixMask
    let g := { s.globalMask with checkCase := hasUpperCase, suffixLength := suffixMask.length }
    let g := (List.range 2).foldl (fillPrefix prefixMask) g
    let g := (List.range g.suffixLength).foldl (fillSuffix suffixMask) g
    let numThreads := if numThreads = 0 then 4 else numThreads
    { s with globalMask := g, threadsStarted := s.threadsStarted + numThreads }

/-- State of the program when `main` starts. -/
def mainState0 : MainState :=
  { globalMask := globalMask0, threadsStarted := 0, returned := none }

/-- Mask compilation: the global mask after `mainSetup` when `main` has not returned. -/
def compileMask (prefixMask suffixMask : List Char) : Option Mask :=
  let s := mainSetup 1 prefixMask suffixMask mainState0
  if s.returned = none then some s.globalMask else none

/-! ## `src/main.cpp`: the workers

The workers run concurrently. `found` and `totalAttempts` are `std::atomic` with the default
sequentially consistent order, and `foundResult` is accessed by the workers only with
`resultMutex` held: the program has no data race, and its executions are the interleavings of
the steps below, each of which holds at most one access to the shared variables. -/

/-- Record `Result`. -/
structure Result where
  privateKey : List Nat
  addressBytes : List Nat
  found : Bool
deriving DecidableEq, Repr

/-- Initial value of the global `foundResult`. -/
def foundResult0 : Result := { privateKey := [], addressBytes := [], found := false }

/-- Program points of `workerThread`. -/
inductive WorkerPc
  /-- Line 266, `while (!found.load())`. -/
  | loopTest
  /-- Lines 267 to 289: one attempt, up to `if (matchesMaskFast(addressBytes))`. -/
  | loopBody
  /-- Line 291, construction of the `lock_guard` on `resultMutex`. -/
  | lockResult
  /-- Line 292, `if (!found.load())` with the mutex held. -/
  | testFound
  /-- Line 293, `foundResult.privateKey = privateKey`. -/
  | writeKey
  /-- Line 294, `foundResult.addressBytes = addressBytes`. -/
  | writeAddress
  /-- Line 295, `foundResult.found = true`. -/
  | writeFound
  /-- Line 296, `found.store(true)`. -/
  | storeFound
  /-- Line 298, `break`: the `lock_guard` goes out of scope and releases the mutex. -/
  | unlockResult
  /-- Line 303, `totalAttempts.fetch_add(localAttempts)`. -/
  | flush
  /-- The function has returned. -/
  | done
deriving DecidableEq, Repr

/-- Local variables of one `workerThread`, with two ghost fields: the number of loop bodies
    entered and the amounts added to `totalAttempts`, in order. -/
structure Worker where
  pc : WorkerPc
  privateKey : List Nat
  addressBytes : List Nat
  localAttempts : Nat
  iterations : Nat
  added : List Nat
deriving DecidableEq, Repr

/-- A worker at the entry of its loop: `privateKey(32)`, `localAttempts = 0`. -/
def worker0 : Worker :=
  { pc := .loopTest, privateKey := List.replicate 32 0, addressBytes := [], localAttempts := 0,
    iterations := 0, added := [] }

/-- Shared variables and workers, with a ghost field: the workers that entered the branch
    `if (!found.load())` of line 292, in order. -/
structure World where
  totalAttempts : Nat
  found : Bool
  foundResult : Result
  resultMutex : Option Nat
  workers : List Worker
  writers : List Nat
deriving DecidableEq, Repr

/-- State of the program when `numThreads` workers have been created. -/
def world0 (numThreads : Nat) : World :=
  { totalAttempts := 0, found := false, foundResult := foundResult0, resultMutex := none,
    workers := List.replicate numThreads worker0, writers := [] }

/-- Constant `reportInterval`. -/
def reportInterval : Nat := 50000

/-- Wrap of `std::atomic<long long>::fetch_add`, on the 64-bit pattern. -/
def fetchAdd (total amount : Nat) : Nat := (total + amount) % 18446744073709551616

/-- One step of the worker `i`. `key` is the private key that `generatePrivateKeyFast` draws
    when the step is an attempt, `getPublicKeyFast` is the external key derivation (the empty
    vector is its failure). `none`: the worker cannot move (it has returned, or it waits for
    the mutex), or the step has no defined behaviour. -/
def stepWorker (g : Mask) (getPublicKeyFast : List Nat → List Nat) (i : Nat) (key : List Nat)
    (w : World) : Option World :=
  match w.workers[i]? with
  | none => none
  | some wk =>
    match wk.pc with
    | .loopTest =>
      some { w with
        workers := w.workers.set i { wk with pc := if w.found then .flush else .loopBody } }
    | .loopBody =>
      let report := (wk.localAttempts + 1) % reportInterval == 0
      let total := if report then fetchAdd w.totalAttempts reportInterval else w.totalAttempts
      let wk1 : Worker :=
        { wk with
          localAttempts := if report then 0 else wk.localAttempts + 1,
          iterations := wk.iterations + 1,
          added := if report then wk.added ++ [reportInterval] else wk.added,
          privateKey := key }
      let publicKey := getPublicKeyFast key
      if publicKey = [] then
        some { w with
          totalAttempts := total,
          workers := w.workers.set i { wk1 with pc := .loopTest } }
      else
        match getAddressBytes publicKey with
        | none => none
        | some addressBytes =>
          match matchesMaskFast g addressBytes with
          | none => none
          | some m =>
            some { w with
              totalAttempts := total,
              workers := w.workers.set i
                { wk1 with
                  addressBytes := addressBytes,
                  pc := if m then .lockResult else .loopTest } }
    | .lockResult =>
      if w.resultMutex = none then
        some { w with
          resultMutex := some i,
          workers := w.workers.set i { wk with pc := .testFound } }
      else none
    | .testFound =>
      if w.found then
        some { w with workers := w.workers.set i { wk with pc := .unlockResult } }
      else
        some { w with
          workers := w.workers.set i { wk with pc := .writeKey },
          writers := w.writers ++ [i] }
    | .writeKey =>
      some { w with
        foundResult := { w.foundResult with privateKey := wk.privateKey },
        workers := w.workers.set i { wk with pc := .writeAddress } }
    | .writeAddress =>
      some { w with
        foundResult := { w.foundResult with addressBytes := wk.addressBytes },
        workers := w.workers.set i { wk with pc := .writeFound } }
    | .writeFound =>
      some { w with
        foundResult := { w.foundResult with found := true },
        workers := w.workers.set i { wk with pc := .storeFound } }
    | .storeFound =>
      some { w with
        found := true,
        workers := w.workers.set i { wk with pc := .unlockResult } }
    | .unlockResult =>
      some { w with
        resultMutex := none,
        workers := w.workers.set i { wk with pc := .flush } }
    | .flush =>
      some { w with
        totalAttempts := fetchAdd w.totalAttempts wk.localAttempts,
        workers := w.workers.set i
          { wk with pc := .done, added := wk.added ++ [wk.localAttempts] } }
    | .done => none

/-- Execution of a schedule: the list of the workers that move, each with the key it draws if
    its step is an attempt. `none` when a step of the schedule is not possible. -/
def runSchedule (g : Mask) (getPublicKeyFast : List Nat → List Nat) :
    List (Nat × List Nat) → World → Option World
  | [], w => some w
  | (i, key) :: rest, w =>
    match stepWorker g getPublicKeyFast i key w with
    | none => none
    | some w' => runSchedule g getPublicKeyFast rest w'

/-! ## Vocabulary of the statements and of their proofs -/

/-- A byte sequence: every element is a `uint8_t`. -/
def IsBytes (b : List Nat) : Prop := ∀ x ∈ b, x < 256

/-- Lowercase hexadecimal digit of a nibble, from the text `0123456789abcdef`. -/
def hexDigit (n : Nat) : Char := "0123456789abcdef".toList.getD n '0'

/-- The two hexadecimal characters of each byte, concatenated. -/
def hexPairs (a : List Nat) : List Char :=
  a.flatMap fun b => [hexDigit (b / 16), hexDigit (b % 16)]

/-- Character stored for a pattern character: `0` for the wildcard. -/
def maskCharOf (c : Char) : Char := if c == '?' then Char.ofNat 0 else c

/-- Case-sensitive flag stored for a pattern character. -/
def caseFlagOf (c : Char) : Bool := if c == '?' then false else isUpperHex c

/-- Explicit form of the mask compiled from a two-character prefix and a suffix. -/
def maskOf (p0 p1 : Char) (s : List Char) : Mask :=
  { prefixChar := [maskCharOf p0, maskCharOf p1]
    prefixWildcard := [p0 == '?', p1 == '?']
    prefixCaseSensitive := [caseFlagOf p0, caseFlagOf p1]
    suffixChar := s.map maskCharOf ++ List.replicate (6 - s.length) (Char.ofNat 0)
    suffixWildcard := s.map (fun c => c == '?') ++ List.replicate (6 - s.length) false
    suffixCaseSensitive := s.map caseFlagOf ++ List.replicate (6 - s.length) false
    suffixLength := s.length
    checkCase := scanUpper [p0, p1] || scanUpper s }

/-- A pattern pair is well formed: lengths 2 and 4 or 6, no invalid character. -/
def WellFormed (p s : List Char) : Prop :=
  p.length = 2 ∧ (s.length = 4 ∨ s.length = 6) ∧ scanInvalid p = false ∧ scanInvalid s = false

/-- Nibble of a digest selected by the character position `i`: the high nibble of byte `i / 2`
    for an even `i`, the low nibble for an odd one. -/
def digestNibble (d : List Nat) (i : Nat) : Nat :=
  if i % 2 = 0 then d.getD (i / 2) 0 / 16 % 16 else d.getD (i / 2) 0 % 16

/-- Character of the checksum text at position `i`, from the character `c` of the lowercase
    text and the digest `d`. -/
def checksumChar (c : Char) (d : List Nat) (i : Nat) : Char :=
  if ('a' ≤ c ∧ c ≤ 'f') ∧ 8 ≤ digestNibble d i then c.toUpper else c

/-- Address used to exercise the theorems: `5aaeb6053f3e94c9b9a09f33669435e7ef1beaed`. -/
def testAddress : List Nat :=
  [0x5a, 0xae, 0xb6, 0x05, 0x3f, 0x3e, 0x94, 0xc9, 0xb9, 0xa0,
   0x9f, 0x33, 0x66, 0x94, 0x35, 0xe7, 0xef, 0x1b, 0xea, 0xed]

/-- A position matches: the address character equals the pattern character exactly when the
    position is case-sensitive, and after lowercasing both otherwise. -/
def PositionMatches (caseSensitive : Bool) (maskChar addrChar : Char) : Prop :=
  if caseSensitive then addrChar = maskChar else tolower addrChar = tolower maskChar

/-- Boolean outcome of one comparison. -/
def positionOk (wildcard caseSensitive : Bool) (maskChar addrChar : Char) : Bool :=
  wildcard || (if caseSensitive then addrChar == maskChar else tolower addrChar == tolower maskChar)

/-! ## The sponge of the specification -/

/-- Padded message: `b` followed by `0x01`, zero bytes and a final `0x80`, up to the next
    multiple of 136 strictly above the length of `b`; the two padding bytes are the single
    byte `0x81` when only one byte is missing. -/
def padMessage (b : List Nat) : List Nat :=
  let n := (b.length / 136 + 1) * 136
  if n - b.length = 1 then b ++ [0x81]
  else b ++ [0x01] ++ List.replicate (n - b.length - 2) 0 ++ [0x80]

/-- Little-endian value of a byte string. -/
def leValue : List Nat → Nat
  | [] => 0
  | x :: xs => x + 256 * leValue xs

/-- Block number `k` of a message, 136 bytes. -/
def blockAt (msg : List Nat) (k : Nat) : List Nat := (msg.drop (136 * k)).take 136

/-- Absorption of a block: its 17 little-endian 64-bit words are XORed into the lanes 0 to 16,
    the lanes 17 to 24 are kept, and `keccakf` is applied. -/
def absorbRef (st block : List Nat) : List Nat :=
  keccakf ((List.range 25).map fun i =>
    if i < 17 then lane st i ^^^ leValue ((block.drop (8 * i)).take 8) else lane st i)

/-- State of the sponge after the first `k` blocks of a message, from the all-zero state. -/
def spongeAfter (msg : List Nat) (k : Nat) : List Nat :=
  ((List.range k).map (blockAt msg)).foldl absorbRef (List.replicate 25 0)

/-- Output: the lanes 0 to 3, each serialised little-endian. -/
def squeezeRef (st : List Nat) : List Nat :=
  (List.range 32).map fun k => lane st (k / 8) / 256 ^ (k % 8) % 256

/-- Reference digest of the specification. -/
def spongeDigest (b : List Nat) : List Nat :=
  squeezeRef (spongeAfter (padMessage b) ((padMessage b).length / 136))

/-- Rotation offset number `i` of the Keccak standard: the triangular number
    `(i+1)(i+2)/2` modulo the lane width. -/
def rotcStd (i : Nat) : Nat := ((i + 1) * (i + 2) / 2) % 64

/-- Point number `n` of the orbit of `(x, y) = (1, 0)` under `(x, y) ↦ (y, (2x + 3y) mod 5)`. -/
def piOrbit : Nat → Nat × Nat
  | 0 => (1, 0)
  | n + 1 => ((piOrbit n).2, (2 * (piOrbit n).1 + 3 * (piOrbit n).2) % 5)

/-- Lane index `x + 5y` of the point number `i + 1` of the orbit. -/
def pilnStd (i : Nat) : Nat := (piOrbit (i + 1)).1 + 5 * (piOrbit (i + 1)).2

/-- One step of the linear feedback shift register of polynomial `x^8 + x^6 + x^5 + x^4 + 1`
    on its 8-bit state. -/
def lfsrStep (s : Nat) : Nat :=
  if (s <<< 1) &&& 0x100 ≠ 0 then ((s <<< 1) ^^^ 0x71) % 256 else s <<< 1

/-- State of the register after `t` steps from the state `1`. -/
def lfsrState : Nat → Nat
  | 0 => 1
  | t + 1 => lfsrStep (lfsrState t)

/-- Output bit number `t` of the register. -/
def rcBit (t : Nat) : Nat := lfsrState t % 2

/-- Round constant of round `r` of the standard: bit `2^j - 1` is the output bit `j + 7r` of
    the register for `j < 7`, every other bit is zero. -/
def rndcStd (r : Nat) : Nat :=
  ((List.range 7).map fun j => rcBit (j + 7 * r) * 2 ^ (2 ^ j - 1)).sum

/-- State after the first `n` rounds, each round being the diffusion, the permutation with
    rotation, the nonlinear mixing and the injection of the constant, in this order. -/
def applyRounds : Nat → List Nat → List Nat
  | 0, s => s
  | n + 1, s => iota n (chi (rhoPi (theta (applyRounds n s))))

/-- Column parity `C[x]` of a state: the XOR of the five lanes `x`, `x+5`, `x+10`, `x+15`,
    `x+20`. -/
def columnParity (st : List Nat) (x : Nat) : Nat :=
  lane st x ^^^ lane st (x + 5) ^^^ lane st (x + 10) ^^^ lane st (x + 15) ^^^ lane st (x + 20)

/-- Pre-step lane read by the iteration `i` of the rho-pi loop: lane 1 for `i = 0`, lane
    `keccakf_piln[i-1]` afterwards. -/
def rhoPiSource (i : Nat) : Nat := if i = 0 then 1 else lane keccakf_piln (i - 1)

/-- A state of 25 lanes of 64 bits. -/
def IsState (st : List Nat) : Prop := st.length = 25 ∧ ∀ x ∈ st, x < W64

/-- Iteration of the rho-pi loop that writes the lane `k`. -/
def rhoPiIter (k : Nat) : Nat := keccakf_piln.indexOf k

/-- Lane written from the pre-step value of the lane `j`. -/
def rhoPiTarget (j : Nat) : Nat :=
  lane keccakf_piln (((List.range 24).map rhoPiSource).indexOf j)

/-- Pre-image of a state under the rho-pi step. -/
def rhoPiInverse (st : List Nat) : List Nat :=
  (List.range 25).map fun j =>
    if j = 0 then lane st 0
    else ROTL64 (lane st (rhoPiTarget j)) (64 - lane keccakf_rotc (rhoPiIter (rhoPiTarget j)))

/-- Invariant of the local variables of `keccak256`: 25 lanes, a buffer of 144 bytes. -/
def SpongeOk (s : Sponge) : Prop := s.st.length = 25 ∧ s.temp.length = 144

/-- The program points at which the worker holds `resultMutex`. -/
def WorkerPc.inCritical : WorkerPc → Bool
  | .testFound | .writeKey | .writeAddress | .writeFound | .storeFound | .unlockResult => true
  | _ => false

/-- The program points of the branch that writes `foundResult` and sets `found`. -/
def WorkerPc.isWriting : WorkerPc → Bool
  | .writeKey | .writeAddress | .writeFound | .storeFound => true
  | _ => false

/-- The program points that a worker reaches only once `found` is set. -/
def WorkerPc.afterFound : WorkerPc → Bool
  | .unlockResult | .flush | .done => true
  | _ => false

/-- The program points between a match and the release of the mutex. -/
def WorkerPc.hasMatched : WorkerPc → Bool
  | .lockResult | .testFound | .writeKey | .writeAddress | .writeFound | .storeFound
  | .unlockResult => true
  | _ => false

/-- State of `found` and `foundResult` at each program point of the worker that writes
    them. -/
def WriterStage (w : World) (wk : Worker) : Prop :=
  match wk.pc with
  | .writeKey => w.found = false ∧ w.foundResult = foundResult0
  | .writeAddress =>
    w.found = false ∧
    w.foundResult = { privateKey := wk.privateKey, addressBytes := [], found := false }
  | .writeFound =>
    w.found = false ∧
    w.foundResult =
      { privateKey := wk.privateKey, addressBytes := wk.addressBytes, found := false }
  | .storeFound =>
    w.found = false ∧
    w.foundResult =
      { privateKey := wk.privateKey, addressBytes := wk.addressBytes, found := true }
  | .unlockResult | .flush | .done =>
    w.found = true ∧
    w.foundResult =
      { privateKey := wk.privateKey, addressBytes := wk.addressBytes, found := true }
  | _ => False

/-- Exactness of the attempt counter of one worker. -/
def CountInv (wk : Worker) : Prop :=
  wk.localAttempts < reportInterval ∧
  (wk.pc ≠ .done →
    wk.added.sum + wk.localAttempts = wk.iterations ∧ ∀ x ∈ wk.added, x = reportInterval) ∧
  (wk.pc = .done →
    wk.added.sum = wk.iterations ∧
    ∃ m, wk.added = List.replicate m reportInterval ++ [wk.localAttempts])

/-- Invariant of the worker `j`. -/
def WorkerInv (w : World) (j : Nat) (wk : Worker) : Prop :=
  (wk.pc.inCritical = true ↔ w.resultMutex = some j) ∧
  (wk.pc.isWriting = true → w.writers = [j]) ∧
  (wk.pc.afterFound = true → w.found = true) ∧
  (w.writers = [j] → WriterStage w wk ∧ 1 ≤ wk.iterations) ∧
  (wk.pc.hasMatched = true → 1 ≤ wk.iterations) ∧
  CountInv wk

/-- Sum of the amounts that the workers have added to `totalAttempts`. -/
def totalAdded (ws : List Worker) : Nat := (ws.map fun wk => wk.added.sum).sum

/-- Invariant of the program. -/
def WorldInv (w : World) : Prop :=
  (∀ j wk, w.workers[j]? = some wk → WorkerInv w j wk) ∧
  (w.writers = [] → w.found = false ∧ w.foundResult = foundResult0) ∧
  w.writers.length ≤ 1 ∧
  (∀ x ∈ w.writers, x < w.workers.length) ∧
  w.totalAttempts = totalAdded w.workers % 18446744073709551616

/-- The address `a` is the one derived from the private key `k`, and it matches the mask. -/
def Derived (g : Mask) (ec : List Nat → List Nat) (k a : List Nat) : Prop :=
  ec k ≠ [] ∧ getAddressBytes (ec k) = some a ∧ matchesMaskFast g a = some true

/-- A worker that has matched holds a key and its address; so does a complete record. -/
def ResultInv (g : Mask) (ec : List Nat → List Nat) (w : World) : Prop :=
  (∀ (j : Nat) (wk : Worker), w.workers[j]? = some wk → wk.pc.hasMatched = true →
    Derived g ec wk.privateKey wk.addressBytes) ∧
  (w.foundResult.found = true →
    Derived g ec w.foundResult.privateKey w.foundResult.addressBytes)

/-- The mask compiled from the all-wildcard texts `??` and `????`. -/
def wildMask : Mask := maskOf '?' '?' "????".toList

/-- A key derivation that never fails, for the examples: the marker byte, then the private
    key twice. -/
def doubledKey (key : List Nat) : List Nat := 4 :: (key ++ key)

/-- A schedule on two workers that both match, the worker 1 taking the mutex first. -/
def raceSchedule : List (Nat × List Nat) :=
  [(0, []), (1, []), (0, List.replicate 32 1), (1, List.replicate 32 2), (1, []), (1, []),
   (1, []), (1, []), (1, []), (1, []), (1, []), (0, []), (0, []), (0, []), (0, []), (1, [])]

/-- State that `raceSchedule` reaches. -/
def raceWorld : World :=
  { totalAttempts := 2, found := true,
    foundResult :=
      { privateKey := List.replicate 32 2,
        addressBytes :=
          [68, 14, 70, 47, 39, 19, 166, 185, 168, 62, 109, 168, 112, 165, 46, 254, 132, 170, 58,
            255],
        found := true },
    resultMutex := none,
    workers :=
      [{ pc := .done, privateKey := List.replicate 32 1,
         addressBytes :=
           [240, 32, 122, 10, 62, 49, 174, 8, 57, 73, 122, 90, 198, 212, 37, 45, 252, 53, 87,
             127],
         localAttempts := 1, iterations := 1, added := [1] },
       { pc := .done, privateKey := List.replicate 32 2,
         addressBytes :=
           [68, 14, 70, 47, 39, 19, 166, 185, 168, 62, 109, 168, 112, 165, 46, 254, 132, 170, 58,
             255],
         localAttempts := 1, iterations := 1, added := [1] }],
    writers := [1] }

/-- Number of steps that a worker at a program point can still take when every attempt
    matches. -/
def WorkerPc.rank : WorkerPc → Nat
  | .loopTest => 10
  | .loopBody => 9
  | .lockResult => 8
  | .testFound => 7
  | .writeKey => 6
  | .writeAddress => 5
  | .writeFound => 4
  | .storeFound => 3
  | .unlockResult => 2
  | .flush => 1
  | .done => 0

/-- Sum of the ranks of the workers. -/
def totalRank (ws : List Worker) : Nat := (ws.map fun wk => wk.pc.rank).sum

/-- A worker that has entered at most one loop body, and none before its first attempt. -/
def OneAttempt (wk : Worker) : Prop :=
  wk.iterations ≤ 1 ∧ (wk.pc = .loopTest ∨ wk.pc = .loopBody → wk.iterations = 0)

/-- Every worker has made at most one attempt, and the mutex is held by a worker. -/
def AttemptInv (w : World) : Prop :=
  (∀ (j : Nat) (wk : Worker), w.workers[j]? = some wk → OneAttempt wk) ∧
  (∀ j, w.resultMutex = some j → j < w.workers.length)

/-- Every private key has a public key, whose address the mask accepts. -/
def AlwaysMatch (g : Mask) (ec : List Nat → List Nat) : Prop :=
  ∀ key, ec key ≠ [] ∧
    ∃ a, getAddressBytes (ec key) = some a ∧ matchesMaskFast g a = some true

/-- A schedule on two workers: the worker 0 runs to its end, then the worker 1 starts. -/
def lateSchedule : List (Nat × List Nat) :=
  [(0, []), (0, List.replicate 32 1), (0, []), (0, []), (0, []), (0, []), (0, []), (0, []),
   (0, []), (0, []), (1, []), (1, [])]

/-- State that `lateSchedule` reaches. -/
def lateWorld : World :=
  { totalAttempts := 1, found := true,
    foundResult :=
      { privateKey := List.replicate 32 1,
        addressBytes :=
          [240, 32, 122, 10, 62, 49, 174, 8, 57, 73, 122, 90, 198, 212, 37, 45, 252, 53, 87,
            127],
        found := true },
    resultMutex := none,
    workers :=
      [{ pc := .done, privateKey := List.replicate 32 1,
         addressBytes :=
           [240, 32, 122, 10, 62, 49, 174, 8, 57, 73, 122, 90, 198, 212, 37, 45, 252, 53, 87,
             127],
         localAttempts := 1, iterations := 1, added := [1] },
       { pc := .done, privateKey := List.replicate 32 0, addressBytes := [],
         localAttempts := 0, iterations := 0, added := [0] }],
    writers := [0] }

/-! ## Hexadecimal text of an address -/

set_option maxRecDepth 100000 in
theorem putHexW2_byte : ∀ b, b < 256 → putHexW2 b = [hexDigit (b / 16), hexDigit (b % 16)] := by
  decide!

set_option maxRecDepth 100000 in
theorem hexChars_byte : ∀ b, b < 256 →
    [hexChars.getD ((b >>> 4) &&& 0x0F) '0', hexChars.getD (b &&& 0x0F) '0']
      = [hexDigit (b / 16), hexDigit (b % 16)] := by
  decide!

theorem foldl_append_flatMap {α β : Type} (f : α → List β) (l : List α) (init : List β) :
    l.foldl (fun s x => s ++ f x) init = init ++ l.flatMap f := by
  induction l generalizing init with
  | nil => simp
  | cons x xs ih => simp [ih]

theorem flatMap_congr_mem {α β : Type} (f g : α → List β) (l : List α)
    (h : ∀ x ∈ l, f x = g x) : l.flatMap f = l.flatMap g := by
  induction l with
  | nil => rfl
  | cons x xs ih =>
    simp only [List.flatMap_cons]
    rw [h x (List.mem_cons_self _ _), ih fun y hy => h y (List.mem_cons_of_mem _ hy)]

theorem addressBytesToHex_eq (a : List Nat) (hb : IsBytes a) :
    addressBytesToHex a = '0' :: 'x' :: hexPairs a := by
  unfold addressBytesToHex hexPairs
  rw [foldl_append_flatMap, flatMap_congr_mem _ _ a fun x hx => putHexW2_byte x (hb x hx)]
  rfl

theorem addressLower_eq (a : List Nat) (hb : IsBytes a) : addressLower a = hexPairs a := by
  unfold addressLower hexPairs
  rw [foldl_append_flatMap, flatMap_congr_mem _ _ a fun x hx => hexChars_byte x (hb x hx)]
  rfl

theorem hexPairs_length (a : List Nat) : (hexPairs a).length = 2 * a.length := by
  induction a with
  | nil => rfl
  | cons x xs ih => simp only [hexPairs, List.flatMap_cons, List.length_append, List.length_cons,
      List.length_nil] at ih ⊢; omega

theorem hexPairs_getElem? (a : List Nat) (i : Nat) (h : i < a.length) :
    (hexPairs a)[2 * i]? = some (hexDigit (a.getD i 0 / 16)) ∧
    (hexPairs a)[2 * i + 1]? = some (hexDigit (a.getD i 0 % 16)) := by
  induction a generalizing i with
  | nil => simp at h
  | cons x xs ih =>
    cases i with
    | zero => simp [hexPairs]
    | succ k =>
      have hk : k < xs.length := by simpa using h
      have e1 : 2 * (k + 1) = 2 * k + 1 + 1 := by ring
      have e2 : 2 * (k + 1) + 1 = 2 * k + 1 + 1 + 1 := by ring
      have := ih k hk
      simp only [hexPairs, List.flatMap_cons, List.cons_append, List.nil_append, e1, e2,
        List.getElem?_cons_succ, List.getD_cons_succ] at this ⊢
      exact this

/-- The nibble `k` of a text of hexadecimal pairs: character `2i` is the high digit of byte `i`
    and character `2i+1` its low digit. -/
theorem hexPairs_getD (a : List Nat) (k : Nat) (h : k < 2 * a.length) :
    (hexPairs a)[k]? =
      some (hexDigit (if k % 2 = 0 then a.getD (k / 2) 0 / 16 else a.getD (k / 2) 0 % 16)) := by
  have hi : k / 2 < a.length := by omega
  obtain ⟨h0, h1⟩ := hexPairs_getElem? a (k / 2) hi
  rcases Nat.mod_two_eq_zero_or_one k with hk | hk
  · have : 2 * (k / 2) = k := by omega
    rw [this] at h0; simp [hk, h0]
  · have : 2 * (k / 2) + 1 = k := by omega
    rw [this] at h1; simp [hk, h1]

/-- C6: for a 20-byte address `addressBytesToHex` is the marker `0x` followed by exactly 40
    characters, and for every byte index `i < 20` the characters `2i` and `2i+1` after the marker
    are the lowercase hexadecimal digits of the high and of the low nibble of byte `i` (the high
    digit is `'0'` for a byte below `0x10`). -/
theorem addressBytesToHex_spec (a : List Nat) (hlen : a.length = 20) (hb : IsBytes a) :
    ∃ T : List Char, addressBytesToHex a = '0' :: 'x' :: T ∧ T.length = 40 ∧
      ∀ i, i < 20 →
        T[2 * i]? = some ("0123456789abcdef".toList.getD (a.getD i 0 / 16) '0') ∧
        T[2 * i + 1]? = some ("0123456789abcdef".toList.getD (a.getD i 0 % 16) '0') ∧
        (a.getD i 0 < 16 → T[2 * i]? = some '0') := by
  refine ⟨hexPairs a, addressBytesToHex_eq a hb, by rw [hexPairs_length, hlen], ?_⟩
  intro i hi
  obtain ⟨h0, h1⟩ := hexPairs_getElem? a i (by omega)
  refine ⟨h0, h1, fun hlt => ?_⟩
  rw [h0, Nat.div_eq_of_lt hlt]; rfl

theorem addressBytesToHex_spec_witness :
    (List.replicate 20 171).length = 20 ∧ IsBytes (List.replicate 20 171) ∧
    ∃ T : List Char, addressBytesToHex (List.replicate 20 171) = '0' :: 'x' :: T ∧ T.length = 40 ∧
      ∀ i, i < 20 →
        T[2 * i]? = some ("0123456789abcdef".toList.getD ((List.replicate 20 171).getD i 0 / 16) '0') ∧
        T[2 * i + 1]? = some ("0123456789abcdef".toList.getD ((List.replicate 20 171).getD i 0 % 16) '0') ∧
        ((List.replicate 20 171).getD i 0 < 16 → T[2 * i]? = some '0') :=
  ⟨by decide, by unfold IsBytes; decide,
    addressBytesToHex_spec (List.replicate 20 171) (by decide) (by unfold IsBytes; decide)⟩

/-! ## Compilation of the mask -/

theorem fillPrefix_eq (original : List Char) (g : Mask) (i : Nat) :
    fillPrefix original g i =
      { g with prefixWildcard := g.prefixWildcard.set i (original.getD i (Char.ofNat 0) == '?')
               prefixChar := g.prefixChar.set i (maskCharOf (original.getD i (Char.ofNat 0)))
               prefixCaseSensitive :=
                 g.prefixCaseSensitive.set i (caseFlagOf (original.getD i (Char.ofNat 0))) } := by
  unfold fillPrefix maskCharOf caseFlagOf
  generalize original.getD i (Char.ofNat 0) = c
  by_cases h : c = '?' <;> simp [h, beq_iff_eq]
  all_goals (congr 1; simp [h])

theorem fillSuffix_eq (original : List Char) (g : Mask) (i : Nat) :
    fillSuffix original g i =
      { g with suffixWildcard := g.suffixWildcard.set i (original.getD i (Char.ofNat 0) == '?')
               suffixChar := g.suffixChar.set i (maskCharOf (original.getD i (Char.ofNat 0)))
               suffixCaseSensitive :=
                 g.suffixCaseSensitive.set i (caseFlagOf (original.getD i (Char.ofNat 0))) } := by
  unfold fillSuffix maskCharOf caseFlagOf
  generalize original.getD i (Char.ofNat 0) = c
  by_cases h : c = '?' <;> simp [h, beq_iff_eq]
  all_goals (congr 1; simp [h])

theorem scanInvalid_eq_false (l : List Char) :
    scanInvalid l = false ↔ ∀ c ∈ l, isValidHexChar c = true := by
  induction l with
  | nil => simp [scanInvalid]
  | cons x xs ih =>
    by_cases h : isValidHexChar x = true
    · simp [scanInvalid, h, ih]
    · simp [scanInvalid, h]

theorem scanUpper_eq_any (l : List Char) : scanUpper l = l.any isUpperHex := by
  induction l with
  | nil => rfl
  | cons x xs ih =>
    by_cases h : isUpperHex x = true
    · simp [scanUpper, h]
    · simp [scanUpper, h, ih]

/-- The accepting path of `mainSetup`, for a suffix of four characters. -/
theorem mainSetup_four (n : Nat) (p0 p1 s0 s1 s2 s3 : Char)
    (hp : scanInvalid [p0, p1] = false) (hs : scanInvalid [s0, s1, s2, s3] = false) :
    mainSetup n [p0, p1] [s0, s1, s2, s3] mainState0 =
      { globalMask := maskOf p0 p1 [s0, s1, s2, s3]
        threadsStarted := if n = 0 then 4 else n
        returned := none } := by
  simp [mainSetup, hp, hs, mainState0, globalMask0, fillPrefix_eq, fillSuffix_eq, maskOf,
    List.range_succ]

/-- The accepting path of `mainSetup`, for a suffix of six characters. -/
theorem mainSetup_six (n : Nat) (p0 p1 s0 s1 s2 s3 s4 s5 : Char)
    (hp : scanInvalid [p0, p1] = false) (hs : scanInvalid [s0, s1, s2, s3, s4, s5] = false) :
    mainSetup n [p0, p1] [s0, s1, s2, s3, s4, s5] mainState0 =
      { globalMask := maskOf p0 p1 [s0, s1, s2, s3, s4, s5]
        threadsStarted := if n = 0 then 4 else n
        returned := none } := by
  simp [mainSetup, hp, hs, mainState0, globalMask0, fillPrefix_eq, fillSuffix_eq, maskOf,
    List.range_succ]

theorem mainSetup_reject (n : Nat) (p s : List Char) (h : ¬ WellFormed p s) :
    mainSetup n p s mainState0 = { mainState0 with returned := some 1 } := by
  unfold WellFormed at h
  unfold mainSetup
  by_cases h1 : p.length = 2
  · by_cases h2 : s.length = 4 ∨ s.length = 6
    · by_cases h3 : scanInvalid p = false
      · have h4 : scanInvalid s = true := by
          by_contra h4; exact h ⟨h1, h2, h3, by simpa using h4⟩
        have h2' : ¬ (s.length ≠ 4 ∧ s.length ≠ 6) := by omega
        simp [h1, h2', h3, h4]
      · have h2' : ¬ (s.length ≠ 4 ∧ s.length ≠ 6) := by omega
        simp [h1, h2', h3]
    · have h2' : (s.length ≠ 4 ∧ s.length ≠ 6) := by omega
      simp [h1, h2']
  · simp [h1]

theorem mainSetup_accept (n : Nat) (p s : List Char) (h : WellFormed p s) :
    ∃ p0 p1, p = [p0, p1] ∧
      mainSetup n p s mainState0 =
        { globalMask := maskOf p0 p1 s, threadsStarted := if n = 0 then 4 else n,
          returned := none } := by
  obtain ⟨h1, h2, h3, h4⟩ := h
  match p, h1 with
  | [p0, p1], _ =>
    refine ⟨p0, p1, rfl, ?_⟩
    rcases h2 with h2 | h2
    · match s, h2 with
      | [s0, s1, s2, s3], _ => exact mainSetup_four n p0 p1 s0 s1 s2 s3 h3 h4
    · match s, h2 with
      | [s0, s1, s2, s3, s4, s5], _ => exact mainSetup_six n p0 p1 s0 s1 s2 s3 s4 s5 h3 h4

theorem compileMask_some (p s : List Char) (g : Mask) (h : compileMask p s = some g) :
    WellFormed p s ∧ ∃ p0 p1, p = [p0, p1] ∧ g = maskOf p0 p1 s := by
  by_cases hw : WellFormed p s
  · obtain ⟨p0, p1, hp, hm⟩ := mainSetup_accept 1 p s hw
    refine ⟨hw, p0, p1, hp, ?_⟩
    simp [compileMask, hm] at h
    exact h.symm
  · simp [compileMask, mainSetup_reject 1 p s hw] at h

theorem compileMask_wellFormed (p s : List Char) (h : WellFormed p s) :
    ∃ p0 p1, p = [p0, p1] ∧ compileMask p s = some (maskOf p0 p1 s) := by
  obtain ⟨p0, p1, hp, hm⟩ := mainSetup_accept 1 p s h
  exact ⟨p0, p1, hp, by simp [compileMask, hm]⟩

theorem isValidHexChar_iff (c : Char) :
    isValidHexChar c = true ↔ c ∈ "0123456789abcdefABCDEF?".toList := by
  constructor
  · intro h
    have hc : c = Char.ofNat c.toNat := (Char.ofNat_toNat c).symm
    simp only [isValidHexChar, Bool.or_eq_true, Bool.and_eq_true, decide_eq_true_eq,
      beq_iff_eq] at h
    rcases h with ((h | h) | h) | h
    · rw [hc]; generalize c.toNat = n at h
      obtain ⟨h1, h2⟩ := h
      change 48 ≤ n at h1; change n ≤ 57 at h2
      interval_cases n <;> decide
    · rw [hc]; generalize c.toNat = n at h
      obtain ⟨h1, h2⟩ := h
      change 97 ≤ n at h1; change n ≤ 102 at h2
      interval_cases n <;> decide
    · rw [hc]; generalize c.toNat = n at h
      obtain ⟨h1, h2⟩ := h
      change 65 ≤ n at h1; change n ≤ 70 at h2
      interval_cases n <;> decide
    · subst h; decide
  · intro h
    have : ∀ x ∈ "0123456789abcdefABCDEF?".toList, isValidHexChar x = true := by decide
    exact this c h

theorem isUpperHex_iff (c : Char) : isUpperHex c = true ↔ c ∈ "ABCDEF".toList := by
  constructor
  · intro h
    have hc : c = Char.ofNat c.toNat := (Char.ofNat_toNat c).symm
    simp only [isUpperHex, Bool.and_eq_true, decide_eq_true_eq] at h
    rw [hc]; generalize c.toNat = n at h
    obtain ⟨h1, h2⟩ := h
    change 65 ≤ n at h1; change n ≤ 70 at h2
    interval_cases n <;> decide
  · intro h
    have : ∀ x ∈ "ABCDEF".toList, isUpperHex x = true := by decide
    exact this c h

theorem caseFlagOf_eq (c : Char) : caseFlagOf c = decide (c ∈ "ABCDEF".toList) := by
  unfold caseFlagOf
  by_cases h : c = '?'
  · subst h; decide
  · have : (c == '?') = false := by simpa using h
    rw [this]
    by_cases hu : isUpperHex c = true
    · simp only [Bool.false_eq_true, if_false, hu]
      exact (decide_eq_true ((isUpperHex_iff c).1 hu)).symm
    · have hn : ¬ c ∈ "ABCDEF".toList := fun hm => hu ((isUpperHex_iff c).2 hm)
      simp only [Bool.false_eq_true, if_false]
      rw [decide_eq_false hn]; simpa using hu

theorem beq_wild (c : Char) : (c == '?') = decide (c = '?') := rfl

theorem wellFormed_iff (p s : List Char) :
    WellFormed p s ↔ p.length = 2 ∧ (s.length = 4 ∨ s.length = 6) ∧
      ∀ c ∈ p ++ s, c ∈ "0123456789abcdefABCDEF?".toList := by
  unfold WellFormed
  rw [scanInvalid_eq_false, scanInvalid_eq_false]
  constructor
  · rintro ⟨h1, h2, h3, h4⟩
    refine ⟨h1, h2, fun c hc => ?_⟩
    rcases List.mem_append.1 hc with hc | hc
    · exact (isValidHexChar_iff c).1 (h3 c hc)
    · exact (isValidHexChar_iff c).1 (h4 c hc)
  · rintro ⟨h1, h2, h3⟩
    exact ⟨h1, h2, fun c hc => (isValidHexChar_iff c).2 (h3 c (List.mem_append_left _ hc)),
      fun c hc => (isValidHexChar_iff c).2 (h3 c (List.mem_append_right _ hc))⟩

theorem compileMask_isSome_iff (p s : List Char) :
    (compileMask p s).isSome = true ↔ WellFormed p s := by
  by_cases hw : WellFormed p s
  · obtain ⟨p0, p1, _, hm⟩ := compileMask_wellFormed p s hw
    simp [hm, hw]
  · simp [compileMask, mainSetup_reject 1 p s hw, hw]

/-- C8: mask compilation accepts a pattern pair exactly when the prefix has 2 characters, the
    suffix 4 or 6, and every character is a hexadecimal digit of either case or `?`; on any
    other pair `main` returns 1 with the global mask as it was and no worker started. A suffix
    of 5 characters, an empty prefix and patterns holding `g` or `G` are rejected. -/
theorem compileMask_accepts_iff (numThreads : Nat) (p s : List Char) :
    ((compileMask p s).isSome = true ↔
      p.length = 2 ∧ (s.length = 4 ∨ s.length = 6) ∧
        ∀ c ∈ p ++ s, c ∈ "0123456789abcdefABCDEF?".toList) ∧
    ((mainSetup numThreads p s mainState0).returned = none ↔ (compileMask p s).isSome = true) ∧
    ((compileMask p s).isSome = false →
      mainSetup numThreads p s mainState0 =
        { globalMask := globalMask0, threadsStarted := 0, returned := some 1 }) ∧
    compileMask "a?".toList "??cd1".toList = none ∧
    compileMask "".toList "??cd".toList = none ∧
    compileMask "g?".toList "??cd".toList = none ∧
    compileMask "a?".toList "??Gd".toList = none := by
  refine ⟨(compileMask_isSome_iff p s).trans (wellFormed_iff p s), ?_, ?_,
    by decide, by decide, by decide, by decide⟩
  · rw [compileMask_isSome_iff]
    by_cases hw : WellFormed p s
    · obtain ⟨p0, p1, _, hm⟩ := mainSetup_accept numThreads p s hw
      simp [hm, hw]
    · simp [mainSetup_reject numThreads p s hw, hw]
  · intro h
    have hw : ¬ WellFormed p s := by
      intro hw
      rw [(compileMask_isSome_iff p s).2 hw] at h
      exact Bool.noConfusion h
    rw [mainSetup_reject numThreads p s hw]; rfl

theorem any_iff_exists_index (l : List Char) (f : Char → Bool) :
    l.any f = true ↔ ∃ i, i < l.length ∧ (l.map f)[i]? = some true := by
  rw [List.any_eq_true]
  constructor
  · rintro ⟨x, hx, hf⟩
    obtain ⟨i, hi, rfl⟩ := List.getElem_of_mem hx
    exact ⟨i, hi, by simp [List.getElem?_eq_getElem hi, hf]⟩
  · rintro ⟨i, hi, h⟩
    refine ⟨l[i], List.getElem_mem _, ?_⟩
    simpa [List.getElem?_eq_getElem hi] using h

/-- C9: in the mask compiled from an accepted pattern pair, at every prefix and suffix position
    the wildcard flag says that the pattern character is `?`, the case-sensitive flag says that
    it is one of `A`..`F`, a position that is not a wildcard stores the pattern character itself,
    `suffixLength` is the length of the suffix pattern, and `checkCase` holds exactly when some
    prefix or suffix position is case-sensitive. -/
theorem compileMask_fields (p s : List Char) (g : Mask) (h : compileMask p s = some g) :
    (∀ i, i < 2 →
      g.prefixWildcard[i]? = some (decide (p.getD i '0' = '?')) ∧
      g.prefixCaseSensitive[i]? = some (decide (p.getD i '0' ∈ "ABCDEF".toList)) ∧
      (p.getD i '0' ≠ '?' → g.prefixChar[i]? = some (p.getD i '0'))) ∧
    (∀ i, i < s.length →
      g.suffixWildcard[i]? = some (decide (s.getD i '0' = '?')) ∧
      g.suffixCaseSensitive[i]? = some (decide (s.getD i '0' ∈ "ABCDEF".toList)) ∧
      (s.getD i '0' ≠ '?' → g.suffixChar[i]? = some (s.getD i '0'))) ∧
    g.suffixLength = s.length ∧
    (g.checkCase = true ↔
      (∃ i, i < 2 ∧ g.prefixCaseSensitive[i]? = some true) ∨
      (∃ i, i < s.length ∧ g.suffixCaseSensitive[i]? = some true)) := by
  obtain ⟨_, p0, p1, rfl, rfl⟩ := compileMask_some p s g h
  refine ⟨?_, ?_, rfl, ?_⟩
  · intro i hi
    have : i = 0 ∨ i = 1 := by omega
    rcases this with rfl | rfl
    · refine ⟨by simp [maskOf, beq_wild], by simp [maskOf, caseFlagOf_eq], fun hne => ?_⟩
      have hne' : ¬ p0 = '?' := by simpa using hne
      simp [maskOf, maskCharOf, hne']
    · refine ⟨by simp [maskOf, beq_wild], by simp [maskOf, caseFlagOf_eq], fun hne => ?_⟩
      have hne' : ¬ p1 = '?' := by simpa using hne
      simp [maskOf, maskCharOf, hne']
  · intro i hi
    have hget : s.getD i '0' = s[i] := by simp [List.getD_eq_getElem?_getD, List.getElem?_eq_getElem hi]
    rw [hget]
    refine ⟨?_, ?_, fun hne => ?_⟩
    · simp [maskOf, List.getElem?_append_left, hi, List.getElem?_eq_getElem, beq_wild]
    · simp [maskOf, List.getElem?_append_left, hi, List.getElem?_eq_getElem, caseFlagOf_eq]
    · simp [maskOf, List.getElem?_append_left, hi, List.getElem?_eq_getElem, maskCharOf, hne]
  · have hs : ∀ i, i < s.length →
        (s.map caseFlagOf ++ List.replicate (6 - s.length) false)[i]? = (s.map isUpperHex)[i]? := by
      intro i hi
      rw [List.getElem?_append_left (by simpa using hi)]
      simp only [List.getElem?_map, List.getElem?_eq_getElem hi, Option.map_some']
      rw [caseFlagOf_eq]
      congr 1
      by_cases hu : isUpperHex s[i] = true
      · rw [hu]; exact decide_eq_true ((isUpperHex_iff _).1 hu)
      · have hn : ¬ s[i] ∈ "ABCDEF".toList := fun hm => hu ((isUpperHex_iff _).2 hm)
        rw [decide_eq_false hn]; simpa using hu
    have hp : ∀ c, caseFlagOf c = isUpperHex c := by
      intro c
      rw [caseFlagOf_eq]
      by_cases hu : isUpperHex c = true
      · rw [hu]; exact decide_eq_true ((isUpperHex_iff _).1 hu)
      · have hn : ¬ c ∈ "ABCDEF".toList := fun hm => hu ((isUpperHex_iff _).2 hm)
        rw [decide_eq_false hn]; simpa using hu
    simp only [maskOf, Bool.or_eq_true, scanUpper_eq_any]
    rw [any_iff_exists_index, any_iff_exists_index]
    constructor
    · rintro (⟨i, hi, hx⟩ | ⟨i, hi, hx⟩)
      · left; refine ⟨i, by simpa using hi, ?_⟩
        simpa [hp] using hx
      · right; exact ⟨i, hi, by rw [hs i hi]; exact hx⟩
    · rintro (⟨i, hi, hx⟩ | ⟨i, hi, hx⟩)
      · left; refine ⟨i, by simpa using hi, ?_⟩
        simpa [hp] using hx
      · right; exact ⟨i, hi, by rw [← hs i hi]; exact hx⟩

theorem compileMask_fields_witness :
    compileMask "A?".toList "??cd12".toList = some (maskOf 'A' '?' "??cd12".toList) ∧
    (maskOf 'A' '?' "??cd12".toList).suffixLength = 6 ∧
    (maskOf 'A' '?' "??cd12".toList).checkCase = true :=
  ⟨by decide,
   (compileMask_fields "A?".toList "??cd12".toList (maskOf 'A' '?' "??cd12".toList)
      (by decide)).2.2.1,
   by decide⟩

/-! ## Termination of the absorbing loop and size of the digest -/

theorem rsiz_eq : rsiz = 136 := rfl

theorem foldl_length_inv {α : Type} (f : List Nat → α → List Nat)
    (hf : ∀ st x, (f st x).length = st.length) (l : List α) (st : List Nat) :
    (l.foldl f st).length = st.length := by
  induction l generalizing st with
  | nil => rfl
  | cons x xs ih => rw [List.foldl_cons, ih, hf]

theorem absorbLoop_some (input : List Nat) (fuel : Nat) (s : Sponge)
    (h : (input.length - s.offset) / 136 ≤ fuel) :
    ∃ s', absorbLoop input fuel s = some s' := by
  induction fuel generalizing s with
  | zero =>
    have : ¬ (s.offset + rsiz ≤ input.length) := by rw [rsiz_eq]; omega
    exact ⟨s, by simp [absorbLoop, this]⟩
  | succ k ih =>
    by_cases hc : s.offset + rsiz ≤ input.length
    · have hk : (input.length - (absorbBlock input s).offset) / 136 ≤ k := by
        rw [rsiz_eq] at hc
        show (input.length - (s.offset + rsiz)) / 136 ≤ k
        rw [rsiz_eq]; omega
      obtain ⟨s', hs'⟩ := ih (absorbBlock input s) hk
      exact ⟨s', by simp [absorbLoop, hc, hs']⟩
    · exact ⟨s, by simp [absorbLoop, hc]⟩

theorem extract_length (st : List Nat) : (extract st).length = 32 := by
  unfold extract
  rw [foldl_length_inv]
  · simp
  · intro out i
    exact foldl_length_inv _ (fun o j => by simp) _ _

theorem keccak256Run_some (temp0 : List Nat) (fuel : Nat) (input : List Nat)
    (h : input.length / 136 ≤ fuel) :
    ∃ d c, keccak256Run temp0 fuel input = some (d, c) ∧ d.length = 32 := by
  have h0 : (input.length - (Sponge.mk (List.replicate 25 0) temp0 0 0).offset) / 136 ≤ fuel := h
  obtain ⟨s', hs'⟩ := absorbLoop_some input fuel _ h0
  refine ⟨extract (absorbLast input s').st, (absorbLast input s').calls, ?_,
    extract_length (absorbLast input s').st⟩
  unfold keccak256Run
  rw [hs']

theorem keccak256_length (input : List Nat) : (keccak256 input).length = 32 := by
  obtain ⟨d, c, hr, hlen⟩ := keccak256Run_some (List.replicate 144 0) (input.length / rsiz) input
    (by rw [rsiz_eq])
  unfold keccak256
  rw [hr]
  exact hlen

/-! ## Address of a public key -/

/-- C5: for a non-empty public key (in particular one of 65 bytes) `getAddressBytes` answers
    an address of exactly 20 bytes, the bytes 12 to 31 of the hash of the key without its first
    byte; keys that differ in the first byte only have the same address. -/
theorem getAddressBytes_spec (pk : List Nat) (h : pk ≠ []) :
    ∃ addr, getAddressBytes pk = some addr ∧ addr.length = 20 ∧
      (keccak256 pk.tail).length = 32 ∧
      (∀ i, i < 20 → addr[i]? = (keccak256 pk.tail)[12 + i]?) ∧
      ∀ tag, getAddressBytes (tag :: pk.tail) = some addr := by
  match pk, h with
  | t :: rest, _ =>
    have hl := keccak256_length rest
    refine ⟨(keccak256 rest).drop 12, ?_, ?_, hl, ?_, ?_⟩
    · simp [getAddressBytes, hl]
    · simp [hl]
    · intro i _; simp [List.getElem?_drop]
    · intro tag; simp [getAddressBytes, hl]

theorem getAddressBytes_spec_witness :
    (4 :: List.replicate 64 1) ≠ [] ∧
    ∃ addr, getAddressBytes (4 :: List.replicate 64 1) = some addr ∧ addr.length = 20 ∧
      (keccak256 (4 :: List.replicate 64 1).tail).length = 32 ∧
      (∀ i, i < 20 → addr[i]? = (keccak256 (4 :: List.replicate 64 1).tail)[12 + i]?) ∧
      ∀ tag, getAddressBytes (tag :: (4 :: List.replicate 64 1).tail) = some addr :=
  ⟨by decide, getAddressBytes_spec (4 :: List.replicate 64 1) (by decide)⟩

/-! ## Checksum text of an address -/

set_option maxRecDepth 100000 in
theorem hexDigit_case : ∀ k, k < 16 →
    (('a'.toNat ≤ (hexDigit k).toNat ∧ (hexDigit k).toNat ≤ 'f'.toNat) ↔
      ('a' ≤ hexDigit k ∧ hexDigit k ≤ 'f')) ∧
    (('a' ≤ hexDigit k ∧ hexDigit k ≤ 'f') →
      Char.ofNat ((hexDigit k).toNat - 'a'.toNat + 'A'.toNat) = (hexDigit k).toUpper) ∧
    tolower (hexDigit k).toUpper = hexDigit k ∧
    tolower (hexDigit k) = hexDigit k ∧
    (hexDigit k ∈ "0123456789".toList → ¬ ('a' ≤ hexDigit k ∧ hexDigit k ≤ 'f')) := by
  decide!

theorem nibble_ops (h : Nat) : (h >>> 4) &&& 0x0F = h / 16 % 16 ∧ h &&& 0x0F = h % 16 := by
  have e := Nat.and_pow_two_sub_one_eq_mod
  constructor
  · rw [Nat.shiftRight_eq_div_pow]; exact e (h / 2 ^ 4) 4
  · exact e h 4

theorem checksumStep_some (lower : List Char) (hash : List Nat) (r : List Char) (i k : Nat)
    (hk : k < 16) (hc : lower[i]? = some (hexDigit k)) (hh : i / 2 < hash.length) :
    checksumStep lower hash r i = some (r ++ [checksumChar (hexDigit k) hash i]) := by
  obtain ⟨h1, h2, -⟩ := hexDigit_case k hk
  have hget : hash[i / 2]? = some (hash.getD (i / 2) 0) := by
    simp [List.getD_eq_getElem?_getD, List.getElem?_eq_getElem hh]
  unfold checksumStep
  rw [hc, hget]
  simp only [checksumChar, digestNibble]
  congr 2
  obtain ⟨n1, n2⟩ := nibble_ops (hash.getD (i / 2) 0)
  by_cases hi : i % 2 = 0
  · simp only [hi, beq_self_eq_true, if_true, n1, ge_iff_le]
    by_cases haf : 'a' ≤ hexDigit k ∧ hexDigit k ≤ 'f'
    · by_cases hn : 8 ≤ hash.getD (i / 2) 0 / 16 % 16
      · rw [if_pos ⟨hn, h1.2 haf⟩, if_pos ⟨haf, hn⟩, h2 haf]
      · rw [if_neg (fun h => hn h.1), if_neg (fun h => hn h.2)]
    · rw [if_neg (fun h => haf (h1.1 h.2)), if_neg (fun h => haf h.1)]
  · have hb : (i % 2 == 0) = false := by simpa using hi
    simp only [hi, hb, if_false, Bool.false_eq_true, n2, ge_iff_le]
    by_cases haf : 'a' ≤ hexDigit k ∧ hexDigit k ≤ 'f'
    · by_cases hn : 8 ≤ hash.getD (i / 2) 0 % 16
      · rw [if_pos ⟨hn, h1.2 haf⟩, if_pos ⟨haf, hn⟩, h2 haf]
      · rw [if_neg (fun h => hn h.1), if_neg (fun h => hn h.2)]
    · rw [if_neg (fun h => haf (h1.1 h.2)), if_neg (fun h => haf h.1)]

theorem hexDigit_lt (n : Nat) : ∃ k, k < 16 ∧ hexDigit n = hexDigit k := by
  by_cases h : n < 16
  · exact ⟨n, h, rfl⟩
  · refine ⟨0, by decide, ?_⟩
    have : "0123456789abcdef".toList.length ≤ n := by
      have : "0123456789abcdef".toList.length = 16 := by decide
      omega
    unfold hexDigit
    rw [List.getD_eq_default _ _ this]; rfl

/-- Character `i` of the lowercase text is a hexadecimal digit. -/
theorem hexPairs_digit (a : List Nat) (i : Nat) (h : i < 2 * a.length) :
    ∃ k, k < 16 ∧ (hexPairs a)[i]? = some (hexDigit k) := by
  obtain ⟨k, hk, e⟩ := hexDigit_lt
    (if i % 2 = 0 then a.getD (i / 2) 0 / 16 else a.getD (i / 2) 0 % 16)
  exact ⟨k, hk, by rw [hexPairs_getD a i h, e]⟩

theorem checksum_fold (lower : List Char) (hash : List Nat) (init : List Char) (n : Nat)
    (hdig : ∀ i, i < n → ∃ k, k < 16 ∧ lower[i]? = some (hexDigit k))
    (hh : n ≤ 2 * hash.length) :
    (List.range n).foldl (fun result i => result.bind fun r => checksumStep lower hash r i)
        (some init)
      = some (init ++ (List.range n).map fun i => checksumChar (lower.getD i '0') hash i) := by
  induction n with
  | zero => simp
  | succ m ih =>
    rw [List.range_succ, List.foldl_append, ih (fun i hi => hdig i (by omega)) (by omega)]
    obtain ⟨k, hk, hc⟩ := hdig m (by omega)
    have hd : lower.getD m '0' = hexDigit k := by
      rw [List.getD_eq_getElem?_getD, hc]; rfl
    simp only [List.foldl_cons, List.foldl_nil, Option.some_bind, List.map_append, List.map_cons,
      List.map_nil]
    rw [checksumStep_some lower hash _ m k hk hc (by omega), hd, List.append_assoc]

/-- Explicit form of the checksum text of a 20-byte address. -/
theorem getAddressWithChecksum_eq (a : List Nat) (hlen : a.length = 20) (hb : IsBytes a) :
    getAddressWithChecksum a = some ('0' :: 'x' :: (List.range 40).map fun i =>
      checksumChar ((hexPairs a).getD i '0') (keccak256 ((hexPairs a).map Char.toNat)) i) := by
  have hL : (hexPairs a).length = 40 := by rw [hexPairs_length, hlen]
  have hD := keccak256_length ((hexPairs a).map Char.toNat)
  unfold getAddressWithChecksum
  rw [addressLower_eq a hb]
  simp only [hL]
  exact checksum_fold _ _ _ 40 (fun i hi => hexPairs_digit a i (by omega)) (by omega)

/-- C3: for a 20-byte address `getAddressWithChecksum` is the marker `0x` followed by exactly
    40 characters; with `L` the text of `addressBytesToHex` after its marker and `D` the hash of
    `L`, character `i` is the uppercase form of `L[i]` when `L[i]` is in `a`..`f` and the nibble
    of `D` selected by `i` is at least 8, and is `L[i]` otherwise. Hence a digit `0`..`9` is never
    altered, and the checksum text in lower case is `addressBytesToHex`. -/
theorem getAddressWithChecksum_spec (a : List Nat) (hlen : a.length = 20) (hb : IsBytes a) :
    ∃ L T : List Char,
      addressBytesToHex a = '0' :: 'x' :: L ∧
      getAddressWithChecksum a = some ('0' :: 'x' :: T) ∧ T.length = 40 ∧
      (∀ i, i < 40 → T[i]? = some
        (if ('a' ≤ L.getD i '0' ∧ L.getD i '0' ≤ 'f') ∧
            8 ≤ (if i % 2 = 0 then (keccak256 (L.map Char.toNat)).getD (i / 2) 0 / 16 % 16
                 else (keccak256 (L.map Char.toNat)).getD (i / 2) 0 % 16)
         then (L.getD i '0').toUpper else L.getD i '0')) ∧
      (∀ i, i < 40 → L.getD i '0' ∈ "0123456789".toList → T[i]? = some (L.getD i '0')) ∧
      ('0' :: 'x' :: T).map tolower = addressBytesToHex a := by
  have hdig : ∀ i, i < 40 → ∃ k, k < 16 ∧ (hexPairs a)[i]? = some (hexDigit k) :=
    fun i hi => hexPairs_digit a i (by omega)
  have hT : ∀ i, i < 40 →
      ((List.range 40).map fun i => checksumChar ((hexPairs a).getD i '0')
        (keccak256 ((hexPairs a).map Char.toNat)) i)[i]? =
      some (checksumChar ((hexPairs a).getD i '0') (keccak256 ((hexPairs a).map Char.toNat)) i) := by
    intro i hi
    rw [List.getElem?_map, List.getElem?_range hi]; rfl
  refine ⟨hexPairs a, (List.range 40).map fun i => checksumChar ((hexPairs a).getD i '0')
      (keccak256 ((hexPairs a).map Char.toNat)) i, addressBytesToHex_eq a hb,
      getAddressWithChecksum_eq a hlen hb, by simp, ?_, ?_, ?_⟩
  · intro i hi
    rw [hT i hi]; rfl
  · intro i hi hd
    rw [hT i hi]
    obtain ⟨k, hk, hc⟩ := hdig i hi
    have hg : (hexPairs a).getD i '0' = hexDigit k := by
      rw [List.getD_eq_getElem?_getD, hc]; rfl
    rw [hg] at hd ⊢
    have := (hexDigit_case k hk).2.2.2.2 hd
    simp only [checksumChar, this, false_and, if_false]
  · rw [addressBytesToHex_eq a hb]
    show '0' :: 'x' :: List.map tolower _ = _
    congr 2
    apply List.ext_getElem?
    intro i
    by_cases hi : i < 40
    · rw [List.getElem?_map, hT i hi]
      obtain ⟨k, hk, hc⟩ := hdig i hi
      have hg : (hexPairs a).getD i '0' = hexDigit k := by
        rw [List.getD_eq_getElem?_getD, hc]; rfl
      rw [hg, hc]
      obtain ⟨-, -, h3, h4, -⟩ := hexDigit_case k hk
      simp only [checksumChar, Option.map_some']
      split
      · rw [h3]
      · rw [h4]
    · rw [List.getElem?_eq_none (by simp; omega),
        List.getElem?_eq_none (by rw [hexPairs_length]; omega)]

theorem testAddress_bytes : IsBytes testAddress := by unfold IsBytes; decide

theorem getAddressWithChecksum_spec_witness :
    testAddress.length = 20 ∧ IsBytes testAddress ∧
    ∃ L T : List Char,
      addressBytesToHex testAddress = '0' :: 'x' :: L ∧
      getAddressWithChecksum testAddress = some ('0' :: 'x' :: T) ∧ T.length = 40 ∧
      (∀ i, i < 40 → T[i]? = some
        (if ('a' ≤ L.getD i '0' ∧ L.getD i '0' ≤ 'f') ∧
            8 ≤ (if i % 2 = 0 then (keccak256 (L.map Char.toNat)).getD (i / 2) 0 / 16 % 16
                 else (keccak256 (L.map Char.toNat)).getD (i / 2) 0 % 16)
         then (L.getD i '0').toUpper else L.getD i '0')) ∧
      (∀ i, i < 40 → L.getD i '0' ∈ "0123456789".toList → T[i]? = some (L.getD i '0')) ∧
      ('0' :: 'x' :: T).map tolower = addressBytesToHex testAddress :=
  ⟨by decide, testAddress_bytes,
    getAddressWithChecksum_spec testAddress (by decide) testAddress_bytes⟩

/-! ## Matching -/

theorem positionOk_iff (w cs : Bool) (m c : Char) :
    positionOk w cs m c = true ↔ (w = false → PositionMatches cs m c) := by
  unfold positionOk PositionMatches
  cases w <;> cases cs <;> simp

theorem getElem?_eq_some_getD {α : Type} (l : List α) (i : Nat) (d : α) (h : i < l.length) :
    l[i]? = some (l.getD i d) := by
  rw [List.getD_eq_getElem?_getD, List.getElem?_eq_getElem h]; rfl

theorem checkPosition_eq (ws cs : List Bool) (ms addr : List Char) (i pos : Nat)
    (hw : i < ws.length) (hc : i < cs.length) (hm : i < ms.length) (hp : pos < addr.length) :
    checkPosition ws[i]? cs[i]? ms[i]? addr pos =
      some (positionOk (ws.getD i false) (cs.getD i false) (ms.getD i '0') (addr.getD pos '0')) := by
  rw [getElem?_eq_some_getD ws i false hw, getElem?_eq_some_getD cs i false hc,
    getElem?_eq_some_getD ms i '0' hm]
  unfold checkPosition positionOk
  rw [getElem?_eq_some_getD addr pos '0' hp]
  cases ws.getD i false <;> cases cs.getD i false <;> simp

theorem suffix_fold (g : Mask) (addr : List Char) (start n : Nat) (b : Nat → Bool)
    (h : ∀ i, i < n → checkPosition g.suffixWildcard[i]? g.suffixCaseSensitive[i]?
      g.suffixChar[i]? addr ((start + i) % SIZE) = some (b i)) :
    (List.range n).foldl (suffixStep g addr start) (some true) = some ((List.range n).all b) := by
  induction n with
  | zero => rfl
  | succ m ih =>
    rw [List.range_succ, List.foldl_append, ih fun i hi => h i (by omega)]
    simp only [List.foldl_cons, List.foldl_nil, List.all_append, List.all_cons, List.all_nil,
      Bool.and_true]
    cases hall : (List.range m).all b
    · rfl
    · simp only [suffixStep, h m (by omega), Bool.true_and]

/-- The comparisons of `matchesMaskFast` on a text of 40 characters, for a mask whose arrays
    have their declared sizes and whose suffix length is at most 6. -/
theorem matchesText_eq (g : Mask) (T : List Char) (hT : T.length = 40)
    (h1 : g.prefixWildcard.length = 2) (h2 : g.prefixCaseSensitive.length = 2)
    (h3 : g.prefixChar.length = 2) (h4 : g.suffixWildcard.length = 6)
    (h5 : g.suffixCaseSensitive.length = 6) (h6 : g.suffixChar.length = 6)
    (hs : g.suffixLength ≤ 6) :
    matchesText g T = some
      (positionOk (g.prefixWildcard.getD 0 false) (g.prefixCaseSensitive.getD 0 false)
          (g.prefixChar.getD 0 '0') (T.getD 0 '0') &&
       (positionOk (g.prefixWildcard.getD 1 false) (g.prefixCaseSensitive.getD 1 false)
          (g.prefixChar.getD 1 '0') (T.getD 1 '0') &&
        (List.range g.suffixLength).all fun i =>
          positionOk (g.suffixWildcard.getD i false) (g.suffixCaseSensitive.getD i false)
            (g.suffixChar.getD i '0') (T.getD (40 - g.suffixLength + i) '0'))) := by
  have hstart : (T.length + SIZE - g.suffixLength % SIZE) % SIZE = 40 - g.suffixLength := by
    rw [hT]; unfold SIZE; omega
  have hsuf := suffix_fold g T (40 - g.suffixLength) g.suffixLength
    (fun i => positionOk (g.suffixWildcard.getD i false) (g.suffixCaseSensitive.getD i false)
      (g.suffixChar.getD i '0') (T.getD (40 - g.suffixLength + i) '0'))
    (fun i hi => by
      have : (40 - g.suffixLength + i) % SIZE = 40 - g.suffixLength + i := by unfold SIZE; omega
      rw [this]
      exact checkPosition_eq _ _ _ T i _ (by omega) (by omega) (by omega) (by omega))
  unfold matchesText
  rw [checkPosition_eq _ _ _ T 0 0 (by omega) (by omega) (by omega) (by omega),
    checkPosition_eq _ _ _ T 1 1 (by omega) (by omega) (by omega) (by omega)]
  simp only [hstart, hsuf]
  cases positionOk (g.prefixWildcard.getD 0 false) (g.prefixCaseSensitive.getD 0 false)
      (g.prefixChar.getD 0 '0') (T.getD 0 '0') <;>
    cases positionOk (g.prefixWildcard.getD 1 false) (g.prefixCaseSensitive.getD 1 false)
      (g.prefixChar.getD 1 '0') (T.getD 1 '0') <;> rfl

theorem maskOf_sizes (p0 p1 : Char) (s : List Char) (hs : s.length = 4 ∨ s.length = 6) :
    (maskOf p0 p1 s).prefixWildcard.length = 2 ∧ (maskOf p0 p1 s).prefixCaseSensitive.length = 2 ∧
    (maskOf p0 p1 s).prefixChar.length = 2 ∧ (maskOf p0 p1 s).suffixWildcard.length = 6 ∧
    (maskOf p0 p1 s).suffixCaseSensitive.length = 6 ∧ (maskOf p0 p1 s).suffixChar.length = 6 ∧
    (maskOf p0 p1 s).suffixLength ≤ 6 := by
  simp only [maskOf, List.length_cons, List.length_nil, List.length_append, List.length_map,
    List.length_replicate]
  refine ⟨trivial, trivial, trivial, ?_, ?_, ?_, ?_⟩ <;> omega

/-- The text that `matchesMaskFast` compares, for a 20-byte address. -/
theorem projection_text (c : Bool) (a : List Nat) (hlen : a.length = 20) (hb : IsBytes a) :
    ∃ T : List Char, (if c = true then getAddressWithChecksum a else some (addressBytesToHex a))
      = some ('0' :: 'x' :: T) ∧ T.length = 40 := by
  cases c
  · exact ⟨hexPairs a, by simp [addressBytesToHex_eq a hb], by rw [hexPairs_length, hlen]⟩
  · refine ⟨(List.range 40).map fun i => checksumChar ((hexPairs a).getD i '0')
      (keccak256 ((hexPairs a).map Char.toNat)) i, ?_, by simp⟩
    rw [if_pos rfl, getAddressWithChecksum_eq a hlen hb]

/-- C7: for a compiled mask and a 20-byte address, with `T` the 40 characters after the marker
    of the checksum text when `checkCase` holds and of the lowercase text otherwise,
    `matchesMaskFast` answers, and answers `true` exactly when every prefix position `p < 2` that
    is not a wildcard matches `T[p]` and every suffix position `s < suffixLength` that is not a
    wildcard matches `T[40 - suffixLength + s]`; the positions read lie inside `T`. -/
theorem matchesMaskFast_iff (p s : List Char) (g : Mask) (hg : compileMask p s = some g)
    (a : List Nat) (hlen : a.length = 20) (hb : IsBytes a) :
    ∃ T : List Char,
      (if g.checkCase = true then getAddressWithChecksum a else some (addressBytesToHex a))
        = some ('0' :: 'x' :: T) ∧
      T.length = 40 ∧ g.suffixLength ≤ 40 ∧
      (matchesMaskFast g a = some true ∨ matchesMaskFast g a = some false) ∧
      (matchesMaskFast g a = some true ↔
        (∀ i, i < 2 → g.prefixWildcard.getD i false = false →
          PositionMatches (g.prefixCaseSensitive.getD i false) (g.prefixChar.getD i '0')
            (T.getD i '0')) ∧
        (∀ i, i < g.suffixLength → g.suffixWildcard.getD i false = false →
          PositionMatches (g.suffixCaseSensitive.getD i false) (g.suffixChar.getD i '0')
            (T.getD (40 - g.suffixLength + i) '0'))) := by
  obtain ⟨hw, p0, p1, -, rfl⟩ := compileMask_some p s g hg
  obtain ⟨h1, h2, h3, h4, h5, h6, h7⟩ := maskOf_sizes p0 p1 s hw.2.1
  obtain ⟨T, hT, hTlen⟩ := projection_text (maskOf p0 p1 s).checkCase a hlen hb
  have hm : matchesMaskFast (maskOf p0 p1 s) a = matchesText (maskOf p0 p1 s) T := by
    unfold matchesMaskFast
    simp only [hT, List.drop_succ_cons, List.drop_zero]
  refine ⟨T, hT, hTlen, by omega, ?_, ?_⟩
  · rw [hm, matchesText_eq _ T hTlen h1 h2 h3 h4 h5 h6 h7]
    generalize (_ && _ : Bool) = b
    cases b <;> simp
  · rw [hm, matchesText_eq _ T hTlen h1 h2 h3 h4 h5 h6 h7]
    simp only [Option.some.injEq, Bool.and_eq_true, List.all_eq_true, List.mem_range,
      positionOk_iff]
    constructor
    · rintro ⟨a0, a1, as⟩
      refine ⟨fun i hi => ?_, as⟩
      have : i = 0 ∨ i = 1 := by omega
      rcases this with rfl | rfl
      · exact a0
      · exact a1
    · rintro ⟨ap, as⟩
      exact ⟨ap 0 (by omega), ap 1 (by omega), as⟩

theorem matchesMaskFast_iff_witness :
    compileMask "5a".toList "??Ed".toList = some (maskOf '5' 'a' "??Ed".toList) ∧
    testAddress.length = 20 ∧ IsBytes testAddress ∧
    (matchesMaskFast (maskOf '5' 'a' "??Ed".toList) testAddress = some true ∨
      matchesMaskFast (maskOf '5' 'a' "??Ed".toList) testAddress = some false) :=
  ⟨by decide, by decide, testAddress_bytes,
    (matchesMaskFast_iff "5a".toList "??Ed".toList (maskOf '5' 'a' "??Ed".toList) (by decide)
      testAddress (by decide) testAddress_bytes).elim fun _ h => h.2.2.2.1⟩

set_option maxRecDepth 100000 in
theorem hexDigit_values : ∀ k, k < 16 →
    (hexDigit k = 'a' ↔ k = 10) ∧ (hexDigit k = 'c' ↔ k = 12) ∧ (hexDigit k = 'd' ↔ k = 13) := by
  decide!

theorem mask_a_cd_eq : compileMask "a?".toList "??cd".toList = some
    { prefixChar := ['a', Char.ofNat 0]
      prefixWildcard := [false, true]
      prefixCaseSensitive := [false, false]
      suffixChar := [Char.ofNat 0, Char.ofNat 0, 'c', 'd', Char.ofNat 0, Char.ofNat 0]
      suffixWildcard := [true, true, false, false, false, false]
      suffixCaseSensitive := [false, false, false, false, false, false]
      suffixLength := 4
      checkCase := false } := by
  decide

/-- C10: for the mask compiled from the prefix `a?` and the suffix `??cd`, `checkCase` is false
    and, for every 20-byte address, `matchesMaskFast` answers `true` exactly when the first
    character after the marker of the lowercase text is `a` and its last two characters are `c`
    and `d`, that is exactly when the high nibble of byte 0 is `0xA` and byte 19 is `0xCD`. -/
theorem matchesMaskFast_a_cd (a : List Nat) (hlen : a.length = 20) (hb : IsBytes a) :
    ∃ (g : Mask) (T : List Char),
      compileMask "a?".toList "??cd".toList = some g ∧ g.checkCase = false ∧
      addressBytesToHex a = '0' :: 'x' :: T ∧ T.length = 40 ∧
      (matchesMaskFast g a = some true ∨ matchesMaskFast g a = some false) ∧
      (matchesMaskFast g a = some true ↔
        T.getD 0 '0' = 'a' ∧ T.getD 38 '0' = 'c' ∧ T.getD 39 '0' = 'd') ∧
      (matchesMaskFast g a = some true ↔ a.getD 0 0 / 16 = 0xA ∧ a.getD 19 0 = 0xCD) := by
  have hT := addressBytesToHex_eq a hb
  have hTlen : (hexPairs a).length = 40 := by rw [hexPairs_length, hlen]
  have b0 : a.getD 0 0 < 256 := by
    have := getElem?_eq_some_getD a 0 0 (by omega)
    exact hb _ (List.mem_iff_getElem?.2 ⟨_, this⟩)
  have b19 : a.getD 19 0 < 256 := by
    have := getElem?_eq_some_getD a 19 0 (by omega)
    exact hb _ (List.mem_iff_getElem?.2 ⟨_, this⟩)
  have e0 : (hexPairs a)[0]? = some (hexDigit (a.getD 0 0 / 16)) :=
    (hexPairs_getElem? a 0 (by omega)).1
  have e38 : (hexPairs a)[38]? = some (hexDigit (a.getD 19 0 / 16)) :=
    (hexPairs_getElem? a 19 (by omega)).1
  have e39 : (hexPairs a)[39]? = some (hexDigit (a.getD 19 0 % 16)) :=
    (hexPairs_getElem? a 19 (by omega)).2
  have t0 : (hexPairs a).getD 0 '0' = hexDigit (a.getD 0 0 / 16) := by
    rw [List.getD_eq_getElem?_getD, e0]; rfl
  have t38 : (hexPairs a).getD 38 '0' = hexDigit (a.getD 19 0 / 16) := by
    rw [List.getD_eq_getElem?_getD, e38]; rfl
  have t39 : (hexPairs a).getD 39 '0' = hexDigit (a.getD 19 0 % 16) := by
    rw [List.getD_eq_getElem?_getD, e39]; rfl
  have l0 := (hexDigit_case (a.getD 0 0 / 16) (by omega)).2.2.2.1
  have l38 := (hexDigit_case (a.getD 19 0 / 16) (by omega)).2.2.2.1
  have l39 := (hexDigit_case (a.getD 19 0 % 16) (by omega)).2.2.2.1
  have la : tolower 'a' = 'a' := by decide
  have lc : tolower 'c' = 'c' := by decide
  have ld : tolower 'd' = 'd' := by decide
  have hm : matchesMaskFast
      { prefixChar := ['a', Char.ofNat 0]
        prefixWildcard := [false, true]
        prefixCaseSensitive := [false, false]
        suffixChar := [Char.ofNat 0, Char.ofNat 0, 'c', 'd', Char.ofNat 0, Char.ofNat 0]
        suffixWildcard := [true, true, false, false, false, false]
        suffixCaseSensitive := [false, false, false, false, false, false]
        suffixLength := 4
        checkCase := false } a =
      some (decide ((hexPairs a).getD 0 '0' = 'a' ∧ (hexPairs a).getD 38 '0' = 'c' ∧
        (hexPairs a).getD 39 '0' = 'd')) := by
    unfold matchesMaskFast
    simp only [hT, Bool.false_eq_true, if_false, List.drop_succ_cons, List.drop_zero]
    rw [matchesText_eq _ _ hTlen (by rfl) (by rfl) (by rfl) (by rfl) (by rfl) (by rfl)
      (by decide)]
    simp [-List.getD_eq_getElem?_getD, positionOk, List.range_succ, t0, t38, t39, l0, l38, l39,
      la, lc, ld]
    rfl
  refine ⟨_, hexPairs a, mask_a_cd_eq, rfl, hT, hTlen, ?_, ?_, ?_⟩
  · rw [hm]
    by_cases hc : (hexPairs a).getD 0 '0' = 'a' ∧ (hexPairs a).getD 38 '0' = 'c' ∧
        (hexPairs a).getD 39 '0' = 'd'
    · left; rw [decide_eq_true hc]
    · right; rw [decide_eq_false hc]
  · rw [hm]
    simp only [Option.some.injEq, decide_eq_true_eq]
  · rw [hm, t0, t38, t39]
    have v0 := (hexDigit_values (a.getD 0 0 / 16) (by omega)).1
    have v38 := (hexDigit_values (a.getD 19 0 / 16) (by omega)).2.1
    have v39 := (hexDigit_values (a.getD 19 0 % 16) (by omega)).2.2
    simp only [Option.some.injEq, decide_eq_true_eq, v0, v38, v39]
    omega

theorem matchesMaskFast_a_cd_witness :
    testAddress.length = 20 ∧ IsBytes testAddress ∧
    ∃ (g : Mask) (T : List Char),
      compileMask "a?".toList "??cd".toList = some g ∧ g.checkCase = false ∧
      addressBytesToHex testAddress = '0' :: 'x' :: T ∧ T.length = 40 ∧
      (matchesMaskFast g testAddress = some true ∨ matchesMaskFast g testAddress = some false) ∧
      (matchesMaskFast g testAddress = some true ↔
        T.getD 0 '0' = 'a' ∧ T.getD 38 '0' = 'c' ∧ T.getD 39 '0' = 'd') ∧
      (matchesMaskFast g testAddress = some true ↔
        testAddress.getD 0 0 / 16 = 0xA ∧ testAddress.getD 19 0 = 0xCD) :=
  ⟨by decide, testAddress_bytes, matchesMaskFast_a_cd testAddress (by decide) testAddress_bytes⟩

/-! ## `keccakf` keeps the 25 lanes -/

theorem theta_length (st : List Nat) : (theta st).length = st.length := by
  simp only [theta]
  apply foldl_length_inv
  intro s i
  apply foldl_length_inv
  intro s j
  exact List.length_set ..

theorem rhoPi_fold_length (l : List Nat) (p : List Nat × Nat) :
    (l.foldl rhoPiStep p).1.length = p.1.length := by
  induction l generalizing p with
  | nil => rfl
  | cons x xs ih =>
    rw [List.foldl_cons, ih]
    simp only [rhoPiStep, List.length_set]

theorem rhoPi_length (st : List Nat) : (rhoPi st).length = st.length := by
  unfold rhoPi
  exact rhoPi_fold_length _ _

theorem chi_length (st : List Nat) : (chi st).length = st.length := by
  unfold chi
  apply foldl_length_inv
  intro s j
  simp only [chiRow]
  apply foldl_length_inv
  intro s i
  exact List.length_set ..

theorem iota_length (r : Nat) (st : List Nat) : (iota r st).length = st.length := by
  unfold iota
  exact List.length_set ..

theorem keccakf_length (st : List Nat) : (keccakf st).length = st.length := by
  unfold keccakf
  apply foldl_length_inv
  intro s r
  unfold keccakRound
  rw [iota_length, chi_length, rhoPi_length, theta_length]

/-! ## The words of a block -/

theorem leValue_append (xs ys : List Nat) :
    leValue (xs ++ ys) = leValue xs + 2 ^ (8 * xs.length) * leValue ys := by
  induction xs with
  | nil => simp [leValue]
  | cons x xs ih =>
    have e : 2 ^ (8 * (xs.length + 1)) = 256 * 2 ^ (8 * xs.length) := by
      rw [Nat.mul_add, Nat.pow_add]; norm_num; ring
    show leValue (x :: (xs ++ ys)) = leValue (x :: xs) + 2 ^ (8 * (xs.length + 1)) * leValue ys
    rw [e, leValue, leValue, ih]
    ring

theorem or_shift_byte (acc x k : Nat) (hacc : acc < 2 ^ (k * 8)) (hx : x < 256) (hk : k < 8) :
    acc ||| ((x <<< (k * 8)) % W64) = acc + 2 ^ (k * 8) * x := by
  have h1 : x <<< (k * 8) = 2 ^ (k * 8) * x := by rw [Nat.shiftLeft_eq, Nat.mul_comm]
  have h2 : 2 ^ (k * 8) * x < W64 := by
    have a1 : 2 ^ (k * 8) * x < 2 ^ (k * 8) * 256 :=
      Nat.mul_lt_mul_of_pos_left hx (Nat.two_pow_pos _)
    have a2 : 2 ^ (k * 8) * 256 = 2 ^ (k * 8 + 8) := by rw [Nat.pow_add]
    have a3 : 2 ^ (k * 8 + 8) ≤ 2 ^ 64 := Nat.pow_le_pow_right (by decide) (by omega)
    have a4 : (2 : Nat) ^ 64 = W64 := by unfold W64; norm_num
    omega
  rw [h1, Nat.mod_eq_of_lt h2, Nat.or_comm, ← Nat.mul_add_lt_is_or hacc x, Nat.add_comm]

/-- The inner loop of the absorption assembles the little-endian value of its 8 bytes. -/
theorem loadWord_fold (temp : List Nat) (i j : Nat) (hj : j ≤ 8)
    (hlen : i * 8 + 8 ≤ temp.length) (hb : ∀ k, k < 8 → lane temp (i * 8 + k) < 256) :
    (List.range j).foldl
        (fun word j => word ||| ((lane temp (i * 8 + j) <<< (j * 8)) % W64)) 0
      = leValue ((temp.drop (i * 8)).take j) ∧
    leValue ((temp.drop (i * 8)).take j) < 2 ^ (j * 8) := by
  induction j with
  | zero => simp [leValue]
  | succ m ih =>
    obtain ⟨e, bd⟩ := ih (by omega)
    have hx := hb m (by omega)
    have hget : (temp.drop (i * 8))[m]? = some (lane temp (i * 8 + m)) := by
      rw [List.getElem?_drop]
      exact getElem?_eq_some_getD temp _ 0 (by omega)
    have hlen' : ((temp.drop (i * 8)).take m).length = m := by
      rw [List.length_take, List.length_drop]; omega
    have hval : leValue ((temp.drop (i * 8)).take (m + 1)) =
        leValue ((temp.drop (i * 8)).take m) + 2 ^ (m * 8) * lane temp (i * 8 + m) := by
      rw [List.take_succ, hget, leValue_append, hlen', Nat.mul_comm 8 m]
      simp [leValue]
    constructor
    · rw [List.range_succ, List.foldl_append, e]
      simp only [List.foldl_cons, List.foldl_nil]
      rw [or_shift_byte _ _ m bd hx (by omega), hval]
    · rw [hval]
      have p1 : 2 ^ ((m + 1) * 8) = 2 ^ (m * 8) * 256 := by
        rw [Nat.add_mul, Nat.pow_add]
      have p2 : 2 ^ (m * 8) * lane temp (i * 8 + m) ≤ 2 ^ (m * 8) * 255 :=
        Nat.mul_le_mul_left _ (by omega)
      rw [p1]; omega

theorem loadWord_eq (temp : List Nat) (i : Nat) (hlen : i * 8 + 8 ≤ temp.length)
    (hb : IsBytes temp) : loadWord temp i = leValue ((temp.drop (8 * i)).take 8) := by
  rw [Nat.mul_comm 8 i]
  exact (loadWord_fold temp i 8 (by omega) hlen fun k hk =>
    hb _ (List.getElem?_mem (getElem?_eq_some_getD temp _ 0 (by omega)))).1

theorem loadWord_congr (temp temp' : List Nat) (i : Nat) (hi : i < 17)
    (h : ∀ j, j < 136 → lane temp j = lane temp' j) : loadWord temp i = loadWord temp' i := by
  unfold loadWord
  apply List.foldl_ext
  intro word j hj
  rw [h (i * 8 + j) (by have := List.mem_range.1 hj; omega)]

/-! ## The absorption of a block -/

theorem foldl_set_range (f : Nat → Nat → Nat) (n : Nat) (st : List Nat) (hn : n ≤ st.length) :
    (List.range n).foldl (fun st i => st.set i (f i (lane st i))) st
      = (List.range st.length).map fun i => if i < n then f i (lane st i) else lane st i := by
  induction n with
  | zero =>
    apply List.ext_getElem (by simp)
    intro k h1 h2
    have hk : k < st.length := by simpa using h2
    simp [lane, List.getD_eq_getElem?_getD, List.getElem?_eq_getElem hk]
  | succ m ih =>
    rw [List.range_succ, List.foldl_append, ih (by omega)]
    simp only [List.foldl_cons, List.foldl_nil]
    have hm : m < st.length := by omega
    have hl : lane ((List.range st.length).map fun i =>
        if i < m then f i (lane st i) else lane st i) m = lane st m := by
      simp [lane, List.getD_eq_getElem?_getD, List.getElem?_map, List.getElem?_range hm]
    rw [hl]
    apply List.ext_getElem (by simp)
    intro k h1 h2
    have hk : k < st.length := by simpa using h2
    rw [List.getElem_set]
    simp only [List.getElem_map, List.getElem_range]
    by_cases hkm : m = k
    · subst hkm; simp
    · have : (k < m + 1) = (k < m) := by
        apply propext; constructor <;> intro <;> omega
      simp only [hkm, if_false, this]

theorem xorBlock_congr (st temp temp' : List Nat)
    (h : ∀ j, j < 136 → lane temp j = lane temp' j) : xorBlock st temp = xorBlock st temp' := by
  unfold xorBlock
  apply List.foldl_ext
  intro s i hi
  have hi' : i < 17 := List.mem_range.1 hi
  rw [loadWord_congr temp temp' i hi' h]

/-- One absorption of the code is one absorption of the reference, when the first 136 cells
    of the buffer hold the block. -/
theorem xorBlock_ref (st temp block : List Nat) (hst : st.length = 25)
    (hblk : block.length = 136) (hb : IsBytes block)
    (h : ∀ j, j < 136 → lane temp j = lane block j) :
    keccakf (xorBlock st temp) = absorbRef st block := by
  rw [xorBlock_congr st temp block h]
  unfold xorBlock absorbRef
  rw [foldl_set_range (fun i x => x ^^^ loadWord block i) rsizw st (by rw [hst]; decide), hst]
  congr 1
  apply List.map_congr_left
  intro i hi
  by_cases h17 : i < 17
  · have : i < rsizw := h17
    rw [if_pos this, if_pos h17, loadWord_eq block i (by omega) hb]
  · have : ¬ i < rsizw := h17
    rw [if_neg this, if_neg h17]

/-! ## Cells of the buffers -/

theorem lane_eq (l : List Nat) (j : Nat) : lane l j = l[j]?.getD 0 := by
  unfold lane; rw [List.getD_eq_getElem?_getD]

theorem lane_set (l : List Nat) (i v j : Nat) (hi : i < l.length) :
    lane (l.set i v) j = if i = j then v else lane l j := by
  rw [lane_eq, lane_eq, List.getElem?_set]
  by_cases h : i = j
  · subst h; rw [if_pos rfl, if_pos rfl, if_pos hi]; rfl
  · rw [if_neg h, if_neg h]

theorem lane_append_left (l₁ l₂ : List Nat) (j : Nat) (h : j < l₁.length) :
    lane (l₁ ++ l₂) j = lane l₁ j := by
  rw [lane_eq, lane_eq, List.getElem?_append_left h]

theorem lane_append_right (l₁ l₂ : List Nat) (j : Nat) (h : l₁.length ≤ j) :
    lane (l₁ ++ l₂) j = lane l₂ (j - l₁.length) := by
  rw [lane_eq, lane_eq, List.getElem?_append_right h]

theorem lane_replicate (n j : Nat) : lane (List.replicate n 0) j = 0 := by
  rw [lane_eq, List.getElem?_replicate]
  by_cases h : j < n <;> simp [h]

theorem lane_take (l : List Nat) (n j : Nat) (h : j < n) : lane (l.take n) j = lane l j := by
  rw [lane_eq, lane_eq, List.getElem?_take, if_pos h]

theorem lane_drop (l : List Nat) (n j : Nat) : lane (l.drop n) j = lane l (n + j) := by
  rw [lane_eq, lane_eq, List.getElem?_drop]

/-- Cells of the buffer after the copy of a full block. -/
theorem memcpy_lane (temp b : List Nat) (off j : Nat) (hoff : off + 136 ≤ b.length)
    (hj : j < 136) : lane (memcpy temp b off 136) j = lane b (off + j) := by
  unfold memcpy
  rw [lane_append_left _ _ _ (by rw [List.length_take, List.length_drop]; omega),
    lane_take _ _ _ hj, lane_drop]

/-- Cells of a block of a message. -/
theorem blockAt_lane (msg : List Nat) (k j : Nat) (hj : j < 136) :
    lane (blockAt msg k) j = lane msg (136 * k + j) := by
  unfold blockAt
  rw [lane_take _ _ _ hj, lane_drop]

theorem blockAt_length (msg : List Nat) (k : Nat) (h : 136 * k + 136 ≤ msg.length) :
    (blockAt msg k).length = 136 := by
  unfold blockAt
  rw [List.length_take, List.length_drop]; omega

theorem blockAt_bytes (msg : List Nat) (k : Nat) (h : IsBytes msg) : IsBytes (blockAt msg k) :=
  fun x hx => h x (List.mem_of_mem_drop (List.mem_of_mem_take hx))

/-! ## The padded message -/

theorem padMessage_length (b : List Nat) :
    (padMessage b).length = (b.length / 136 + 1) * 136 := by
  unfold padMessage
  by_cases h : (b.length / 136 + 1) * 136 - b.length = 1
  · simp only [h, if_true, List.length_append, List.length_cons, List.length_nil]; omega
  · simp only [h, if_false, List.length_append, List.length_cons, List.length_nil,
      List.length_replicate]; omega

theorem padMessage_bytes (b : List Nat) (hb : IsBytes b) : IsBytes (padMessage b) := by
  unfold padMessage
  intro x hx
  by_cases h : (b.length / 136 + 1) * 136 - b.length = 1
  · simp only [h, if_true, List.mem_append, List.mem_singleton] at hx
    rcases hx with hx | hx
    · exact hb x hx
    · omega
  · simp only [h, if_false, List.mem_append, List.mem_singleton, List.mem_replicate] at hx
    rcases hx with ((hx | hx) | hx) | hx
    · exact hb x hx
    · omega
    · omega
    · omega

/-- Cells of the padded message. -/
theorem padMessage_lane (b : List Nat) (j : Nat) (hj : j < (b.length / 136 + 1) * 136) :
    lane (padMessage b) j =
      if j < b.length then lane b j
      else if j = b.length then (if b.length % 136 = 135 then 0x81 else 0x01)
      else if j = (b.length / 136 + 1) * 136 - 1 then 0x80 else 0 := by
  unfold padMessage
  by_cases h : (b.length / 136 + 1) * 136 - b.length = 1
  · have h135 : b.length % 136 = 135 := by omega
    simp only [h, if_true, h135]
    by_cases h1 : j < b.length
    · rw [if_pos h1, lane_append_left _ _ _ h1]
    · have : j = b.length := by omega
      subst this
      rw [if_neg h1, if_pos rfl, lane_append_right _ _ _ (Nat.le_refl _), Nat.sub_self]; rfl
  · have h135 : ¬ b.length % 136 = 135 := by omega
    simp only [h, if_false, h135]
    by_cases h1 : j < b.length
    · rw [if_pos h1, List.append_assoc, List.append_assoc, lane_append_left _ _ _ h1]
    · rw [if_neg h1, List.append_assoc, List.append_assoc,
        lane_append_right _ _ _ (by omega)]
      by_cases h2 : j = b.length
      · subst h2; rw [if_pos rfl, Nat.sub_self]; rfl
      · rw [if_neg h2]
        have e : j - b.length = (j - b.length - 1) + 1 := by omega
        rw [e]
        show lane (List.replicate _ 0 ++ [0x80]) (j - b.length - 1) = _
        by_cases h3 : j = (b.length / 136 + 1) * 136 - 1
        · rw [if_pos h3, lane_append_right _ _ _ (by rw [List.length_replicate]; omega),
            List.length_replicate]
          have : j - b.length - 1 - ((b.length / 136 + 1) * 136 - b.length - 2) = 0 := by omega
          rw [this]; rfl
        · rw [if_neg h3, lane_append_left _ _ _ (by rw [List.length_replicate]; omega),
            lane_replicate]

/-- Cells of the buffer of the final block, after the padding. -/
theorem lastTemp_lane (temp b : List Nat) (off j : Nat)
    (hr : b.length - off < 136) (hj : j < 136) :
    lane (((if b.length - off > 0 then memcpy (memset0 temp rsiz) b off (b.length - off)
              else memset0 temp rsiz).set (b.length - off) 0x01).set (rsiz - 1)
            (lane ((if b.length - off > 0 then memcpy (memset0 temp rsiz) b off (b.length - off)
              else memset0 temp rsiz).set (b.length - off) 0x01) (rsiz - 1) ^^^ 0x80)) j =
      if j < b.length - off then lane b (off + j)
      else if j = b.length - off then (if b.length - off = 135 then 0x81 else 0x01)
      else if j = 135 then 0x80 else 0 := by
  rw [rsiz_eq]
  generalize hrdef : b.length - off = r at *
  have ht1len : (memset0 temp 136).length ≥ 136 := by
    unfold memset0; rw [List.length_append, List.length_replicate]; omega
  have ht1 : ∀ i, i < 136 → lane (memset0 temp 136) i = 0 := by
    intro i hi
    unfold memset0
    rw [lane_append_left _ _ _ (by rw [List.length_replicate]; exact hi), lane_replicate]
  have ht2len : (if r > 0 then memcpy (memset0 temp 136) b off r else memset0 temp 136).length
      ≥ 136 := by
    by_cases h0 : r > 0
    · rw [if_pos h0]; unfold memcpy
      rw [List.length_append, List.length_take, List.length_drop, List.length_drop]; omega
    · rw [if_neg h0]; exact ht1len
  have ht2 : ∀ i, i < 136 →
      lane (if r > 0 then memcpy (memset0 temp 136) b off r else memset0 temp 136) i =
        if i < r then lane b (off + i) else 0 := by
    intro i hi
    by_cases h0 : r > 0
    · rw [if_pos h0]; unfold memcpy
      have hl : ((b.drop off).take r).length = r := by
        rw [List.length_take, List.length_drop]; omega
      by_cases hir : i < r
      · rw [if_pos hir, lane_append_left _ _ _ (by rw [hl]; exact hir), lane_take _ _ _ hir,
          lane_drop]
      · rw [if_neg hir, lane_append_right _ _ _ (by rw [hl]; omega), hl, lane_drop]
        have : r + (i - r) = i := by omega
        rw [this, ht1 i hi]
    · have hr0 : r = 0 := by omega
      rw [if_neg h0, ht1 i hi, if_neg (by omega)]
  generalize (if r > 0 then memcpy (memset0 temp 136) b off r else memset0 temp 136) = t2
    at ht2 ht2len
  have ht3len : (t2.set r 0x01).length ≥ 136 := by rw [List.length_set]; exact ht2len
  have e135 : 136 - 1 = 135 := rfl
  rw [e135, lane_set _ _ _ _ (by omega), lane_set _ _ _ _ (by omega),
    lane_set _ _ _ _ (by omega), ht2 135 (by omega), ht2 j hj]
  split_ifs <;> first | rfl | omega

/-! ## The loop of `keccak256` against the sponge of the specification -/

theorem spongeAfter_succ (msg : List Nat) (k : Nat) :
    spongeAfter msg (k + 1) = absorbRef (spongeAfter msg k) (blockAt msg k) := by
  unfold spongeAfter
  rw [List.range_succ, List.map_append, List.foldl_append]
  simp only [List.map_cons, List.map_nil, List.foldl_cons, List.foldl_nil]

theorem spongeAfter_length (msg : List Nat) (k : Nat) : (spongeAfter msg k).length = 25 := by
  cases k with
  | zero => unfold spongeAfter; simp
  | succ m =>
    rw [spongeAfter_succ]
    unfold absorbRef
    rw [keccakf_length, List.length_map, List.length_range]

/-- A full block of the input is the same block of the padded message. -/
theorem padMessage_block (b : List Nat) (k j : Nat) (hk : k < b.length / 136) (hj : j < 136) :
    lane (blockAt (padMessage b) k) j = lane b (136 * k + j) := by
  rw [blockAt_lane _ _ _ hj, padMessage_lane b _ (by omega), if_pos (by omega)]

/-- The loop over the full blocks, started after `k` blocks, ends after all the
    `inputLen / 136` full blocks with the state of the reference sponge. -/
theorem absorbLoop_ref (b : List Nat) (hb : IsBytes b) (fuel k : Nat) (s : Sponge)
    (hk : k ≤ b.length / 136) (hoff : s.offset = 136 * k)
    (hst : s.st = spongeAfter (padMessage b) k) (hfuel : b.length / 136 - k ≤ fuel) :
    ∃ s', absorbLoop b fuel s = some s' ∧ s'.offset = 136 * (b.length / 136) ∧
      s'.st = spongeAfter (padMessage b) (b.length / 136) ∧
      s'.calls = s.calls + (b.length / 136 - k) := by
  induction fuel generalizing k s with
  | zero =>
    have hkq : k = b.length / 136 := by omega
    have hc : ¬ (s.offset + rsiz ≤ b.length) := by rw [rsiz_eq, hoff]; omega
    refine ⟨s, by simp only [absorbLoop, hc, if_false], by rw [hoff, hkq], by rw [hst, hkq], ?_⟩
    rw [hkq]; simp
  | succ n ih =>
    by_cases hkq : k = b.length / 136
    · have hc : ¬ (s.offset + rsiz ≤ b.length) := by rw [rsiz_eq, hoff]; omega
      refine ⟨s, by simp only [absorbLoop, hc, if_false], by rw [hoff, hkq], by rw [hst, hkq], ?_⟩
      rw [hkq]; simp
    · have hlt : k < b.length / 136 := by omega
      have hc : s.offset + rsiz ≤ b.length := by rw [rsiz_eq, hoff]; omega
      have hstep : (absorbBlock b s).st = spongeAfter (padMessage b) (k + 1) := by
        rw [spongeAfter_succ, ← hst]
        simp only [absorbBlock, rsiz_eq]
        apply xorBlock_ref
        · rw [hst, spongeAfter_length]
        · exact blockAt_length _ _ (by rw [padMessage_length]; omega)
        · exact blockAt_bytes _ _ (padMessage_bytes b hb)
        · intro j hj
          rw [memcpy_lane _ _ _ _ (by rw [hoff]; omega) hj, padMessage_block b k j hlt hj, hoff]
      obtain ⟨s', h1, h2, h3, h4⟩ := ih (k + 1) (absorbBlock b s) (by omega)
        (by simp only [absorbBlock, rsiz_eq, hoff]; omega) hstep (by omega)
      refine ⟨s', by simp only [absorbLoop, hc, if_true, h1], h2, h3, ?_⟩
      rw [h4]
      simp only [absorbBlock]
      omega

/-- The final block of the code is the last block of the padded message. -/
theorem absorbLast_ref (b : List Nat) (hb : IsBytes b) (s : Sponge)
    (hoff : s.offset = 136 * (b.length / 136))
    (hst : s.st = spongeAfter (padMessage b) (b.length / 136)) :
    (absorbLast b s).st = spongeAfter (padMessage b) (b.length / 136 + 1) ∧
    (absorbLast b s).calls = s.calls + 1 := by
  refine ⟨?_, by simp only [absorbLast]⟩
  rw [spongeAfter_succ, ← hst]
  simp only [absorbLast]
  apply xorBlock_ref
  · rw [hst, spongeAfter_length]
  · exact blockAt_length _ _ (by rw [padMessage_length]; omega)
  · exact blockAt_bytes _ _ (padMessage_bytes b hb)
  · intro j hj
    rw [lastTemp_lane s.temp b s.offset j (by rw [hoff]; omega) hj, blockAt_lane _ _ _ hj,
      padMessage_lane b _ (by omega), hoff]
    have e1 : b.length - 136 * (b.length / 136) = b.length % 136 := by omega
    rw [e1]
    split_ifs <;> first | rfl | omega

/-! ## The output -/

theorem byte_of_word (w j : Nat) : (w >>> (j * 8)) &&& 0xFF = w / 256 ^ j % 256 := by
  have e : (256 : Nat) ^ j = 2 ^ (j * 8) := by
    rw [Nat.mul_comm, Nat.pow_mul]
  rw [Nat.shiftRight_eq_div_pow, e]
  exact Nat.and_pow_two_sub_one_eq_mod _ 8

theorem extract_eq (st : List Nat) : extract st = squeezeRef st := by
  unfold extract squeezeRef
  simp only [byte_of_word]
  simp [List.range_succ, lane]

/-- The run of `keccak256` on enough fuel is the reference digest, after `inputLen / 136 + 1`
    calls of `keccakf`. -/
theorem keccak256Run_eq (b : List Nat) (hb : IsBytes b) (temp0 : List Nat) (fuel : Nat)
    (hfuel : b.length / 136 ≤ fuel) :
    keccak256Run temp0 fuel b = some (spongeDigest b, b.length / 136 + 1) := by
  obtain ⟨s', h1, h2, h3, h4⟩ := absorbLoop_ref b hb fuel 0
    { st := List.replicate 25 0, temp := temp0, offset := 0, calls := 0 }
    (Nat.zero_le _) rfl rfl (by omega)
  obtain ⟨g1, g2⟩ := absorbLast_ref b hb s' h2 h3
  simp only [keccak256Run, h1]
  rw [g1, g2, h4, extract_eq]
  unfold spongeDigest
  rw [padMessage_length, Nat.mul_div_cancel _ (by decide : 0 < 136)]
  simp

/-- C1: on every byte sequence `keccak256` is the reference sponge digest: the padded message
    (`0x01`, zeros, `0x80`, or the single `0x81`, up to the next multiple of 136 strictly above
    the length) is absorbed block by block from the all-zero state, the 17 little-endian words
    of a block being XORed into the lanes 0 to 16 before `keccakf`, and the lanes 0 to 3 are
    serialised little-endian. `keccakf` is called `len / 136 + 1` times, and an input whose
    length is a multiple of 136 gets a block of padding only. -/
theorem keccak256_refines (b : List Nat) (hb : IsBytes b) :
    keccak256 b = spongeDigest b ∧
    (∀ temp0 fuel, b.length / 136 ≤ fuel →
      keccak256Run temp0 fuel b = some (spongeDigest b, b.length / 136 + 1)) ∧
    (padMessage b).length = (b.length / 136 + 1) * 136 ∧
    (b.length % 136 = 135 → padMessage b = b ++ [0x81]) ∧
    (b.length % 136 = 0 → padMessage b = b ++ (0x01 :: List.replicate 134 0 ++ [0x80])) := by
  refine ⟨?_, fun temp0 fuel h => keccak256Run_eq b hb temp0 fuel h, padMessage_length b, ?_, ?_⟩
  · unfold keccak256
    rw [keccak256Run_eq b hb _ _ (by rw [rsiz_eq])]
  · intro h
    have : (b.length / 136 + 1) * 136 - b.length = 1 := by omega
    unfold padMessage
    simp only [this, if_true]
  · intro h
    have e : (b.length / 136 + 1) * 136 - b.length = 136 := by omega
    unfold padMessage
    simp only [e]
    simp

theorem keccak256_refines_witness :
    IsBytes [97, 98, 99] ∧
    keccak256 [97, 98, 99] = spongeDigest [97, 98, 99] ∧
    keccak256Run [] 1 [97, 98, 99] = some (spongeDigest [97, 98, 99], 1) :=
  ⟨by unfold IsBytes; decide,
    (keccak256_refines [97, 98, 99] (by unfold IsBytes; decide)).1,
    (keccak256_refines [97, 98, 99] (by unfold IsBytes; decide)).2.1 [] 1 (by decide)⟩

/-! ## The tables of the standard -/

set_option maxRecDepth 1000000 in
/-- C16: the three tables of `keccakf` are those of the Keccak standard. The rotation amounts
    are the triangular numbers `(i+1)(i+2)/2` modulo 64, all strictly between 0 and 64;
    `keccakf_piln[i]` is the lane index `x + 5y` of the point number `i + 1` of the orbit of
    `(1, 0)` under `(x, y) ↦ (y, (2x + 3y) mod 5)`, so that the table is a permutation of
    1..24 that ends in 1; and the round constant of round `r` has its bit `2^j - 1` equal to the
    output bit `j + 7r` of the register of polynomial `x^8 + x^6 + x^5 + x^4 + 1`, its other
    bits being zero. -/
theorem keccakf_tables_standard :
    (keccakf_rotc.length = 24 ∧ keccakf_piln.length = 24 ∧ keccakf_rndc.length = 24) ∧
    (∀ i, i < 24 → keccakf_rotc[i]? = some (rotcStd i) ∧ 0 < rotcStd i ∧ rotcStd i < 64) ∧
    (∀ i, i < 24 → keccakf_piln[i]? = some (pilnStd i)) ∧
    (keccakf_piln.Nodup ∧ (∀ j, j < 25 → (j ∈ keccakf_piln ↔ 1 ≤ j)) ∧
      keccakf_piln[23]? = some 1) ∧
    (∀ r, r < 24 → keccakf_rndc[r]? = some (rndcStd r)) ∧
    (∀ r, r < 24 → ∀ b, b < 64 →
      ((lane keccakf_rndc r).testBit b = true ↔ ∃ j, j < 7 ∧ b = 2 ^ j - 1 ∧ rcBit (j + 7 * r) = 1)) := by
  decide!

/-! ## The rounds of `keccakf` -/

theorem foldl_keccakRound (n : Nat) (s : List Nat) :
    (List.range n).foldl keccakRound s = applyRounds n s := by
  induction n with
  | zero => rfl
  | succ m ih =>
    rw [List.range_succ, List.foldl_append, ih]
    simp only [List.foldl_cons, List.foldl_nil, keccakRound, applyRounds]

theorem iota_lane (r : Nat) (s : List Nat) (h : 0 < s.length) (k : Nat) :
    lane (iota r s) k = if k = 0 then lane s 0 ^^^ lane keccakf_rndc r else lane s k := by
  unfold iota
  rw [lane_set _ _ _ _ h]
  by_cases hk : k = 0
  · subst hk; simp
  · rw [if_neg (fun e => hk e.symm), if_neg hk]

/-- C17: `keccakf` applies exactly 24 rounds, in the order 0 to 23, each round being theta, then
    rho-pi, then chi, then iota; the iota of round `r` XORs `keccakf_rndc[r]` into lane 0 and
    leaves the lanes 1 to 24 as they are. -/
theorem keccakf_rounds (s : List Nat) :
    KECCAK_ROUNDS = 24 ∧
    keccakf s = applyRounds 24 s ∧
    (∀ n, n < 24 → applyRounds (n + 1) s = iota n (chi (rhoPi (theta (applyRounds n s))))) ∧
    applyRounds 0 s = s ∧
    (∀ r, r < 24 → ∀ st : List Nat, st.length = 25 →
      (iota r st).length = 25 ∧
      lane (iota r st) 0 = lane st 0 ^^^ lane keccakf_rndc r ∧
      ∀ k, 1 ≤ k → k < 25 → lane (iota r st) k = lane st k) := by
  refine ⟨rfl, ?_, fun n _ => rfl, rfl, ?_⟩
  · unfold keccakf
    exact foldl_keccakRound _ s
  · intro r _ st hst
    refine ⟨by rw [iota_length, hst], ?_, ?_⟩
    · rw [iota_lane r st (by omega) 0, if_pos rfl]
    · intro k hk _
      rw [iota_lane r st (by omega) k, if_neg (by omega)]

/-! ## The steps of a round -/

theorem list_of_length_25 (st : List Nat) (h : st.length = 25) :
    ∃ a0 a1 a2 a3 a4 a5 a6 a7 a8 a9 a10 a11 a12 a13 a14 a15 a16 a17 a18 a19 a20 a21 a22 a23 a24,
      st = [a0, a1, a2, a3, a4, a5, a6, a7, a8, a9, a10, a11, a12, a13, a14, a15, a16, a17,
        a18, a19, a20, a21, a22, a23, a24] := by
  match st, h with
  | [a0, a1, a2, a3, a4, a5, a6, a7, a8, a9, a10, a11, a12, a13, a14, a15, a16, a17, a18, a19,
    a20, a21, a22, a23, a24], _ =>
    exact ⟨a0, a1, a2, a3, a4, a5, a6, a7, a8, a9, a10, a11, a12, a13, a14, a15, a16, a17,
      a18, a19, a20, a21, a22, a23, a24, rfl⟩

set_option maxHeartbeats 1000000 in
/-- The diffusion step on a state given lane by lane. -/
theorem theta_explicit (a0 a1 a2 a3 a4 a5 a6 a7 a8 a9 a10 a11 a12 a13 a14 a15 a16 a17 a18 a19
  a20 a21 a22 a23 a24 : Nat) :
    theta [a0, a1, a2, a3, a4, a5, a6, a7, a8, a9, a10, a11, a12, a13, a14, a15, a16, a17,
      a18, a19, a20, a21, a22, a23, a24] =
    [a0 ^^^ ((a4 ^^^ a9 ^^^ a14 ^^^ a19 ^^^ a24) ^^^ ROTL64 (a1 ^^^ a6 ^^^ a11 ^^^ a16 ^^^ a21) 1),
     a1 ^^^ ((a0 ^^^ a5 ^^^ a10 ^^^ a15 ^^^ a20) ^^^ ROTL64 (a2 ^^^ a7 ^^^ a12 ^^^ a17 ^^^ a22) 1),
     a2 ^^^ ((a1 ^^^ a6 ^^^ a11 ^^^ a16 ^^^ a21) ^^^ ROTL64 (a3 ^^^ a8 ^^^ a13 ^^^ a18 ^^^ a23) 1),
     a3 ^^^ ((a2 ^^^ a7 ^^^ a12 ^^^ a17 ^^^ a22) ^^^ ROTL64 (a4 ^^^ a9 ^^^ a14 ^^^ a19 ^^^ a24) 1),
     a4 ^^^ ((a3 ^^^ a8 ^^^ a13 ^^^ a18 ^^^ a23) ^^^ ROTL64 (a0 ^^^ a5 ^^^ a10 ^^^ a15 ^^^ a20) 1),
     a5 ^^^ ((a4 ^^^ a9 ^^^ a14 ^^^ a19 ^^^ a24) ^^^ ROTL64 (a1 ^^^ a6 ^^^ a11 ^^^ a16 ^^^ a21) 1),
     a6 ^^^ ((a0 ^^^ a5 ^^^ a10 ^^^ a15 ^^^ a20) ^^^ ROTL64 (a2 ^^^ a7 ^^^ a12 ^^^ a17 ^^^ a22) 1),
     a7 ^^^ ((a1 ^^^ a6 ^^^ a11 ^^^ a16 ^^^ a21) ^^^ ROTL64 (a3 ^^^ a8 ^^^ a13 ^^^ a18 ^^^ a23) 1),
     a8 ^^^ ((a2 ^^^ a7 ^^^ a12 ^^^ a17 ^^^ a22) ^^^ ROTL64 (a4 ^^^ a9 ^^^ a14 ^^^ a19 ^^^ a24) 1),
     a9 ^^^ ((a3 ^^^ a8 ^^^ a13 ^^^ a18 ^^^ a23) ^^^ ROTL64 (a0 ^^^ a5 ^^^ a10 ^^^ a15 ^^^ a20) 1),
     a10 ^^^ ((a4 ^^^ a9 ^^^ a14 ^^^ a19 ^^^ a24) ^^^ ROTL64 (a1 ^^^ a6 ^^^ a11 ^^^ a16 ^^^ a21) 1),
     a11 ^^^ ((a0 ^^^ a5 ^^^ a10 ^^^ a15 ^^^ a20) ^^^ ROTL64 (a2 ^^^ a7 ^^^ a12 ^^^ a17 ^^^ a22) 1),
     a12 ^^^ ((a1 ^^^ a6 ^^^ a11 ^^^ a16 ^^^ a21) ^^^ ROTL64 (a3 ^^^ a8 ^^^ a13 ^^^ a18 ^^^ a23) 1),
     a13 ^^^ ((a2 ^^^ a7 ^^^ a12 ^^^ a17 ^^^ a22) ^^^ ROTL64 (a4 ^^^ a9 ^^^ a14 ^^^ a19 ^^^ a24) 1),
     a14 ^^^ ((a3 ^^^ a8 ^^^ a13 ^^^ a18 ^^^ a23) ^^^ ROTL64 (a0 ^^^ a5 ^^^ a10 ^^^ a15 ^^^ a20) 1),
     a15 ^^^ ((a4 ^^^ a9 ^^^ a14 ^^^ a19 ^^^ a24) ^^^ ROTL64 (a1 ^^^ a6 ^^^ a11 ^^^ a16 ^^^ a21) 1),
     a16 ^^^ ((a0 ^^^ a5 ^^^ a10 ^^^ a15 ^^^ a20) ^^^ ROTL64 (a2 ^^^ a7 ^^^ a12 ^^^ a17 ^^^ a22) 1),
     a17 ^^^ ((a1 ^^^ a6 ^^^ a11 ^^^ a16 ^^^ a21) ^^^ ROTL64 (a3 ^^^ a8 ^^^ a13 ^^^ a18 ^^^ a23) 1),
     a18 ^^^ ((a2 ^^^ a7 ^^^ a12 ^^^ a17 ^^^ a22) ^^^ ROTL64 (a4 ^^^ a9 ^^^ a14 ^^^ a19 ^^^ a24) 1),
     a19 ^^^ ((a3 ^^^ a8 ^^^ a13 ^^^ a18 ^^^ a23) ^^^ ROTL64 (a0 ^^^ a5 ^^^ a10 ^^^ a15 ^^^ a20) 1),
     a20 ^^^ ((a4 ^^^ a9 ^^^ a14 ^^^ a19 ^^^ a24) ^^^ ROTL64 (a1 ^^^ a6 ^^^ a11 ^^^ a16 ^^^ a21) 1),
     a21 ^^^ ((a0 ^^^ a5 ^^^ a10 ^^^ a15 ^^^ a20) ^^^ ROTL64 (a2 ^^^ a7 ^^^ a12 ^^^ a17 ^^^ a22) 1),
     a22 ^^^ ((a1 ^^^ a6 ^^^ a11 ^^^ a16 ^^^ a21) ^^^ ROTL64 (a3 ^^^ a8 ^^^ a13 ^^^ a18 ^^^ a23) 1),
     a23 ^^^ ((a2 ^^^ a7 ^^^ a12 ^^^ a17 ^^^ a22) ^^^ ROTL64 (a4 ^^^ a9 ^^^ a14 ^^^ a19 ^^^ a24) 1),
     a24 ^^^ ((a3 ^^^ a8 ^^^ a13 ^^^ a18 ^^^ a23) ^^^ ROTL64 (a0 ^^^ a5 ^^^ a10 ^^^ a15 ^^^
       a20) 1)] := by
  simp [theta, thetaBC, lane, List.range_succ]

set_option maxHeartbeats 1000000 in
/-- The permutation with rotation on a state given lane by lane. -/
theorem rhoPi_explicit (a0 a1 a2 a3 a4 a5 a6 a7 a8 a9 a10 a11 a12 a13 a14 a15 a16 a17 a18 a19
  a20 a21 a22 a23 a24 : Nat) :
    rhoPi [a0, a1, a2, a3, a4, a5, a6, a7, a8, a9, a10, a11, a12, a13, a14, a15, a16, a17,
      a18, a19, a20, a21, a22, a23, a24] =
      [a0, ROTL64 a6 44, ROTL64 a12 43, ROTL64 a18 21, ROTL64 a24 14, ROTL64 a3 28, ROTL64 a9
      20, ROTL64 a10 3, ROTL64 a16 45, ROTL64 a22 61, ROTL64 a1 1, ROTL64 a7 6, ROTL64 a13 25,
      ROTL64 a19 8, ROTL64 a20 18, ROTL64 a4 27, ROTL64 a5 36, ROTL64 a11 10, ROTL64 a17 15,
      ROTL64 a23 56, ROTL64 a2 62, ROTL64 a8 55, ROTL64 a14 39, ROTL64 a15 41, ROTL64 a21 2] := by
  simp [rhoPi, rhoPiStep, lane, List.range_succ, keccakf_piln, keccakf_rotc]

set_option maxHeartbeats 1000000 in
/-- The nonlinear mixing on a state given lane by lane. -/
theorem chi_explicit (a0 a1 a2 a3 a4 a5 a6 a7 a8 a9 a10 a11 a12 a13 a14 a15 a16 a17 a18 a19
  a20 a21 a22 a23 a24 : Nat) :
    chi [a0, a1, a2, a3, a4, a5, a6, a7, a8, a9, a10, a11, a12, a13, a14, a15, a16, a17, a18,
      a19, a20, a21, a22, a23, a24] =
    [a0 ^^^ (not64 a1 &&& a2),
     a1 ^^^ (not64 a2 &&& a3),
     a2 ^^^ (not64 a3 &&& a4),
     a3 ^^^ (not64 a4 &&& a0),
     a4 ^^^ (not64 a0 &&& a1),
     a5 ^^^ (not64 a6 &&& a7),
     a6 ^^^ (not64 a7 &&& a8),
     a7 ^^^ (not64 a8 &&& a9),
     a8 ^^^ (not64 a9 &&& a5),
     a9 ^^^ (not64 a5 &&& a6),
     a10 ^^^ (not64 a11 &&& a12),
     a11 ^^^ (not64 a12 &&& a13),
     a12 ^^^ (not64 a13 &&& a14),
     a13 ^^^ (not64 a14 &&& a10),
     a14 ^^^ (not64 a10 &&& a11),
     a15 ^^^ (not64 a16 &&& a17),
     a16 ^^^ (not64 a17 &&& a18),
     a17 ^^^ (not64 a18 &&& a19),
     a18 ^^^ (not64 a19 &&& a15),
     a19 ^^^ (not64 a15 &&& a16),
     a20 ^^^ (not64 a21 &&& a22),
     a21 ^^^ (not64 a22 &&& a23),
     a22 ^^^ (not64 a23 &&& a24),
     a23 ^^^ (not64 a24 &&& a20),
     a24 ^^^ (not64 a20 &&& a21)] := by
  simp [chi, chiRow, lane, List.range_succ]

/-- C18: the diffusion step sets every lane `i + 5k` to its old value XOR `C[(i+4) mod 5]` XOR
    `rotl64(C[(i+1) mod 5], 1)`, where the five parities `C` are those of the state before the
    step. -/
theorem theta_spec (st : List Nat) (hst : st.length = 25) :
    (theta st).length = 25 ∧
    ∀ i k, i < 5 → k < 5 →
      lane (theta st) (i + 5 * k) =
        lane st (i + 5 * k) ^^^ columnParity st ((i + 4) % 5)
          ^^^ ROTL64 (columnParity st ((i + 1) % 5)) 1 := by
  refine ⟨by rw [theta_length, hst], ?_⟩
  obtain ⟨a0, a1, a2, a3, a4, a5, a6, a7, a8, a9, a10, a11, a12, a13, a14, a15, a16, a17, a18,
    a19, a20, a21, a22, a23, a24, rfl⟩ := list_of_length_25 st hst
  intro i k hi hk
  rw [Nat.xor_assoc, theta_explicit]
  interval_cases i <;> interval_cases k <;> rfl

theorem theta_spec_witness :
    (List.range 25).length = 25 ∧ (theta (List.range 25)).length = 25 ∧
    lane (theta (List.range 25)) (2 + 5 * 3) =
      lane (List.range 25) (2 + 5 * 3) ^^^ columnParity (List.range 25) ((2 + 4) % 5)
        ^^^ ROTL64 (columnParity (List.range 25) ((2 + 1) % 5)) 1 :=
  ⟨by decide, (theta_spec (List.range 25) (by decide)).1,
    (theta_spec (List.range 25) (by decide)).2 2 3 (by decide) (by decide)⟩

/-! ## Rotations are bijections of the 64-bit words -/

theorem W64_eq (y : Nat) (hy : y ≤ 64) : W64 = 2 ^ (64 - y) * 2 ^ y := by
  rw [← Nat.pow_add, Nat.sub_add_cancel hy]; unfold W64; norm_num

/-- Rotation to the left, arithmetically: the low `64 - y` bits move up, the high `y` bits
    come down. -/
theorem ROTL64_eq (x y : Nat) (hx : x < W64) (hy : y ≤ 64) :
    ROTL64 x y = 2 ^ y * (x % 2 ^ (64 - y)) + x / 2 ^ (64 - y) := by
  have hhi : x / 2 ^ (64 - y) < 2 ^ y := by
    apply Nat.div_lt_of_lt_mul
    rw [← W64_eq y hy]; exact hx
  unfold ROTL64
  rw [Nat.shiftLeft_eq, Nat.shiftRight_eq_div_pow, W64_eq y hy, Nat.mul_mod_mul_right,
    Nat.mul_comm (x % 2 ^ (64 - y)) (2 ^ y), ← Nat.mul_add_lt_is_or hhi]

theorem ROTL64_lt (x y : Nat) (hx : x < W64) (hy : y ≤ 64) : ROTL64 x y < W64 := by
  rw [ROTL64_eq x y hx hy]
  have hhi : x / 2 ^ (64 - y) < 2 ^ y := by
    apply Nat.div_lt_of_lt_mul
    rw [← W64_eq y hy]; exact hx
  have hlo : x % 2 ^ (64 - y) < 2 ^ (64 - y) := Nat.mod_lt _ (Nat.two_pow_pos _)
  have h1 : 2 ^ y * (x % 2 ^ (64 - y) + 1) ≤ 2 ^ y * 2 ^ (64 - y) :=
    Nat.mul_le_mul_left _ hlo
  rw [W64_eq y hy, Nat.mul_comm (2 ^ (64 - y))]
  rw [Nat.mul_add, Nat.mul_one] at h1
  omega

/-- Rotating back by `64 - y` undoes the rotation by `y`. -/
theorem ROTL64_inv (x y : Nat) (hx : x < W64) (hy : y ≤ 64) :
    ROTL64 (ROTL64 x y) (64 - y) = x := by
  have hhi : x / 2 ^ (64 - y) < 2 ^ y := by
    apply Nat.div_lt_of_lt_mul
    rw [← W64_eq y hy]; exact hx
  rw [ROTL64_eq _ (64 - y) (ROTL64_lt x y hx hy) (by omega), ROTL64_eq x y hx hy]
  have e : 64 - (64 - y) = y := by omega
  rw [e, Nat.mul_add_mod, Nat.mod_eq_of_lt hhi, Nat.mul_add_div (Nat.two_pow_pos _),
    Nat.div_eq_of_lt hhi, Nat.add_zero]
  exact Nat.div_add_mod x (2 ^ (64 - y))

theorem ROTL64_injective (x x' y : Nat) (hx : x < W64) (hx' : x' < W64) (hy : y ≤ 64)
    (h : ROTL64 x y = ROTL64 x' y) : x = x' := by
  rw [← ROTL64_inv x y hx hy, ← ROTL64_inv x' y hx' hy, h]

theorem not64_eq (x : Nat) (hx : x < W64) : not64 x = W64 - 1 - x := by
  have hW : W64 = 2 ^ 64 := by unfold W64; norm_num
  unfold not64
  rw [hW] at hx ⊢
  apply Nat.eq_of_testBit_eq
  intro i
  have e : 2 ^ 64 - 1 - x = 2 ^ 64 - (x + 1) := by omega
  rw [e, Nat.testBit_two_pow_sub_succ hx, Nat.testBit_xor, Nat.testBit_two_pow_sub_one]
  by_cases hi : i < 64 <;> simp [hi]
  exact Nat.testBit_lt_two_pow (Nat.lt_of_lt_of_le hx (Nat.pow_le_pow_right (by decide) (by omega)))

/-- C20: the nonlinear mixing sets every lane `j + i` of the row of base `j` to its old value
    XOR ((NOT the old lane `j + (i+1) mod 5`) AND the old lane `j + (i+2) mod 5`), the three
    operands being those of the state before the step. -/
theorem chi_spec (st : List Nat) (hst : st.length = 25) (hw : ∀ x ∈ st, x < W64) :
    (chi st).length = 25 ∧
    ∀ j, j ∈ [0, 5, 10, 15, 20] → ∀ i, i < 5 →
      lane (chi st) (j + i) =
        lane st (j + i) ^^^
          ((W64 - 1 - lane st (j + (i + 1) % 5)) &&& lane st (j + (i + 2) % 5)) := by
  refine ⟨by rw [chi_length, hst], ?_⟩
  intro j hj i hi
  have hn : ∀ n, n < 25 → W64 - 1 - lane st n = not64 (lane st n) := fun n hn =>
    (not64_eq _ (hw _ (List.getElem?_mem (getElem?_eq_some_getD st n 0 (by omega))))).symm
  have hj' : j = 0 ∨ j = 5 ∨ j = 10 ∨ j = 15 ∨ j = 20 := by simpa using hj
  rw [hn _ (by omega)]
  obtain ⟨a0, a1, a2, a3, a4, a5, a6, a7, a8, a9, a10, a11, a12, a13, a14, a15, a16, a17, a18,
    a19, a20, a21, a22, a23, a24, rfl⟩ := list_of_length_25 st hst
  rw [chi_explicit]
  rcases hj' with rfl | rfl | rfl | rfl | rfl <;> interval_cases i <;> rfl

theorem chi_spec_witness :
    (List.range 25).length = 25 ∧ (∀ x ∈ List.range 25, x < W64) ∧
    (chi (List.range 25)).length = 25 ∧
    lane (chi (List.range 25)) (10 + 4) =
      lane (List.range 25) (10 + 4) ^^^
        ((W64 - 1 - lane (List.range 25) (10 + (4 + 1) % 5)) &&&
          lane (List.range 25) (10 + (4 + 2) % 5)) :=
  ⟨by decide, by decide, (chi_spec (List.range 25) (by decide) (by decide)).1,
    (chi_spec (List.range 25) (by decide) (by decide)).2 10 (by decide) 4 (by decide)⟩

/-! ## The permutation with rotation is a bijection -/

theorem rhoPi_tables :
    (∀ k, k < 25 → 1 ≤ k →
      rhoPiIter k < 24 ∧ lane keccakf_piln (rhoPiIter k) = k ∧
      1 ≤ rhoPiSource (rhoPiIter k) ∧ rhoPiSource (rhoPiIter k) < 25 ∧
      rhoPiTarget (rhoPiSource (rhoPiIter k)) = k ∧
      lane keccakf_rotc (rhoPiIter k) ≤ 64) ∧
    (∀ j, j < 25 → 1 ≤ j →
      1 ≤ rhoPiTarget j ∧ rhoPiTarget j < 25 ∧ rhoPiSource (rhoPiIter (rhoPiTarget j)) = j) ∧
    (∀ i, i < 24 → 1 ≤ lane keccakf_piln i ∧ lane keccakf_piln i < 25 ∧
      rhoPiIter (lane keccakf_piln i) = i) := by
  decide

theorem lane_map_range (n : Nat) (f : Nat → Nat) (j : Nat) (h : j < n) :
    lane ((List.range n).map f) j = f j := by
  rw [lane_eq, List.getElem?_map, List.getElem?_range h]; rfl

theorem lane_lt_of_state (st : List Nat) (h : IsState st) (j : Nat) : lane st j < W64 := by
  by_cases hj : j < st.length
  · exact h.2 _ (List.getElem?_mem (getElem?_eq_some_getD st j 0 hj))
  · rw [lane_eq, List.getElem?_eq_none (by omega)]; decide

theorem ext_lane (l l' : List Nat) (hl : l.length = l'.length)
    (h : ∀ j, j < l.length → lane l j = lane l' j) : l = l' := by
  apply List.ext_getElem hl
  intro j h1 h2
  have := h j h1
  rw [lane_eq, lane_eq, List.getElem?_eq_getElem h1, List.getElem?_eq_getElem h2] at this
  exact this

/-- Lane `k` of the state after the rho-pi step. -/
theorem rhoPi_lane (st : List Nat) (hst : st.length = 25) (k : Nat) (hk : k < 25) :
    lane (rhoPi st) k =
      if k = 0 then lane st 0
      else ROTL64 (lane st (rhoPiSource (rhoPiIter k))) (lane keccakf_rotc (rhoPiIter k)) := by
  obtain ⟨a0, a1, a2, a3, a4, a5, a6, a7, a8, a9, a10, a11, a12, a13, a14, a15, a16, a17, a18,
    a19, a20, a21, a22, a23, a24, rfl⟩ := list_of_length_25 st hst
  rw [rhoPi_explicit]
  interval_cases k <;> rfl

theorem rhoPi_state (st : List Nat) (h : IsState st) : IsState (rhoPi st) := by
  refine ⟨by rw [rhoPi_length, h.1], ?_⟩
  intro x hx
  obtain ⟨k, hk⟩ := List.mem_iff_getElem?.1 hx
  have hk25 : k < 25 := by
    by_contra hc
    rw [List.getElem?_eq_none (by rw [rhoPi_length, h.1]; omega)] at hk
    exact Option.noConfusion hk
  have hx' : x = lane (rhoPi st) k := by rw [lane_eq, hk]; rfl
  rw [hx', rhoPi_lane st h.1 k hk25]
  by_cases h0 : k = 0
  · rw [if_pos h0]; exact lane_lt_of_state st h 0
  · rw [if_neg h0]
    exact ROTL64_lt _ _ (lane_lt_of_state st h _) (rhoPi_tables.1 k hk25 (by omega)).2.2.2.2.2

theorem rhoPi_injective (s s' : List Nat) (hs : IsState s) (hs' : IsState s')
    (h : rhoPi s' = rhoPi s) : s' = s := by
  apply ext_lane _ _ (by rw [hs.1, hs'.1])
  intro j hj
  rw [hs'.1] at hj
  by_cases h0 : j = 0
  · subst h0
    have e1 := rhoPi_lane s hs.1 0 (by decide)
    have e2 := rhoPi_lane s' hs'.1 0 (by decide)
    rw [if_pos rfl] at e1 e2
    rw [← e1, ← e2, h]
  · obtain ⟨t1, t2, t3⟩ := rhoPi_tables.2.1 j hj (by omega)
    have e1 := rhoPi_lane s hs.1 (rhoPiTarget j) t2
    have e2 := rhoPi_lane s' hs'.1 (rhoPiTarget j) t2
    rw [if_neg (by omega), t3] at e1 e2
    rw [h, e1] at e2
    exact ROTL64_injective _ _ _ (lane_lt_of_state s' hs' j) (lane_lt_of_state s hs j)
      (rhoPi_tables.1 _ t2 t1).2.2.2.2.2 e2.symm

theorem rhoPiInverse_state (st : List Nat) (h : IsState st) : IsState (rhoPiInverse st) := by
  refine ⟨by simp [rhoPiInverse], ?_⟩
  intro x hx
  unfold rhoPiInverse at hx
  obtain ⟨j, _, rfl⟩ := List.mem_map.1 hx
  by_cases h0 : j = 0
  · rw [if_pos h0]; exact lane_lt_of_state st h 0
  · rw [if_neg h0]; exact ROTL64_lt _ _ (lane_lt_of_state st h _) (by omega)

theorem rhoPi_rhoPiInverse (st : List Nat) (h : IsState st) : rhoPi (rhoPiInverse st) = st := by
  have hinv := rhoPiInverse_state st h
  apply ext_lane _ _ (by rw [rhoPi_length, hinv.1, h.1])
  intro k hk
  rw [rhoPi_length, hinv.1] at hk
  rw [rhoPi_lane _ hinv.1 k hk]
  by_cases h0 : k = 0
  · subst h0
    rw [if_pos rfl]
    unfold rhoPiInverse
    rw [lane_map_range 25 _ 0 (by decide), if_pos rfl]
  · obtain ⟨t1, t2, t3, t4, t5, t6⟩ := rhoPi_tables.1 k hk (by omega)
    rw [if_neg h0]
    unfold rhoPiInverse
    rw [lane_map_range 25 _ _ t4, if_neg (by omega), t5]
    have e : 64 - (64 - lane keccakf_rotc (rhoPiIter k)) = lane keccakf_rotc (rhoPiIter k) := by
      omega
    have hinv' := ROTL64_inv (lane st k) (64 - lane keccakf_rotc (rhoPiIter k))
      (lane_lt_of_state st h k) (by omega)
    rw [e] at hinv'
    exact hinv'

/-- C19: the rho-pi step leaves lane 0 as it is and sets, for every `i < 24`, the lane
    `keccakf_piln[i]` to `rotl64(v, keccakf_rotc[i])`, `v` being the value before the step of
    lane 1 for `i = 0` and of lane `keccakf_piln[i-1]` for `i > 0`. The lanes 1 to 24 are each
    written once, from pairwise distinct lanes, and the step is a bijection of the states of 25
    lanes of 64 bits. -/
theorem rhoPi_spec (st : List Nat) (hst : IsState st) :
    IsState (rhoPi st) ∧
    lane (rhoPi st) 0 = lane st 0 ∧
    (∀ i, i < 24 →
      lane (rhoPi st) (lane keccakf_piln i) =
        ROTL64 (lane st (if i = 0 then 1 else lane keccakf_piln (i - 1))) (lane keccakf_rotc i)) ∧
    (keccakf_piln.Nodup ∧ ∀ j, j < 25 → (j ∈ keccakf_piln ↔ 1 ≤ j)) ∧
    ((List.range 24).map fun i => if i = 0 then 1 else lane keccakf_piln (i - 1)).Nodup ∧
    (∀ st', IsState st' → rhoPi st' = rhoPi st → st' = st) ∧
    (∃ st', IsState st' ∧ rhoPi st' = st) := by
  refine ⟨rhoPi_state st hst, ?_, ?_, by decide, by decide,
    fun st' hs' h => rhoPi_injective st st' hst hs' h,
    ⟨rhoPiInverse st, rhoPiInverse_state st hst, rhoPi_rhoPiInverse st hst⟩⟩
  · rw [rhoPi_lane st hst.1 0 (by decide), if_pos rfl]
  · intro i hi
    obtain ⟨t1, t2, t3⟩ := rhoPi_tables.2.2 i hi
    rw [rhoPi_lane st hst.1 _ t2, if_neg (by omega), t3]
    rfl

theorem rhoPi_spec_witness :
    IsState (List.range 25) ∧ IsState (rhoPi (List.range 25)) ∧
    lane (rhoPi (List.range 25)) 0 = lane (List.range 25) 0 :=
  ⟨⟨by decide, by decide⟩, (rhoPi_spec (List.range 25) ⟨by decide, by decide⟩).1,
    (rhoPi_spec (List.range 25) ⟨by decide, by decide⟩).2.1⟩

/-! ## The mask `A?` -/

theorem extract_bytes (st : List Nat) : IsBytes (extract st) := by
  rw [extract_eq]
  intro x hx
  unfold squeezeRef at hx
  obtain ⟨k, _, rfl⟩ := List.mem_map.1 hx
  exact Nat.mod_lt _ (by decide)

theorem keccak256_bytes (input : List Nat) : IsBytes (keccak256 input) := by
  have h0 : (input.length - (Sponge.mk (List.replicate 25 0) (List.replicate 144 0) 0 0).offset)
      / 136 ≤ input.length / rsiz := by rw [rsiz_eq]; exact Nat.le_refl _
  obtain ⟨s', hs'⟩ := absorbLoop_some input (input.length / rsiz) _ h0
  simp only [keccak256, keccak256Run, hs']
  exact extract_bytes (absorbLast input s').st

set_option maxRecDepth 100000 in
theorem hexDigit_upper_A : ∀ k, k < 16 →
    ((if 'a' ≤ hexDigit k ∧ hexDigit k ≤ 'f' then (hexDigit k).toUpper else hexDigit k) = 'A'
      ↔ k = 10) ∧ hexDigit k ≠ 'A' := by
  decide!

/-- Match against a mask whose only literal is a case-sensitive `A` at the first position. -/
theorem matchesMaskFast_upper_A (g : Mask) (a : List Nat) (hlen : a.length = 20)
    (hb : IsBytes a) (hcc : g.checkCase = true)
    (h1 : g.prefixWildcard = [false, true]) (h2 : g.prefixCaseSensitive = [true, false])
    (h3 : g.prefixChar = ['A', Char.ofNat 0])
    (h4 : g.suffixWildcard.length = 6)
    (h4' : ∀ i, i < g.suffixLength → g.suffixWildcard.getD i false = true)
    (h5 : g.suffixCaseSensitive.length = 6) (h6 : g.suffixChar.length = 6)
    (hs : g.suffixLength ≤ 6) :
    matchesMaskFast g a = some (decide
      (checksumChar ((hexPairs a).getD 0 '0') (keccak256 ((hexPairs a).map Char.toNat)) 0
        = 'A')) := by
  have hall : ∀ f : Nat → Char, ((List.range g.suffixLength).all fun i =>
      positionOk (g.suffixWildcard.getD i false)
        (g.suffixCaseSensitive.getD i false) (g.suffixChar.getD i '0') (f i)) = true := by
    intro f
    rw [List.all_eq_true]
    intro i hi
    rw [h4' i (List.mem_range.1 hi)]; rfl
  unfold matchesMaskFast
  simp only [hcc, if_true, getAddressWithChecksum_eq a hlen hb, List.drop_succ_cons,
    List.drop_zero]
  rw [matchesText_eq _ _ (by simp) (by rw [h1]; rfl) (by rw [h2]; rfl) (by rw [h3]; rfl)
    h4 h5 h6 hs]
  rw [h1, h2, h3, hall]
  simp only [positionOk, List.getD_cons_zero, List.getD_cons_succ, Bool.false_or, if_true,
    Bool.true_or, Bool.and_true]
  congr 1

/-- C11: for the mask compiled from the prefix `A?` and an all-wildcard suffix (`????` or
    `??????`), `checkCase` is true and, for every 20-byte address, `matchesMaskFast` answers
    `true` exactly when the first character after the marker of the checksum text is the
    uppercase `A`, that is when the high nibble of byte 0 of the address is `0xA` and the high
    nibble of byte 0 of the hash of the lowercase text is at least 8; an address whose checksum
    text begins with the lowercase `a` is rejected. -/
theorem matchesMaskFast_A (a : List Nat) (hlen : a.length = 20) (hb : IsBytes a)
    (suffix : List Char) (hsuf : suffix = "????".toList ∨ suffix = "??????".toList) :
    ∃ (g : Mask) (L T : List Char),
      compileMask "A?".toList suffix = some g ∧ g.checkCase = true ∧
      addressBytesToHex a = '0' :: 'x' :: L ∧
      getAddressWithChecksum a = some ('0' :: 'x' :: T) ∧ T.length = 40 ∧
      (matchesMaskFast g a = some true ∨ matchesMaskFast g a = some false) ∧
      (matchesMaskFast g a = some true ↔ T.getD 0 '0' = 'A') ∧
      (matchesMaskFast g a = some true ↔
        a.getD 0 0 / 16 = 0xA ∧ 8 ≤ (keccak256 (L.map Char.toNat)).getD 0 0 / 16) ∧
      (T.getD 0 '0' = 'a' → matchesMaskFast g a = some false) := by
  have hL : (hexPairs a).length = 40 := by rw [hexPairs_length, hlen]
  have b0 : a.getD 0 0 < 256 :=
    hb _ (List.getElem?_mem (getElem?_eq_some_getD a 0 0 (by omega)))
  have t0 : (hexPairs a).getD 0 '0' = hexDigit (a.getD 0 0 / 16) := by
    rw [List.getD_eq_getElem?_getD, (hexPairs_getElem? a 0 (by omega)).1]; rfl
  have hT0 : ((List.range 40).map fun i => checksumChar ((hexPairs a).getD i '0')
      (keccak256 ((hexPairs a).map Char.toNat)) i).getD 0 '0' =
      checksumChar ((hexPairs a).getD 0 '0') (keccak256 ((hexPairs a).map Char.toNat)) 0 := by
    rw [List.getD_eq_getElem?_getD, List.getElem?_map, List.getElem?_range (by decide)]; rfl
  have hD : (keccak256 ((hexPairs a).map Char.toNat)).getD 0 0 < 256 := by
    have hl := keccak256_length ((hexPairs a).map Char.toNat)
    exact keccak256_bytes _ _
      (List.getElem?_mem (getElem?_eq_some_getD _ 0 0 (by rw [hl]; decide)))
  have hm : ∀ g : Mask, g = maskOf 'A' '?' suffix →
      matchesMaskFast g a = some (decide
        (checksumChar ((hexPairs a).getD 0 '0') (keccak256 ((hexPairs a).map Char.toNat)) 0
          = 'A')) := by
    intro g hg
    subst hg
    rcases hsuf with rfl | rfl
    · exact matchesMaskFast_upper_A _ a hlen hb (by decide) (by decide) (by decide) (by decide)
        (by decide) (by decide) (by decide) (by decide) (by decide)
    · exact matchesMaskFast_upper_A _ a hlen hb (by decide) (by decide) (by decide) (by decide)
        (by decide) (by decide) (by decide) (by decide) (by decide)
  have hc : compileMask "A?".toList suffix = some (maskOf 'A' '?' suffix) := by
    rcases hsuf with rfl | rfl <;> decide
  have hcc : (maskOf 'A' '?' suffix).checkCase = true := by
    rcases hsuf with rfl | rfl <;> decide
  have hchar : checksumChar ((hexPairs a).getD 0 '0')
      (keccak256 ((hexPairs a).map Char.toNat)) 0 = 'A' ↔
      a.getD 0 0 / 16 = 0xA ∧ 8 ≤ (keccak256 ((hexPairs a).map Char.toNat)).getD 0 0 / 16 := by
    obtain ⟨u1, u2⟩ := hexDigit_upper_A (a.getD 0 0 / 16) (by omega)
    have hnib : digestNibble (keccak256 ((hexPairs a).map Char.toNat)) 0 =
        (keccak256 ((hexPairs a).map Char.toNat)).getD 0 0 / 16 := by
      unfold digestNibble
      rw [if_pos (by decide), Nat.zero_div]
      exact Nat.mod_eq_of_lt (by omega)
    rw [t0]
    unfold checksumChar
    rw [hnib]
    by_cases h8 : 8 ≤ (keccak256 ((hexPairs a).map Char.toNat)).getD 0 0 / 16
    · simp only [h8, and_true]
      exact u1
    · simp only [h8, and_false, if_false]
      exact ⟨fun h => absurd h u2, fun h => absurd h (fun h => h)⟩
  refine ⟨maskOf 'A' '?' suffix, hexPairs a, _, hc, hcc, addressBytesToHex_eq a hb,
    getAddressWithChecksum_eq a hlen hb, by simp, ?_, ?_, ?_, ?_⟩
  · rw [hm _ rfl]
    by_cases hx : checksumChar ((hexPairs a).getD 0 '0')
        (keccak256 ((hexPairs a).map Char.toNat)) 0 = 'A'
    · left; rw [decide_eq_true hx]
    · right; rw [decide_eq_false hx]
  · rw [hm _ rfl, hT0]
    simp only [Option.some.injEq, decide_eq_true_eq]
  · rw [hm _ rfl, ← hchar]
    simp only [Option.some.injEq, decide_eq_true_eq]
  · intro ha
    rw [hT0] at ha
    rw [hm _ rfl, decide_eq_false (by rw [ha]; decide)]

theorem matchesMaskFast_A_witness :
    testAddress.length = 20 ∧ IsBytes testAddress ∧
    ("????".toList = "????".toList ∨ "????".toList = "??????".toList) ∧
    ∃ (g : Mask) (L T : List Char),
      compileMask "A?".toList "????".toList = some g ∧ g.checkCase = true ∧
      addressBytesToHex testAddress = '0' :: 'x' :: L ∧
      getAddressWithChecksum testAddress = some ('0' :: 'x' :: T) ∧ T.length = 40 ∧
      (matchesMaskFast g testAddress = some true ∨ matchesMaskFast g testAddress = some false) ∧
      (matchesMaskFast g testAddress = some true ↔ T.getD 0 '0' = 'A') ∧
      (matchesMaskFast g testAddress = some true ↔
        testAddress.getD 0 0 / 16 = 0xA ∧ 8 ≤ (keccak256 (L.map Char.toNat)).getD 0 0 / 16) ∧
      (T.getD 0 '0' = 'a' → matchesMaskFast g testAddress = some false) :=
  ⟨by decide, testAddress_bytes, Or.inl rfl,
    matchesMaskFast_A testAddress (by decide) testAddress_bytes "????".toList (Or.inl rfl)⟩

/-! ## No access of `keccak256` leaves its array -/

theorem readC_eq (a : List Nat) (i : Nat) (h : i < a.length) : readC a i = some (lane a i) := by
  unfold readC
  exact getElem?_eq_some_getD a i 0 h

theorem writeC_eq (a : List Nat) (i v : Nat) (h : i < a.length) :
    writeC a i v = some (a.set i v) := by
  unfold writeC
  rw [if_pos h]

/-- A checked loop whose every iteration succeeds, on the states that satisfy the invariant
    `P`, is the unchecked loop. -/
theorem foldlM_option_eq {σ α : Type} (P : σ → Prop) (f : σ → α → Option σ) (g : σ → α → σ)
    (l : List α) (h : ∀ s x, P s → x ∈ l → f s x = some (g s x) ∧ P (g s x)) (s : σ)
    (hs : P s) : l.foldlM f s = some (l.foldl g s) ∧ P (l.foldl g s) := by
  induction l generalizing s with
  | nil => exact ⟨rfl, hs⟩
  | cons x xs ih =>
    obtain ⟨e, hp⟩ := h s x hs (List.mem_cons_self _ _)
    rw [List.foldlM_cons, e, List.foldl_cons]
    exact ih (fun s' y hs' hy => h s' y hs' (List.mem_cons_of_mem _ hy)) (g s x) hp

theorem thetaBC_checked (st : List Nat) (h : st.length = 25) :
    (List.range 5).foldlM (fun bc i => do
      let x0 ← readC st i
      let x1 ← readC st (i + 5)
      let x2 ← readC st (i + 10)
      let x3 ← readC st (i + 15)
      let x4 ← readC st (i + 20)
      writeC bc i (x0 ^^^ x1 ^^^ x2 ^^^ x3 ^^^ x4)) (List.replicate 5 0) = some (thetaBC st) := by
  have key := foldlM_option_eq (fun bc : List Nat => bc.length = 5)
    (fun bc i => do
      let x0 ← readC st i
      let x1 ← readC st (i + 5)
      let x2 ← readC st (i + 10)
      let x3 ← readC st (i + 15)
      let x4 ← readC st (i + 20)
      writeC bc i (x0 ^^^ x1 ^^^ x2 ^^^ x3 ^^^ x4))
    (fun bc i => bc.set i
      (lane st i ^^^ lane st (i + 5) ^^^ lane st (i + 10) ^^^ lane st (i + 15) ^^^
        lane st (i + 20)))
    (List.range 5)
    (fun bc i hbc hi => by
      have hi' : i < 5 := List.mem_range.1 hi
      simp only [readC_eq st i (by omega), readC_eq st (i + 5) (by omega),
        readC_eq st (i + 10) (by omega), readC_eq st (i + 15) (by omega),
        readC_eq st (i + 20) (by omega), writeC_eq bc i _ (by omega), Option.bind_eq_bind,
        Option.some_bind, List.length_set]
      exact ⟨trivial, hbc⟩)
    (List.replicate 5 0) (by simp)
  rw [key.1]
  simp [thetaBC, List.range_succ]

theorem thetaC_eq (st : List Nat) (h : st.length = 25) : thetaC st = some (theta st) := by
  unfold thetaC theta
  rw [thetaBC_checked st h]
  simp only [Option.bind_eq_bind, Option.some_bind]
  have hbc : (thetaBC st).length = 5 := by simp [thetaBC]
  refine (foldlM_option_eq (fun s : List Nat => s.length = 25) _ _ _ (fun s i hs hi => ?_)
    st h).1
  have hi' : i < 5 := List.mem_range.1 hi
  simp only [readC_eq (thetaBC st) ((i + 4) % 5) (by omega),
    readC_eq (thetaBC st) ((i + 1) % 5) (by omega), Option.some_bind]
  refine foldlM_option_eq (fun s : List Nat => s.length = 25) _ _ _ (fun s' j hs' hj => ?_) s hs
  have hj' : j = 0 ∨ j = 5 ∨ j = 10 ∨ j = 15 ∨ j = 20 := by simpa using hj
  simp only [readC_eq s' (j + i) (by omega), writeC_eq s' (j + i) _ (by omega),
    Option.bind_eq_bind, Option.some_bind, List.length_set]
  exact ⟨trivial, hs'⟩

theorem piln_lt : ∀ i, i < 24 → lane keccakf_piln i < 25 := by decide

theorem rhoPiStepC_eq (p : List Nat × Nat) (i : Nat) (hp : p.1.length = 25) (hi : i < 24) :
    rhoPiStepC p i = some (rhoPiStep p i) ∧ (rhoPiStep p i).1.length = 25 := by
  have hj := piln_lt i hi
  unfold rhoPiStepC rhoPiStep
  simp only [readC_eq keccakf_piln i hi, readC_eq keccakf_rotc i hi,
    readC_eq p.1 (lane keccakf_piln i) (by omega),
    writeC_eq p.1 (lane keccakf_piln i) _ (by omega), Option.bind_eq_bind, Option.some_bind,
    Option.pure_def, List.length_set]
  exact ⟨trivial, hp⟩

theorem rhoPiC_eq (st : List Nat) (h : st.length = 25) : rhoPiC st = some (rhoPi st) := by
  unfold rhoPiC rhoPi
  have key := foldlM_option_eq (fun p : List Nat × Nat => p.1.length = 25) rhoPiStepC rhoPiStep
    (List.range 24) (fun p i hp hi => rhoPiStepC_eq p i hp (List.mem_range.1 hi))
    (st, lane st 1) h
  simp only [readC_eq st 1 (by omega), Option.bind_eq_bind, Option.some_bind, key.1,
    Option.pure_def]

theorem chiRowC_eq (st : List Nat) (j : Nat) (h : st.length = 25)
    (hj : j ∈ [0, 5, 10, 15, 20]) : chiRowC st j = some (chiRow st j) := by
  have hj' : j = 0 ∨ j = 5 ∨ j = 10 ∨ j = 15 ∨ j = 20 := by simpa using hj
  have hbc : (List.range 5).foldlM (fun bc i => do
      let x ← readC st (j + i)
      writeC bc i x) (List.replicate 5 0) = some ((List.range 5).map fun i => lane st (j + i)) := by
    have key := foldlM_option_eq (fun bc : List Nat => bc.length = 5)
      (fun bc i => do
        let x ← readC st (j + i)
        writeC bc i x)
      (fun bc i => bc.set i (lane st (j + i))) (List.range 5)
      (fun bc i hbc hi => by
        have hi' : i < 5 := List.mem_range.1 hi
        simp only [readC_eq st (j + i) (by omega), writeC_eq bc i _ (by omega),
          Option.bind_eq_bind, Option.some_bind, List.length_set]
        exact ⟨trivial, hbc⟩)
      (List.replicate 5 0) (by simp)
    rw [key.1]
    simp [List.range_succ]
  unfold chiRowC chiRow
  rw [hbc]
  simp only [Option.bind_eq_bind, Option.some_bind]
  have hlen : ((List.range 5).map fun i => lane st (j + i)).length = 5 := by simp
  refine (foldlM_option_eq (fun s : List Nat => s.length = 25) _ _ _ (fun s i hs hi => ?_)
    st h).1
  have hi' : i < 5 := List.mem_range.1 hi
  have r1 := readC_eq ((List.range 5).map fun i => lane st (j + i)) ((i + 1) % 5)
    (by rw [hlen]; omega)
  have r2 := readC_eq ((List.range 5).map fun i => lane st (j + i)) ((i + 2) % 5)
    (by rw [hlen]; omega)
  simp only [readC_eq s (j + i) (by omega), r1, r2, writeC_eq s (j + i) _ (by omega),
    Option.bind_eq_bind, Option.some_bind, List.length_set]
  exact ⟨trivial, hs⟩

theorem chiRow_length (st : List Nat) (j : Nat) : (chiRow st j).length = st.length := by
  simp only [chiRow]
  apply foldl_length_inv
  intro s i
  exact List.length_set ..

theorem chiC_eq (st : List Nat) (h : st.length = 25) : chiC st = some (chi st) := by
  unfold chiC chi
  exact (foldlM_option_eq (fun s : List Nat => s.length = 25) chiRowC chiRow _
    (fun s j hs hj => ⟨chiRowC_eq s j hs hj, (chiRow_length s j).trans hs⟩) st h).1

theorem iotaC_eq (r : Nat) (st : List Nat) (h : st.length = 25) (hr : r < 24) :
    iotaC r st = some (iota r st) := by
  unfold iotaC iota
  simp only [readC_eq st 0 (by omega), readC_eq keccakf_rndc r hr, writeC_eq st 0 _ (by omega),
    Option.bind_eq_bind, Option.some_bind]

theorem keccakRoundC_eq (st : List Nat) (r : Nat) (h : st.length = 25) (hr : r < 24) :
    keccakRoundC st r = some (keccakRound st r) := by
  unfold keccakRoundC keccakRound
  have h1 : (theta st).length = 25 := by rw [theta_length, h]
  have h2 : (rhoPi (theta st)).length = 25 := by rw [rhoPi_length, h1]
  have h3 : (chi (rhoPi (theta st))).length = 25 := by rw [chi_length, h2]
  simp only [thetaC_eq st h, rhoPiC_eq _ h1, chiC_eq _ h2, iotaC_eq r _ h3 hr,
    Option.bind_eq_bind, Option.some_bind]

theorem keccakRound_length (st : List Nat) (r : Nat) :
    (keccakRound st r).length = st.length := by
  unfold keccakRound
  rw [iota_length, chi_length, rhoPi_length, theta_length]

/-- On a state of 25 lanes no access of `keccakf` leaves the state or a table. -/
theorem keccakfC_eq (st : List Nat) (h : st.length = 25) : keccakfC st = some (keccakf st) := by
  unfold keccakfC keccakf
  exact (foldlM_option_eq (fun s : List Nat => s.length = 25) keccakRoundC keccakRound _
    (fun s r hs hr => ⟨keccakRoundC_eq s r hs (List.mem_range.1 hr),
      (keccakRound_length s r).trans hs⟩) st h).1

theorem loadWordC_eq (temp : List Nat) (i : Nat) (h : i * 8 + 8 ≤ temp.length) :
    loadWordC temp i = some (loadWord temp i) := by
  unfold loadWordC loadWord
  refine (foldlM_option_eq (fun _ : Nat => True) _ _ _ (fun w j _ hj => ?_) 0 trivial).1
  have hj' : j < 8 := List.mem_range.1 hj
  simp only [readC_eq temp (i * 8 + j) (by omega), Option.bind_eq_bind, Option.some_bind,
    Option.pure_def, and_self]

theorem xorBlock_length (st temp : List Nat) : (xorBlock st temp).length = st.length := by
  unfold xorBlock
  apply foldl_length_inv
  intro s i
  exact List.length_set ..

theorem xorBlockC_eq (st temp : List Nat) (hst : st.length = 25) (ht : 136 ≤ temp.length) :
    xorBlockC st temp = some (xorBlock st temp) := by
  unfold xorBlockC xorBlock
  refine (foldlM_option_eq (fun s : List Nat => s.length = 25) _ _ _ (fun s i hs hi => ?_)
    st hst).1
  have hi' : i < 17 := List.mem_range.1 hi
  simp only [loadWordC_eq temp i (by omega), readC_eq s i (by omega),
    writeC_eq s i _ (by omega), Option.bind_eq_bind, Option.some_bind, List.length_set]
  exact ⟨trivial, hs⟩

theorem absorbBlockC_eq (input : List Nat) (s : Sponge) (hs : SpongeOk s)
    (hc : s.offset + rsiz ≤ input.length) :
    absorbBlockC input s = some (absorbBlock input s) ∧ SpongeOk (absorbBlock input s) := by
  have hc' : s.offset + 136 ≤ input.length := hc
  have hlen : (memcpy s.temp input s.offset rsiz).length = 144 := by
    unfold memcpy
    rw [rsiz_eq, List.length_append, List.length_take, List.length_drop, List.length_drop, hs.2]
    omega
  have hm : memcpyC s.temp input s.offset rsiz = some (memcpy s.temp input s.offset rsiz) := by
    unfold memcpyC
    rw [if_pos ⟨hc, by rw [hs.2, rsiz_eq]; decide⟩]
  have hx := xorBlockC_eq s.st (memcpy s.temp input s.offset rsiz) hs.1 (by rw [hlen]; decide)
  have hk := keccakfC_eq (xorBlock s.st (memcpy s.temp input s.offset rsiz))
    (by rw [xorBlock_length, hs.1])
  unfold absorbBlockC
  simp only [hm, hx, hk, Option.bind_eq_bind, Option.some_bind, Option.pure_def]
  refine ⟨by simp only [absorbBlock], ?_, ?_⟩
  · simp only [absorbBlock]; rw [keccakf_length, xorBlock_length, hs.1]
  · simp only [absorbBlock]; exact hlen

theorem absorbLoopC_eq (input : List Nat) (fuel : Nat) (s s' : Sponge) (hs : SpongeOk s)
    (h : absorbLoop input fuel s = some s') :
    absorbLoopC input fuel s = some s' ∧ SpongeOk s' ∧ ¬ (s'.offset + rsiz ≤ input.length) := by
  induction fuel generalizing s with
  | zero =>
    by_cases hc : s.offset + rsiz ≤ input.length
    · simp only [absorbLoop, hc, if_true] at h
      exact Option.noConfusion h
    · simp only [absorbLoop, hc, if_false, Option.some.injEq] at h
      subst h
      exact ⟨by simp only [absorbLoopC, hc, if_false], hs, hc⟩
  | succ n ih =>
    by_cases hc : s.offset + rsiz ≤ input.length
    · simp only [absorbLoop, hc, if_true] at h
      obtain ⟨e, hok⟩ := absorbBlockC_eq input s hs hc
      obtain ⟨e', hok', hex⟩ := ih (absorbBlock input s) hok h
      refine ⟨?_, hok', hex⟩
      simp only [absorbLoopC, hc, if_true, e, Option.some_bind, e']
    · simp only [absorbLoop, hc, if_false, Option.some.injEq] at h
      subst h
      exact ⟨by simp only [absorbLoopC, hc, if_false], hs, hc⟩

theorem absorbLastC_eq (input : List Nat) (s : Sponge) (hs : SpongeOk s)
    (hc : ¬ (s.offset + rsiz ≤ input.length)) :
    absorbLastC input s = some (absorbLast input s) ∧ (absorbLast input s).st.length = 25 ∧
      input.length - s.offset < 136 := by
  have hr : input.length - s.offset < 136 := by rw [rsiz_eq] at hc; omega
  have h1len : (memset0 s.temp rsiz).length = 144 := by
    unfold memset0
    rw [rsiz_eq, List.length_append, List.length_replicate, List.length_drop, hs.2]
  have h1 : memset0C s.temp rsiz = some (memset0 s.temp rsiz) := by
    unfold memset0C
    rw [if_pos (by rw [hs.2, rsiz_eq]; decide)]
  have h2 : (if input.length - s.offset > 0
        then memcpyC (memset0 s.temp rsiz) input s.offset (input.length - s.offset)
        else some (memset0 s.temp rsiz)) =
      some (if input.length - s.offset > 0
        then memcpy (memset0 s.temp rsiz) input s.offset (input.length - s.offset)
        else memset0 s.temp rsiz) := by
    by_cases h0 : input.length - s.offset > 0
    · rw [if_pos h0, if_pos h0]
      unfold memcpyC
      rw [if_pos ⟨by omega, by rw [h1len]; omega⟩]
    · rw [if_neg h0, if_neg h0]
  have h2len : (if input.length - s.offset > 0
        then memcpy (memset0 s.temp rsiz) input s.offset (input.length - s.offset)
        else memset0 s.temp rsiz).length = 144 := by
    by_cases h0 : input.length - s.offset > 0
    · rw [if_pos h0]
      unfold memcpy
      rw [List.length_append, List.length_take, List.length_drop, List.length_drop, h1len]
      omega
    · rw [if_neg h0]; exact h1len
  generalize hmem : (if input.length - s.offset > 0
        then memcpy (memset0 s.temp rsiz) input s.offset (input.length - s.offset)
        else memset0 s.temp rsiz) = t2 at h2 h2len
  have h3 := writeC_eq t2 (input.length - s.offset) 0x01 (by omega)
  have h3len : (t2.set (input.length - s.offset) 0x01).length = 144 := by
    rw [List.length_set, h2len]
  have h4 := readC_eq (t2.set (input.length - s.offset) 0x01) (rsiz - 1)
    (by rw [h3len, rsiz_eq]; decide)
  have h5 := writeC_eq (t2.set (input.length - s.offset) 0x01) (rsiz - 1)
    (lane (t2.set (input.length - s.offset) 0x01) (rsiz - 1) ^^^ 0x80)
    (by rw [h3len, rsiz_eq]; decide)
  have h6 := xorBlockC_eq s.st ((t2.set (input.length - s.offset) 0x01).set (rsiz - 1)
    (lane (t2.set (input.length - s.offset) 0x01) (rsiz - 1) ^^^ 0x80)) hs.1
    (by rw [List.length_set, h3len]; decide)
  have h7 := keccakfC_eq (xorBlock s.st ((t2.set (input.length - s.offset) 0x01).set (rsiz - 1)
    (lane (t2.set (input.length - s.offset) 0x01) (rsiz - 1) ^^^ 0x80)))
    (by rw [xorBlock_length, hs.1])
  refine ⟨?_, ?_, hr⟩
  · unfold absorbLastC absorbLast
    simp only [h1, h2, h3, h4, h5, h6, h7, hmem, Option.bind_eq_bind, Option.some_bind,
      Option.pure_def]
  · simp only [absorbLast]
    rw [keccakf_length, xorBlock_length, hs.1]

theorem extractC_eq (st : List Nat) (h : st.length = 25) : extractC st = some (extract st) := by
  unfold extractC extract
  refine (foldlM_option_eq (fun o : List Nat => o.length = 32) _ _ _ (fun o i ho hi => ?_)
    (List.replicate 32 0) (by simp)).1
  have hi' : i < 4 := List.mem_range.1 hi
  simp only [readC_eq st i (by omega), Option.bind_eq_bind, Option.some_bind]
  refine foldlM_option_eq (fun o : List Nat => o.length = 32) _ _ _ (fun o' j ho' hj => ?_) o ho
  have hj' : j < 8 := List.mem_range.1 hj
  simp only [writeC_eq o' (i * 8 + j) _ (by omega), List.length_set]
  exact ⟨trivial, ho'⟩

/-- The checked run succeeds whenever the unchecked run does, with the same digest. -/
theorem keccak256C_eq (temp0 : List Nat) (ht : temp0.length = 144) (fuel : Nat)
    (input d : List Nat) (c : Nat) (h : keccak256Run temp0 fuel input = some (d, c)) :
    keccak256C temp0 fuel input = some d := by
  unfold keccak256Run at h
  cases hl : absorbLoop input fuel
      { st := List.replicate 25 0, temp := temp0, offset := 0, calls := 0 } with
  | none => rw [hl] at h; exact Option.noConfusion h
  | some s' =>
    rw [hl] at h
    simp only [Option.some.injEq, Prod.mk.injEq] at h
    obtain ⟨e1, hok, hex⟩ := absorbLoopC_eq input fuel _ s' ⟨by simp, ht⟩ hl
    obtain ⟨e2, hlen, _⟩ := absorbLastC_eq input s' hok hex
    unfold keccak256C
    simp only [e1, e2, Option.bind_eq_bind, Option.some_bind, extractC_eq _ hlen]
    rw [h.1]

theorem keccak256_eq_spongeDigest (b : List Nat) (hb : IsBytes b) :
    keccak256 b = spongeDigest b := by
  unfold keccak256
  rw [keccak256Run_eq b hb _ _ (by rw [rsiz_eq])]

/-- C15: `keccak256` is total and has no failure mode. On every byte sequence, from any
    content of the 144-byte buffer and on any fuel of at least `len / 136`, the run in which
    every array access is checked succeeds: the loop over the full blocks ends, at the offset
    `136 * (len / 136)`; the number of bytes left for the final block is below 136, so that the
    writes at the index `remaining` and at the index 135 are inside the buffer; every lane and
    table index of `keccakf` is in range; and the digest has 32 bytes and is the same whatever
    the buffer held and whatever the fuel. -/
theorem keccak256_total (b : List Nat) (hb : IsBytes b) (temp0 : List Nat)
    (ht : temp0.length = 144) (fuel : Nat) (hf : b.length / 136 ≤ fuel) :
    keccak256C temp0 fuel b = some (keccak256 b) ∧
    (∃ s, absorbLoopC b fuel { st := List.replicate 25 0, temp := temp0, offset := 0, calls := 0 }
        = some s ∧ s.offset = 136 * (b.length / 136) ∧ s.temp.length = 144 ∧
      b.length - s.offset < 136 ∧
      (absorbLastC b s).isSome = true) ∧
    (∀ st : List Nat, st.length = 25 → keccakfC st = some (keccakf st)) ∧
    (keccak256 b).length = 32 ∧ IsBytes (keccak256 b) := by
  have hrun := keccak256Run_eq b hb temp0 fuel hf
  obtain ⟨s', h1, h2, _, _⟩ := absorbLoop_ref b hb fuel 0
    { st := List.replicate 25 0, temp := temp0, offset := 0, calls := 0 }
    (Nat.zero_le _) rfl rfl (by omega)
  obtain ⟨e1, hok, hex⟩ := absorbLoopC_eq b fuel _ s' ⟨by simp, ht⟩ h1
  obtain ⟨e2, _, hr⟩ := absorbLastC_eq b s' hok hex
  refine ⟨?_, ⟨s', e1, h2, hok.2, hr, by rw [e2]; rfl⟩, keccakfC_eq, keccak256_length b,
    keccak256_bytes b⟩
  rw [keccak256_eq_spongeDigest b hb]
  exact keccak256C_eq temp0 ht fuel b _ _ hrun

theorem keccak256_total_witness :
    IsBytes [97, 98, 99] ∧ (List.replicate 144 7).length = 144 ∧
    [97, 98, 99].length / 136 ≤ 0 ∧
    keccak256C (List.replicate 144 7) 0 [97, 98, 99] = some (keccak256 [97, 98, 99]) :=
  ⟨by unfold IsBytes; decide, List.length_replicate 144 7, by decide,
    (keccak256_total [97, 98, 99] (by unfold IsBytes; decide) (List.replicate 144 7)
      (List.length_replicate 144 7) 0 (by decide)).1⟩

/-! ## The workers: invariants of every interleaving -/

theorem worldInv_init (n : Nat) : WorldInv (world0 n) := by
  refine ⟨?_, fun _ => ⟨rfl, rfl⟩, by simp [world0], by simp [world0], ?_⟩
  · intro j wk h
    have hwk : wk = worker0 := by
      simp only [world0, List.getElem?_replicate] at h
      split at h
      · exact (Option.some.inj h).symm
      · exact Option.noConfusion h
    subst hwk
    simp [WorkerInv, worker0, world0, WorkerPc.inCritical, WorkerPc.isWriting,
      WorkerPc.afterFound, WorkerPc.hasMatched, CountInv, reportInterval]
  · have : ∀ n, totalAdded (List.replicate n worker0) = 0 := by
      intro n
      induction n with
      | zero => rfl
      | succ m ih =>
        simp only [totalAdded, List.replicate_succ, List.map_cons, List.sum_cons] at ih ⊢
        rw [ih]; rfl
    simp only [world0, this]

theorem totalAdded_set (ws : List Worker) (i : Nat) (wk wk' : Worker)
    (h : ws[i]? = some wk) :
    totalAdded (ws.set i wk') + wk.added.sum = totalAdded ws + wk'.added.sum := by
  induction ws generalizing i with
  | nil => simp at h
  | cons x xs ih =>
    cases i with
    | zero =>
      simp only [List.getElem?_cons_zero, Option.some.injEq] at h
      subst h
      simp only [totalAdded, List.set_cons_zero, List.map_cons, List.sum_cons]
      omega
    | succ k =>
      simp only [List.getElem?_cons_succ] at h
      have := ih k h
      simp only [totalAdded, List.set_cons_succ, List.map_cons, List.sum_cons] at this ⊢
      omega

theorem fetchAdd_mod (total amount s : Nat) (h : total = s % 18446744073709551616) :
    fetchAdd total amount = (s + amount) % 18446744073709551616 := by
  unfold fetchAdd
  rw [h]; omega

theorem worldInv_of_set (w w' : World) (i : Nat) (wk wk' : Worker)
    (hi : w.workers[i]? = some wk) (hws : w'.workers = w.workers.set i wk')
    (hself : WorkerInv w' i wk')
    (hothers : ∀ j wkj, j ≠ i → w.workers[j]? = some wkj → WorkerInv w' j wkj)
    (h2 : w'.writers = [] → w'.found = false ∧ w'.foundResult = foundResult0)
    (h3 : w'.writers.length ≤ 1) (h4 : ∀ x ∈ w'.writers, x < w.workers.length)
    (h5 : w'.totalAttempts + wk.added.sum % 18446744073709551616 ≡
      totalAdded w.workers + wk'.added.sum [MOD 18446744073709551616])
    (h6 : w'.totalAttempts < 18446744073709551616) :
    WorldInv w' := by
  have hlt : i < w.workers.length := by
    by_contra hc
    rw [List.getElem?_eq_none (by omega)] at hi
    exact Option.noConfusion hi
  refine ⟨?_, h2, h3, ?_, ?_⟩
  · intro j wkj hj
    rw [hws, List.getElem?_set] at hj
    by_cases hij : i = j
    · subst hij
      rw [if_pos rfl, if_pos hlt] at hj
      rw [← Option.some.inj hj]; exact hself
    · rw [if_neg hij] at hj
      exact hothers j wkj (fun e => hij e.symm) hj
  · intro x hx
    rw [hws, List.length_set]; exact h4 x hx
  · have e := totalAdded_set w.workers i wk wk' hi
    rw [hws]
    unfold Nat.ModEq at h5
    omega

theorem writerStage_congr (w w' : World) (wk : Worker) (hf : w'.found = w.found)
    (hr : w'.foundResult = w.foundResult) (h : WriterStage w wk) : WriterStage w' wk := by
  unfold WriterStage at h ⊢
  rw [hf, hr]; exact h

/-- The invariant of a worker that does not move is kept by a step that changes the shared
    variables in a way that does not concern it. -/
theorem workerInv_frame (w w' : World) (j : Nat) (wkj : Worker) (hold : WorkerInv w j wkj)
    (hm : w'.resultMutex = some j ↔ w.resultMutex = some j)
    (hw : w.writers = [j] → wkj.pc.isWriting = true → w'.writers = [j])
    (hf : w.found = true → w'.found = true)
    (hs : w'.writers = [j] →
      w.writers = [j] ∧ w'.found = w.found ∧ w'.foundResult = w.foundResult) :
    WorkerInv w' j wkj := by
  obtain ⟨h1, h2, h3, h4, h5, h6⟩ := hold
  refine ⟨h1.trans hm.symm, fun hx => hw (h2 hx) hx, fun hx => hf (h3 hx), ?_, h5, h6⟩
  intro hx
  obtain ⟨a, b, c⟩ := hs hx
  exact ⟨writerStage_congr w w' wkj b c (h4 a).1, (h4 a).2⟩

/-- The counter invariant does not depend on the program point, `done` apart. -/
theorem countInv_pc (wk wk' : Worker) (h : CountInv wk) (h0 : wk.pc ≠ .done)
    (h1 : wk'.pc ≠ .done) (e1 : wk'.localAttempts = wk.localAttempts)
    (e2 : wk'.iterations = wk.iterations) (e3 : wk'.added = wk.added) : CountInv wk' := by
  obtain ⟨a, b, _⟩ := h
  refine ⟨by rw [e1]; exact a, fun _ => ?_, fun hd => absurd hd h1⟩
  rw [e1, e2, e3]; exact b h0

theorem countInv_body (wk wk' : Worker) (h : CountInv wk) (h0 : wk.pc ≠ .done)
    (h1 : wk'.pc ≠ .done)
    (e1 : wk'.localAttempts =
      if (wk.localAttempts + 1) % reportInterval == 0 then 0 else wk.localAttempts + 1)
    (e2 : wk'.iterations = wk.iterations + 1)
    (e3 : wk'.added =
      if (wk.localAttempts + 1) % reportInterval == 0 then wk.added ++ [reportInterval]
      else wk.added) : CountInv wk' := by
  obtain ⟨a, b, _⟩ := h
  obtain ⟨b1, b2⟩ := b h0
  unfold CountInv
  simp only [show reportInterval = 50000 from rfl] at a b1 b2 e1 e3 ⊢
  by_cases hr : (wk.localAttempts + 1) % 50000 = 0
  · have hb : ((wk.localAttempts + 1) % 50000 == 0) = true := by simpa using hr
    rw [hb, if_pos rfl] at e1 e3
    refine ⟨by rw [e1]; decide, fun _ => ⟨?_, ?_⟩, fun hd => absurd hd h1⟩
    · rw [e1, e2, e3, List.sum_append, List.sum_cons, List.sum_nil]; omega
    · intro x hx
      rw [e3] at hx
      rcases List.mem_append.1 hx with hx | hx
      · exact b2 x hx
      · simpa using hx
  · have hb : ((wk.localAttempts + 1) % 50000 == 0) = false := by simpa using hr
    rw [hb, if_neg (by decide)] at e1 e3
    refine ⟨by rw [e1]; omega, fun _ => ⟨?_, ?_⟩, fun hd => absurd hd h1⟩
    · rw [e1, e2, e3]; omega
    · rw [e3]; exact b2

theorem countInv_flush (wk wk' : Worker) (h : CountInv wk) (h0 : wk.pc ≠ .done)
    (hd : wk'.pc = .done)
    (e1 : wk'.localAttempts = wk.localAttempts) (e2 : wk'.iterations = wk.iterations)
    (e3 : wk'.added = wk.added ++ [wk.localAttempts]) : CountInv wk' := by
  obtain ⟨a, b, _⟩ := h
  obtain ⟨b1, b2⟩ := b h0
  refine ⟨by rw [e1]; exact a, fun hne => absurd hd hne, fun _ => ⟨?_, ?_⟩⟩
  · rw [e2, e3, List.sum_append, List.sum_cons, List.sum_nil]; omega
  · refine ⟨wk.added.length, ?_⟩
    rw [e3, e1]
    congr 1
    exact List.eq_replicate_of_mem b2

theorem writerStage_not_found (w : World) (wk : Worker) (h : WriterStage w wk)
    (hf : w.found = false) : wk.pc.inCritical = true ∧ wk.pc ≠ .testFound := by
  unfold WriterStage at h
  cases hpc : wk.pc <;> simp_all [WorkerPc.inCritical]

/-- With the mutex held at the test of `found`, and `found` not set, nobody has entered the
    writing branch. -/
theorem writers_nil_of_testFound (w : World) (hinv : WorldInv w) (i : Nat) (wk : Worker)
    (hi : w.workers[i]? = some wk) (hpc : wk.pc = .testFound) (hf : w.found = false) :
    w.writers = [] := by
  obtain ⟨hall, hE, hlen, hlt, _⟩ := hinv
  match hw : w.writers, hlen with
  | [], _ => rfl
  | [x], _ =>
    exfalso
    have hx : x < w.workers.length := hlt x (by rw [hw]; exact List.mem_singleton.2 rfl)
    have hgx := List.getElem?_eq_getElem hx
    obtain ⟨a1, _, _, a4, _, _⟩ := hall x _ hgx
    obtain ⟨b1, _, _, b4, _, _⟩ := hall i wk hi
    obtain ⟨c1, c2⟩ := writerStage_not_found w _ (a4 hw).1 hf
    have hm := a1.1 c1
    have hm' := b1.1 (by rw [hpc]; rfl)
    rw [hm] at hm'
    have hxi : x = i := Option.some.inj hm'
    subst hxi
    rw [hi] at hgx
    have : wk = w.workers[x] := Option.some.inj hgx
    rw [← this] at c2
    exact c2 hpc

set_option maxHeartbeats 4000000 in
/-- Every step keeps the invariant of the program. -/
theorem worldInv_step (g : Mask) (ec : List Nat → List Nat) (i : Nat) (key : List Nat)
    (w w' : World) (h : stepWorker g ec i key w = some w') (hinv : WorldInv w) :
    WorldInv w' := by
  have hinv0 := hinv
  obtain ⟨hall, hE, hlen, hlt, htot⟩ := hinv
  unfold stepWorker at h
  cases hi : w.workers[i]? with
  | none => rw [hi] at h; exact Option.noConfusion h
  | some wk =>
    rw [hi] at h
    have hself := hall i wk hi
    have hilt : i < w.workers.length := by
      by_contra hc
      rw [List.getElem?_eq_none (by omega)] at hi
      exact Option.noConfusion hi
    cases hpc : wk.pc <;> simp only [hpc] at h
    · -- loopTest
      injection h with h; subst h
      obtain ⟨s1, s2, s3, s4, s5, s6⟩ := hself
      simp only [hpc, WriterStage, WorkerPc.inCritical, WorkerPc.isWriting, WorkerPc.afterFound,
        WorkerPc.hasMatched, foundResult0] at s1 s2 s3 s4 s5
      refine worldInv_of_set w _ i wk _ hi rfl ?_
        (fun j wkj hji hj => workerInv_frame w _ j wkj (hall j wkj hj) ?_ ?_ ?_ ?_)
        ?_ ?_ ?_ ?_ ?_
      · clear hall
        have hc : CountInv { wk with pc := if w.found = true then WorkerPc.flush
            else WorkerPc.loopBody } :=
          countInv_pc wk _ s6 (by rw [hpc]; decide) (by cases w.found <;> simp) rfl rfl rfl
        cases hf : w.found <;> refine ⟨?_, ?_, ?_, ?_, ?_, by simpa [hf] using hc⟩ <;>
        simp_all [WriterStage, WorkerPc.inCritical, WorkerPc.isWriting, WorkerPc.afterFound,
        WorkerPc.hasMatched, foundResult0]
      · exact Iff.rfl
      · exact fun h _ => h
      · exact fun h => h
      · exact fun h => ⟨h, rfl, rfl⟩
      · exact hE
      · exact hlen
      · exact hlt
      · simp only [Nat.ModEq]; omega
      · dsimp only; omega
    · -- loopBody
      obtain ⟨s1, s2, s3, s4, s5, s6⟩ := hself
      simp only [hpc, WriterStage, WorkerPc.inCritical, WorkerPc.isWriting, WorkerPc.afterFound,
        WorkerPc.hasMatched, foundResult0] at s1 s2 s3 s4 s5
      split at h
      · injection h with h; subst h
        refine worldInv_of_set w _ i wk _ hi rfl ?_
          (fun j wkj hji hj => workerInv_frame w _ j wkj (hall j wkj hj) ?_ ?_ ?_ ?_)
          ?_ ?_ ?_ ?_ ?_
        · clear hall hinv0 hi htot hlt
          refine ⟨?_, ?_, ?_, ?_, ?_, countInv_body wk _ s6 (by rw [hpc]; decide) (by simp) rfl rfl rfl⟩ <;>
          simp_all [WriterStage, WorkerPc.inCritical, WorkerPc.isWriting, WorkerPc.afterFound,
          WorkerPc.hasMatched, foundResult0]
        · exact Iff.rfl
        · exact fun h _ => h
        · exact fun h => h
        · exact fun h => ⟨h, rfl, rfl⟩
        · exact hE
        · exact hlen
        · exact hlt
        · by_cases hr : (wk.localAttempts + 1) % reportInterval = 0
          · simp only [Nat.ModEq, hr, beq_self_eq_true, if_true, fetchAdd, List.sum_append,
              List.sum_cons, List.sum_nil]
            omega
          · have hb : ((wk.localAttempts + 1) % reportInterval == 0) = false := by simpa using hr
            simp only [Nat.ModEq, hb, Bool.false_eq_true, if_false]
            omega
        · by_cases hr : (wk.localAttempts + 1) % reportInterval = 0
          · simp only [hr, beq_self_eq_true, if_true, fetchAdd]
            omega
          · have hb : ((wk.localAttempts + 1) % reportInterval == 0) = false := by simpa using hr
            simp only [hb, Bool.false_eq_true, if_false]
            omega
      · split at h
        · exact Option.noConfusion h
        · split at h
          · exact Option.noConfusion h
          · injection h with h; subst h
            rename_i m _
            refine worldInv_of_set w _ i wk _ hi rfl ?_
              (fun j wkj hji hj => workerInv_frame w _ j wkj (hall j wkj hj) ?_ ?_ ?_ ?_)
              ?_ ?_ ?_ ?_ ?_
            · clear hall
              have hc : CountInv { wk with
                  localAttempts := if (wk.localAttempts + 1) % reportInterval == 0 then 0
                    else wk.localAttempts + 1,
                  iterations := wk.iterations + 1,
                  added := if (wk.localAttempts + 1) % reportInterval == 0
                    then wk.added ++ [reportInterval] else wk.added,
                  privateKey := key, addressBytes := (by assumption : List Nat),
                  pc := if m = true then WorkerPc.lockResult else WorkerPc.loopTest } :=
                countInv_body wk _ s6 (by rw [hpc]; decide) (by cases m <;> simp) rfl rfl rfl
              cases m <;> refine ⟨?_, ?_, ?_, ?_, ?_, by simpa using hc⟩ <;>
              simp_all [WriterStage, WorkerPc.inCritical, WorkerPc.isWriting, WorkerPc.afterFound,
              WorkerPc.hasMatched, foundResult0]
            · exact Iff.rfl
            · exact fun h _ => h
            · exact fun h => h
            · exact fun h => ⟨h, rfl, rfl⟩
            · exact hE
            · exact hlen
            · exact hlt
            · by_cases hr : (wk.localAttempts + 1) % reportInterval = 0
              · simp only [Nat.ModEq, hr, beq_self_eq_true, if_true, fetchAdd, List.sum_append,
                  List.sum_cons, List.sum_nil]
                omega
              · have hb : ((wk.localAttempts + 1) % reportInterval == 0) = false := by simpa using hr
                simp only [Nat.ModEq, hb, Bool.false_eq_true, if_false]
                omega
            · by_cases hr : (wk.localAttempts + 1) % reportInterval = 0
              · simp only [hr, beq_self_eq_true, if_true, fetchAdd]
                omega
              · have hb : ((wk.localAttempts + 1) % reportInterval == 0) = false := by simpa using hr
                simp only [hb, Bool.false_eq_true, if_false]
                omega
    · -- lockResult
      obtain ⟨s1, s2, s3, s4, s5, s6⟩ := hself
      simp only [hpc, WriterStage, WorkerPc.inCritical, WorkerPc.isWriting, WorkerPc.afterFound,
        WorkerPc.hasMatched, foundResult0] at s1 s2 s3 s4 s5
      split at h
      · injection h with h; subst h
        rename_i hmx
        refine worldInv_of_set w _ i wk _ hi rfl ?_
          (fun j wkj hji hj => workerInv_frame w _ j wkj (hall j wkj hj) ?_ ?_ ?_ ?_)
          ?_ ?_ ?_ ?_ ?_
        · clear hall hinv0 hi htot hlt
          refine ⟨?_, ?_, ?_, ?_, ?_, countInv_pc wk _ s6 (by rw [hpc]; decide) (by simp) rfl rfl rfl⟩ <;>
          simp_all [WriterStage, WorkerPc.inCritical, WorkerPc.isWriting, WorkerPc.afterFound,
          WorkerPc.hasMatched, foundResult0]
        · have hij : ¬ i = j := fun e => hji e.symm
          clear hall hinv0 hi htot hlt hj
          simp_all
        · have hij : ¬ i = j := fun e => hji e.symm
          clear hall hinv0 hi htot hlt hj
          simp_all
        · have hij : ¬ i = j := fun e => hji e.symm
          clear hall hinv0 hi htot hlt hj
          simp_all
        · have hij : ¬ i = j := fun e => hji e.symm
          clear hall hinv0 hi htot hlt hj
          simp_all
        · clear hall hinv0 hi htot hlt
          simp_all [foundResult0]
        · clear hall hinv0 hi htot hlt
          simp_all
        · clear hall hinv0 hi htot
          simp_all
        · simp only [Nat.ModEq]; omega
        · dsimp only; omega
      · exact Option.noConfusion h
    · -- testFound
      obtain ⟨s1, s2, s3, s4, s5, s6⟩ := hself
      simp only [hpc, WriterStage, WorkerPc.inCritical, WorkerPc.isWriting, WorkerPc.afterFound,
        WorkerPc.hasMatched, foundResult0] at s1 s2 s3 s4 s5
      split at h
      · injection h with h; subst h
        rename_i hfound
        refine worldInv_of_set w _ i wk _ hi rfl ?_
          (fun j wkj hji hj => workerInv_frame w _ j wkj (hall j wkj hj) ?_ ?_ ?_ ?_)
          ?_ ?_ ?_ ?_ ?_
        · clear hall hinv0 hi htot hlt
          refine ⟨?_, ?_, ?_, ?_, ?_, countInv_pc wk _ s6 (by rw [hpc]; decide) (by simp) rfl rfl rfl⟩ <;>
          simp_all [WriterStage, WorkerPc.inCritical, WorkerPc.isWriting, WorkerPc.afterFound,
          WorkerPc.hasMatched, foundResult0]
        · exact Iff.rfl
        · exact fun h _ => h
        · exact fun h => h
        · exact fun h => ⟨h, rfl, rfl⟩
        · exact hE
        · exact hlen
        · exact hlt
        · simp only [Nat.ModEq]; omega
        · dsimp only; omega
      · injection h with h; subst h
        rename_i hfound
        have hnil := writers_nil_of_testFound w hinv0 i wk hi hpc (by simpa using hfound)
        obtain ⟨hf0, hr0⟩ := hE hnil
        refine worldInv_of_set w _ i wk _ hi rfl ?_
          (fun j wkj hji hj => workerInv_frame w _ j wkj (hall j wkj hj) ?_ ?_ ?_ ?_)
          ?_ ?_ ?_ ?_ ?_
        · refine ⟨⟨fun _ => s1.1 trivial, fun _ => rfl⟩, fun _ => ?_, fun hx => ?_,
            fun _ => ⟨⟨hf0, hr0⟩, s5 trivial⟩, fun _ => s5 trivial,
            countInv_pc wk _ s6 (by rw [hpc]; decide) (by simp) rfl rfl rfl⟩
          · show w.writers ++ [i] = [i]
            rw [hnil]; rfl
          · exact absurd hx (by simp [WorkerPc.afterFound])
        · exact Iff.rfl
        · intro hx _
          rw [hnil] at hx
          exact absurd hx (by simp)
        · exact fun h => h
        · intro hx
          have hx' : w.writers ++ [i] = [j] := hx
          rw [hnil] at hx'
          simp at hx'
          exact absurd hx'.symm hji
        · intro hx
          have hx' : w.writers ++ [i] = [] := hx
          simp at hx'
        · show (w.writers ++ [i]).length ≤ 1
          rw [hnil]; simp
        · intro x hx
          have hx' : x ∈ w.writers ++ [i] := hx
          rw [hnil] at hx'
          simp at hx'
          omega
        · simp only [Nat.ModEq]; omega
        · dsimp only; omega
    · -- writeKey
      injection h with h; subst h
      obtain ⟨s1, s2, s3, s4, s5, s6⟩ := hself
      simp only [hpc, WriterStage, WorkerPc.inCritical, WorkerPc.isWriting, WorkerPc.afterFound,
        WorkerPc.hasMatched, foundResult0] at s1 s2 s3 s4 s5
      refine worldInv_of_set w _ i wk _ hi rfl ?_
        (fun j wkj hji hj => workerInv_frame w _ j wkj (hall j wkj hj) ?_ ?_ ?_ ?_)
        ?_ ?_ ?_ ?_ ?_
      · clear hall hinv0 hi htot hlt
        refine ⟨?_, ?_, ?_, ?_, ?_, countInv_pc wk _ s6 (by rw [hpc]; decide) (by simp) rfl rfl rfl⟩ <;>
        simp_all [WriterStage, WorkerPc.inCritical, WorkerPc.isWriting, WorkerPc.afterFound,
        WorkerPc.hasMatched, foundResult0]
      · have hij : ¬ i = j := fun e => hji e.symm
        clear hall hinv0 hi htot hlt hj
        simp_all
      · have hij : ¬ i = j := fun e => hji e.symm
        clear hall hinv0 hi htot hlt hj
        simp_all
      · have hij : ¬ i = j := fun e => hji e.symm
        clear hall hinv0 hi htot hlt hj
        simp_all
      · have hij : ¬ i = j := fun e => hji e.symm
        clear hall hinv0 hi htot hlt hj
        simp_all
      · clear hall hinv0 hi htot hlt
        simp_all [foundResult0]
      · clear hall hinv0 hi htot hlt
        simp_all
      · clear hall hinv0 hi htot
        simp_all
      · simp only [Nat.ModEq]; omega
      · dsimp only; omega
    · -- writeAddress
      injection h with h; subst h
      obtain ⟨s1, s2, s3, s4, s5, s6⟩ := hself
      simp only [hpc, WriterStage, WorkerPc.inCritical, WorkerPc.isWriting, WorkerPc.afterFound,
        WorkerPc.hasMatched, foundResult0] at s1 s2 s3 s4 s5
      refine worldInv_of_set w _ i wk _ hi rfl ?_
        (fun j wkj hji hj => workerInv_frame w _ j wkj (hall j wkj hj) ?_ ?_ ?_ ?_)
        ?_ ?_ ?_ ?_ ?_
      · clear hall hinv0 hi htot hlt
        refine ⟨?_, ?_, ?_, ?_, ?_, countInv_pc wk _ s6 (by rw [hpc]; decide) (by simp) rfl rfl rfl⟩ <;>
        simp_all [WriterStage, WorkerPc.inCritical, WorkerPc.isWriting, WorkerPc.afterFound,
        WorkerPc.hasMatched, foundResult0]
      · have hij : ¬ i = j := fun e => hji e.symm
        clear hall hinv0 hi htot hlt hj
        simp_all
      · have hij : ¬ i = j := fun e => hji e.symm
        clear hall hinv0 hi htot hlt hj
        simp_all
      · have hij : ¬ i = j := fun e => hji e.symm
        clear hall hinv0 hi htot hlt hj
        simp_all
      · have hij : ¬ i = j := fun e => hji e.symm
        clear hall hinv0 hi htot hlt hj
        simp_all
      · clear hall hinv0 hi htot hlt
        simp_all [foundResult0]
      · clear hall hinv0 hi htot hlt
        simp_all
      · clear hall hinv0 hi htot
        simp_all
      · simp only [Nat.ModEq]; omega
      · dsimp only; omega
    · -- writeFound
      injection h with h; subst h
      obtain ⟨s1, s2, s3, s4, s5, s6⟩ := hself
      simp only [hpc, WriterStage, WorkerPc.inCritical, WorkerPc.isWriting, WorkerPc.afterFound,
        WorkerPc.hasMatched, foundResult0] at s1 s2 s3 s4 s5
      refine worldInv_of_set w _ i wk _ hi rfl ?_
        (fun j wkj hji hj => workerInv_frame w _ j wkj (hall j wkj hj) ?_ ?_ ?_ ?_)
        ?_ ?_ ?_ ?_ ?_
      · clear hall hinv0 hi htot hlt
        refine ⟨?_, ?_, ?_, ?_, ?_, countInv_pc wk _ s6 (by rw [hpc]; decide) (by simp) rfl rfl rfl⟩ <;>
        simp_all [WriterStage, WorkerPc.inCritical, WorkerPc.isWriting, WorkerPc.afterFound,
        WorkerPc.hasMatched, foundResult0]
      · have hij : ¬ i = j := fun e => hji e.symm
        clear hall hinv0 hi htot hlt hj
        simp_all
      · have hij : ¬ i = j := fun e => hji e.symm
        clear hall hinv0 hi htot hlt hj
        simp_all
      · have hij : ¬ i = j := fun e => hji e.symm
        clear hall hinv0 hi htot hlt hj
        simp_all
      · have hij : ¬ i = j := fun e => hji e.symm
        clear hall hinv0 hi htot hlt hj
        simp_all
      · clear hall hinv0 hi htot hlt
        simp_all [foundResult0]
      · clear hall hinv0 hi htot hlt
        simp_all
      · clear hall hinv0 hi htot
        simp_all
      · simp only [Nat.ModEq]; omega
      · dsimp only; omega
    · -- storeFound
      injection h with h; subst h
      obtain ⟨s1, s2, s3, s4, s5, s6⟩ := hself
      simp only [hpc, WriterStage, WorkerPc.inCritical, WorkerPc.isWriting, WorkerPc.afterFound,
        WorkerPc.hasMatched, foundResult0] at s1 s2 s3 s4 s5
      refine worldInv_of_set w _ i wk _ hi rfl ?_
        (fun j wkj hji hj => workerInv_frame w _ j wkj (hall j wkj hj) ?_ ?_ ?_ ?_)
        ?_ ?_ ?_ ?_ ?_
      · clear hall hinv0 hi htot hlt
        refine ⟨?_, ?_, ?_, ?_, ?_, countInv_pc wk _ s6 (by rw [hpc]; decide) (by simp) rfl rfl rfl⟩ <;>
        simp_all [WriterStage, WorkerPc.inCritical, WorkerPc.isWriting, WorkerPc.afterFound,
        WorkerPc.hasMatched, foundResult0]
      · have hij : ¬ i = j := fun e => hji e.symm
        clear hall hinv0 hi htot hlt hj
        simp_all
      · have hij : ¬ i = j := fun e => hji e.symm
        clear hall hinv0 hi htot hlt hj
        simp_all
      · have hij : ¬ i = j := fun e => hji e.symm
        clear hall hinv0 hi htot hlt hj
        simp_all
      · have hij : ¬ i = j := fun e => hji e.symm
        clear hall hinv0 hi htot hlt hj
        simp_all
      · clear hall hinv0 hi htot hlt
        simp_all [foundResult0]
      · clear hall hinv0 hi htot hlt
        simp_all
      · clear hall hinv0 hi htot
        simp_all
      · simp only [Nat.ModEq]; omega
      · dsimp only; omega
    · -- unlockResult
      injection h with h; subst h
      obtain ⟨s1, s2, s3, s4, s5, s6⟩ := hself
      simp only [hpc, WriterStage, WorkerPc.inCritical, WorkerPc.isWriting, WorkerPc.afterFound,
        WorkerPc.hasMatched, foundResult0] at s1 s2 s3 s4 s5
      refine worldInv_of_set w _ i wk _ hi rfl ?_
        (fun j wkj hji hj => workerInv_frame w _ j wkj (hall j wkj hj) ?_ ?_ ?_ ?_)
        ?_ ?_ ?_ ?_ ?_
      · clear hall hinv0 hi htot hlt
        refine ⟨?_, ?_, ?_, ?_, ?_, countInv_pc wk _ s6 (by rw [hpc]; decide) (by simp) rfl rfl rfl⟩ <;>
        simp_all [WriterStage, WorkerPc.inCritical, WorkerPc.isWriting, WorkerPc.afterFound,
        WorkerPc.hasMatched, foundResult0]
      · have hij : ¬ i = j := fun e => hji e.symm
        clear hall hinv0 hi htot hlt hj
        simp_all
      · have hij : ¬ i = j := fun e => hji e.symm
        clear hall hinv0 hi htot hlt hj
        simp_all
      · have hij : ¬ i = j := fun e => hji e.symm
        clear hall hinv0 hi htot hlt hj
        simp_all
      · have hij : ¬ i = j := fun e => hji e.symm
        clear hall hinv0 hi htot hlt hj
        simp_all
      · clear hall hinv0 hi htot hlt
        simp_all [foundResult0]
      · clear hall hinv0 hi htot hlt
        simp_all
      · clear hall hinv0 hi htot
        simp_all
      · simp only [Nat.ModEq]; omega
      · dsimp only; omega
    · -- flush
      injection h with h; subst h
      obtain ⟨s1, s2, s3, s4, s5, s6⟩ := hself
      simp only [hpc, WriterStage, WorkerPc.inCritical, WorkerPc.isWriting, WorkerPc.afterFound,
        WorkerPc.hasMatched, foundResult0] at s1 s2 s3 s4 s5
      refine worldInv_of_set w _ i wk _ hi rfl ?_
        (fun j wkj hji hj => workerInv_frame w _ j wkj (hall j wkj hj) ?_ ?_ ?_ ?_)
        ?_ ?_ ?_ ?_ ?_
      · clear hall hinv0 hi htot hlt
        refine ⟨?_, ?_, ?_, ?_, ?_, countInv_flush wk _ s6 (by rw [hpc]; decide) rfl rfl rfl rfl⟩ <;>
        simp_all [WriterStage, WorkerPc.inCritical, WorkerPc.isWriting, WorkerPc.afterFound,
        WorkerPc.hasMatched, foundResult0]
      · exact Iff.rfl
      · exact fun h _ => h
      · exact fun h => h
      · exact fun h => ⟨h, rfl, rfl⟩
      · exact hE
      · exact hlen
      · exact hlt
      · simp only [Nat.ModEq, fetchAdd, List.sum_append, List.sum_cons, List.sum_nil]
        omega
      · simp only [fetchAdd]
        omega
    · -- done
      exact Option.noConfusion h

/-! ## The workers: what every reachable state satisfies -/

/-- The invariant holds in every state that a schedule reaches from a state where it holds. -/
theorem worldInv_run (g : Mask) (ec : List Nat → List Nat) (sched : List (Nat × List Nat))
    (w0 w : World) (h0 : WorldInv w0) (h : runSchedule g ec sched w0 = some w) :
    WorldInv w := by
  induction sched generalizing w0 with
  | nil =>
    simp only [runSchedule] at h
    rw [← Option.some.inj h]; exact h0
  | cons s rest ih =>
    obtain ⟨i, key⟩ := s
    simp only [runSchedule] at h
    cases hs : stepWorker g ec i key w0 with
    | none => rw [hs] at h; exact Option.noConfusion h
    | some w1 =>
      rw [hs] at h
      exact ih w1 (worldInv_step g ec i key w0 w1 hs h0) h

/-- What one step of the worker `i` leaves unchanged, by program point. -/
theorem step_frame (g : Mask) (ec : List Nat → List Nat) (i : Nat) (key : List Nat)
    (w w' : World) (h : stepWorker g ec i key w = some w') :
    ∃ wk wk', w.workers[i]? = some wk ∧ w'.workers = w.workers.set i wk' ∧
      (wk.pc.isWriting = false → w'.foundResult = w.foundResult) ∧
      (wk.pc ≠ .storeFound → w'.found = w.found) ∧
      (wk.pc = .storeFound → w'.found = true ∧ w'.foundResult = w.foundResult) ∧
      (w'.writers = w.writers ∨
        (wk.pc = .testFound ∧ w.found = false ∧ w'.writers = w.writers ++ [i])) ∧
      wk'.iterations = wk.iterations + (if wk.pc = .loopBody then 1 else 0) ∧
      (wk.pc = .loopBody → ec key = [] → wk'.pc = .loopTest) := by
  unfold stepWorker at h
  cases hi : w.workers[i]? with
  | none => rw [hi] at h; exact Option.noConfusion h
  | some wk =>
    rw [hi] at h
    cases hpc : wk.pc <;> simp only [hpc] at h
    · injection h with h; subst h
      exact ⟨wk, _, rfl, rfl, by simp [hpc, WorkerPc.isWriting]⟩
    · split at h
      · injection h with h; subst h
        exact ⟨wk, _, rfl, rfl, by simp [hpc, WorkerPc.isWriting]⟩
      · rename_i hne
        split at h
        · exact Option.noConfusion h
        · split at h
          · exact Option.noConfusion h
          · injection h with h; subst h
            exact ⟨wk, _, rfl, rfl, by simp [hpc, WorkerPc.isWriting, hne]⟩
    · split at h
      · injection h with h; subst h
        exact ⟨wk, _, rfl, rfl, by simp [hpc, WorkerPc.isWriting]⟩
      · exact Option.noConfusion h
    · split at h
      · injection h with h; subst h
        exact ⟨wk, _, rfl, rfl, by simp [hpc, WorkerPc.isWriting]⟩
      · rename_i hf
        injection h with h; subst h
        exact ⟨wk, _, rfl, rfl, by simp [hpc, WorkerPc.isWriting, hf]⟩
    · injection h with h; subst h
      exact ⟨wk, _, rfl, rfl, by simp [hpc, WorkerPc.isWriting]⟩
    · injection h with h; subst h
      exact ⟨wk, _, rfl, rfl, by simp [hpc, WorkerPc.isWriting]⟩
    · injection h with h; subst h
      exact ⟨wk, _, rfl, rfl, by simp [hpc, WorkerPc.isWriting]⟩
    · injection h with h; subst h
      exact ⟨wk, _, rfl, rfl, by simp [hpc, WorkerPc.isWriting]⟩
    · injection h with h; subst h
      exact ⟨wk, _, rfl, rfl, by simp [hpc, WorkerPc.isWriting]⟩
    · injection h with h; subst h
      exact ⟨wk, _, rfl, rfl, by simp [hpc, WorkerPc.isWriting]⟩
    · exact Option.noConfusion h

theorem resultInv_init (g : Mask) (ec : List Nat → List Nat) (n : Nat) :
    ResultInv g ec (world0 n) := by
  refine ⟨?_, fun h => absurd h (by simp [world0, foundResult0])⟩
  intro j wk h hm
  have hwk : wk = worker0 := by
    simp only [world0, List.getElem?_replicate] at h
    split at h
    · exact (Option.some.inj h).symm
    · exact Option.noConfusion h
  rw [hwk] at hm
  exact absurd hm (by simp [worker0, WorkerPc.hasMatched])

theorem resultInv_of_set (g : Mask) (ec : List Nat → List Nat) (w w' : World) (i : Nat)
    (wk' : Worker) (hws : w'.workers = w.workers.set i wk') (hold : ResultInv g ec w)
    (hself : wk'.pc.hasMatched = true → Derived g ec wk'.privateKey wk'.addressBytes)
    (hres : w'.foundResult.found = true →
      Derived g ec w'.foundResult.privateKey w'.foundResult.addressBytes) :
    ResultInv g ec w' := by
  refine ⟨?_, hres⟩
  intro j wkj hj hm
  rw [hws, List.getElem?_set] at hj
  by_cases hij : i = j
  · rw [if_pos hij] at hj
    split at hj
    · rw [← Option.some.inj hj] at hm ⊢; exact hself hm
    · exact Option.noConfusion hj
  · rw [if_neg hij] at hj
    exact hold.1 j wkj hj hm

/-- Every step keeps the coherence of the matched keys and of the record. -/
theorem resultInv_step (g : Mask) (ec : List Nat → List Nat) (i : Nat) (key : List Nat)
    (w w' : World) (h : stepWorker g ec i key w = some w') (hinv : WorldInv w)
    (hold : ResultInv g ec w) : ResultInv g ec w' := by
  unfold stepWorker at h
  cases hi : w.workers[i]? with
  | none => rw [hi] at h; exact Option.noConfusion h
  | some wk =>
    rw [hi] at h
    obtain ⟨-, s2, -, s4, -, -⟩ := hinv.1 i wk hi
    have hm := hold.1 i wk hi
    cases hpc : wk.pc <;> simp only [hpc] at h
      <;> simp only [hpc, WorkerPc.isWriting, WorkerPc.hasMatched, WriterStage,
        true_implies] at s2 s4 hm
    · injection h with h; subst h
      refine resultInv_of_set g ec w _ i _ rfl hold (fun hx => ?_) hold.2
      dsimp only at hx
      split at hx <;> exact absurd hx (by simp [WorkerPc.hasMatched])
    · split at h
      · injection h with h; subst h
        exact resultInv_of_set g ec w _ i _ rfl hold
          (fun hx => absurd hx (by simp [WorkerPc.hasMatched])) hold.2
      · rename_i hne
        split at h
        · exact Option.noConfusion h
        · rename_i addressBytes ha
          split at h
          · exact Option.noConfusion h
          · rename_i m hmm
            injection h with h; subst h
            refine resultInv_of_set g ec w _ i _ rfl hold (fun hx => ?_) hold.2
            cases m
            · exact absurd hx (by simp [WorkerPc.hasMatched])
            · exact ⟨hne, ha, hmm⟩
    · split at h
      · injection h with h; subst h
        exact resultInv_of_set g ec w _ i _ rfl hold (fun _ => hm) hold.2
      · exact Option.noConfusion h
    · split at h
      · injection h with h; subst h
        exact resultInv_of_set g ec w _ i _ rfl hold (fun _ => hm) hold.2
      · injection h with h; subst h
        exact resultInv_of_set g ec w _ i _ rfl hold (fun _ => hm) hold.2
    · injection h with h; subst h
      refine resultInv_of_set g ec w _ i _ rfl hold (fun _ => hm) (fun hx => ?_)
      have hx' : w.foundResult.found = true := hx
      rw [(s4 s2).1.2] at hx'
      exact absurd hx' (by simp [foundResult0])
    · injection h with h; subst h
      refine resultInv_of_set g ec w _ i _ rfl hold (fun _ => hm) (fun hx => ?_)
      have hx' : w.foundResult.found = true := hx
      rw [(s4 s2).1.2] at hx'
      exact absurd hx' (by simp)
    · injection h with h; subst h
      refine resultInv_of_set g ec w _ i _ rfl hold (fun _ => hm) (fun _ => ?_)
      dsimp only
      rw [(s4 s2).1.2]
      exact hm
    · injection h with h; subst h
      exact resultInv_of_set g ec w _ i _ rfl hold (fun _ => hm) hold.2
    · injection h with h; subst h
      exact resultInv_of_set g ec w _ i _ rfl hold
        (fun hx => absurd hx (by simp [WorkerPc.hasMatched])) hold.2
    · injection h with h; subst h
      exact resultInv_of_set g ec w _ i _ rfl hold
        (fun hx => absurd hx (by simp [WorkerPc.hasMatched])) hold.2
    · exact Option.noConfusion h

theorem resultInv_run (g : Mask) (ec : List Nat → List Nat) (sched : List (Nat × List Nat))
    (w0 w : World) (h0 : WorldInv w0) (r0 : ResultInv g ec w0)
    (h : runSchedule g ec sched w0 = some w) : ResultInv g ec w := by
  induction sched generalizing w0 with
  | nil =>
    simp only [runSchedule] at h
    rw [← Option.some.inj h]; exact r0
  | cons s rest ih =>
    obtain ⟨i, key⟩ := s
    simp only [runSchedule] at h
    cases hs : stepWorker g ec i key w0 with
    | none => rw [hs] at h; exact Option.noConfusion h
    | some w1 =>
      rw [hs] at h
      exact ih w1 (worldInv_step g ec i key w0 w1 hs h0)
        (resultInv_step g ec i key w0 w1 hs h0 r0) h

theorem writerStage_writing (w : World) (wk : Worker) (h : WriterStage w wk)
    (hw : wk.pc.isWriting = true) : w.found = false := by
  unfold WriterStage at h
  cases hpc : wk.pc <;> simp_all [WorkerPc.isWriting]

theorem writerStage_found (w : World) (wk : Worker) (h : WriterStage w wk)
    (hf : w.found = true) :
    w.foundResult =
      { privateKey := wk.privateKey, addressBytes := wk.addressBytes, found := true } := by
  unfold WriterStage at h
  cases hpc : wk.pc <;> simp_all

theorem inCritical_of_isWriting (pc : WorkerPc) (h : pc.isWriting = true) :
    pc.inCritical = true := by
  cases pc <;> simp_all [WorkerPc.isWriting, WorkerPc.inCritical]

set_option maxRecDepth 1000000 in
theorem raceSchedule_run :
    runSchedule wildMask doubledKey raceSchedule (world0 2) = some raceWorld := by
  decide!

/-! ## The record of the search and the attempt counter -/

/-- C12: in every state that an interleaving of any number of workers reaches, at most one
    worker has ever entered the branch that assigns `foundResult`, and at most one worker holds
    `resultMutex`; the step that enters the branch is taken with the mutex held, `found` false
    and the record untouched; every step that changes `foundResult` is a step of that one
    worker, with the mutex held and `found` false; once `found` is true no step of any worker
    changes `foundResult` or `found`; and then the record is whole, the private key and the
    address of that one worker, the address being the one derived from the key. -/
theorem foundResult_written_once (g : Mask) (ec : List Nat → List Nat) (n : Nat)
    (sched : List (Nat × List Nat)) (w : World)
    (h : runSchedule g ec sched (world0 n) = some w) :
    w.writers.length ≤ 1 ∧
    (∀ (i j : Nat) (wi wj : Worker), w.workers[i]? = some wi → w.workers[j]? = some wj →
      wi.pc.inCritical = true → wj.pc.inCritical = true → i = j) ∧
    (∀ i key w', stepWorker g ec i key w = some w' → w'.writers ≠ w.writers →
      w.writers = [] ∧ w'.writers = [i] ∧ w.found = false ∧ w.resultMutex = some i ∧
        w.foundResult = foundResult0) ∧
    (∀ i key w', stepWorker g ec i key w = some w' → w'.foundResult ≠ w.foundResult →
      w.writers = [i] ∧ w.found = false ∧ w.resultMutex = some i) ∧
    (w.found = true → ∀ i key w', stepWorker g ec i key w = some w' →
      w'.foundResult = w.foundResult ∧ w'.found = true) ∧
    (w.found = true → ∃ x wk, w.writers = [x] ∧ w.workers[x]? = some wk ∧
      w.foundResult =
        { privateKey := wk.privateKey, addressBytes := wk.addressBytes, found := true } ∧
      Derived g ec wk.privateKey wk.addressBytes) := by
  have hinv := worldInv_run g ec sched (world0 n) w (worldInv_init n) h
  have hres := resultInv_run g ec sched (world0 n) w (worldInv_init n) (resultInv_init g ec n) h
  obtain ⟨hall, hE, hlen, hlt, htot⟩ := hinv
  refine ⟨hlen, ?_, ?_, ?_, ?_, ?_⟩
  · intro i j wi wj hi hj ci cj
    have a := (hall i wi hi).1.1 ci
    have b := (hall j wj hj).1.1 cj
    rw [a] at b
    exact Option.some.inj b
  · intro i key w' hs hne
    obtain ⟨wk, wk', hi, -, -, -, -, hw, -, -⟩ := step_frame g ec i key w w' hs
    cases hw with
    | inl e => exact absurd e hne
    | inr e =>
      obtain ⟨hpc, hf, hw'⟩ := e
      have hnil := writers_nil_of_testFound w ⟨hall, hE, hlen, hlt, htot⟩ i wk hi hpc hf
      refine ⟨hnil, by rw [hw', hnil]; rfl, hf, (hall i wk hi).1.1 (by rw [hpc]; rfl),
        (hE hnil).2⟩
  · intro i key w' hs hne
    obtain ⟨wk, wk', hi, -, hfr, -, -, -, -, -⟩ := step_frame g ec i key w w' hs
    have hw : wk.pc.isWriting = true := by
      cases hb : wk.pc.isWriting with
      | true => rfl
      | false => exact absurd (hfr hb) hne
    obtain ⟨s1, s2, -, s4, -, -⟩ := hall i wk hi
    exact ⟨s2 hw, writerStage_writing w wk (s4 (s2 hw)).1 hw,
      s1.1 (inCritical_of_isWriting _ hw)⟩
  · intro hf i key w' hs
    obtain ⟨wk, wk', hi, -, hfr, hf1, hf2, -, -, -⟩ := step_frame g ec i key w w' hs
    obtain ⟨-, s2, -, s4, -, -⟩ := hall i wk hi
    have hw : wk.pc.isWriting = false := by
      cases hb : wk.pc.isWriting with
      | false => rfl
      | true =>
        have := writerStage_writing w wk (s4 (s2 hb)).1 hb
        rw [hf] at this
        exact Bool.noConfusion this
    refine ⟨hfr hw, ?_⟩
    by_cases hpc : wk.pc = .storeFound
    · exact (hf2 hpc).1
    · rw [hf1 hpc]; exact hf
  · intro hf
    match hw : w.writers, hlen with
    | [], _ =>
      have := (hE hw).1
      rw [hf] at this
      exact Bool.noConfusion this
    | [x], _ =>
      have hx : x < w.workers.length := hlt x (by rw [hw]; exact List.mem_singleton.2 rfl)
      have hgx := List.getElem?_eq_getElem hx
      obtain ⟨-, -, -, s4, -, -⟩ := hall x _ hgx
      have hfr := writerStage_found w _ (s4 hw).1 hf
      refine ⟨x, _, rfl, hgx, hfr, ?_⟩
      have hd := hres.2 (by rw [hfr])
      rw [hfr] at hd
      exact hd

theorem foundResult_written_once_witness :
    runSchedule wildMask doubledKey raceSchedule (world0 2) = some raceWorld ∧
    raceWorld.writers.length ≤ 1 ∧
    (raceWorld.found = true → ∃ x wk, raceWorld.writers = [x] ∧
      raceWorld.workers[x]? = some wk ∧
      raceWorld.foundResult =
        { privateKey := wk.privateKey, addressBytes := wk.addressBytes, found := true } ∧
      Derived wildMask doubledKey wk.privateKey wk.addressBytes) :=
  ⟨raceSchedule_run,
    (foundResult_written_once wildMask doubledKey 2 raceSchedule raceWorld raceSchedule_run).1,
    (foundResult_written_once wildMask doubledKey 2 raceSchedule raceWorld
      raceSchedule_run).2.2.2.2.2⟩

/-- C13: in every state that an interleaving reaches, each worker has
    `localAttempts < 50000`; while it has not returned, the sum of the amounts it has added to
    `totalAttempts`, all of them batches of 50000, plus `localAttempts` is the number of loop
    bodies it has entered; once it has returned, the sum of the amounts it has added, batches
    of 50000 then the final flush of `localAttempts`, is exactly that number. Every step that
    is a loop body counts one, also when the key derivation fails, and no other step counts.
    `totalAttempts` is the sum of the amounts added, on 64 bits, hence the number of loop
    bodies entered by all the workers once all of them have returned. -/
theorem attempts_exact (g : Mask) (ec : List Nat → List Nat) (n : Nat)
    (sched : List (Nat × List Nat)) (w : World)
    (h : runSchedule g ec sched (world0 n) = some w) :
    (∀ (j : Nat) (wk : Worker), w.workers[j]? = some wk →
      wk.localAttempts < 50000 ∧
      (wk.pc ≠ .done →
        wk.added.sum + wk.localAttempts = wk.iterations ∧ ∀ x ∈ wk.added, x = 50000) ∧
      (wk.pc = .done →
        wk.added.sum = wk.iterations ∧
        ∃ m, wk.added = List.replicate m 50000 ++ [wk.localAttempts])) ∧
    (∀ i key w', stepWorker g ec i key w = some w' →
      ∃ wk wk', w.workers[i]? = some wk ∧ w'.workers[i]? = some wk' ∧
        wk'.iterations = wk.iterations + (if wk.pc = .loopBody then 1 else 0) ∧
        (wk.pc = .loopBody → ec key = [] → wk'.pc = .loopTest)) ∧
    (∀ (i : Nat) (key : List Nat) (wk : Worker), w.workers[i]? = some wk → wk.pc = .loopBody → ec key = [] →
      ∃ w', stepWorker g ec i key w = some w') ∧
    w.totalAttempts = (w.workers.map fun wk => wk.added.sum).sum % 18446744073709551616 ∧
    ((∀ wk ∈ w.workers, wk.pc = .done) →
      w.totalAttempts = (w.workers.map fun wk => wk.iterations).sum % 18446744073709551616) := by
  have hinv := worldInv_run g ec sched (world0 n) w (worldInv_init n) h
  obtain ⟨hall, -, -, -, htot⟩ := hinv
  refine ⟨fun j wk hj => (hall j wk hj).2.2.2.2.2, ?_, ?_, htot, ?_⟩
  · intro i key w' hs
    obtain ⟨wk, wk', hi, hws, -, -, -, -, hit, hfail⟩ := step_frame g ec i key w w' hs
    have hilt : i < w.workers.length := by
      by_contra hc
      rw [List.getElem?_eq_none (by omega)] at hi
      exact Option.noConfusion hi
    refine ⟨wk, wk', hi, ?_, hit, hfail⟩
    rw [hws, List.getElem?_set, if_pos rfl, if_pos hilt]
  · intro i key wk hi hpc hk
    unfold stepWorker
    rw [hi]
    simp only [hpc, hk, if_true]
    exact ⟨_, rfl⟩
  · intro hd
    rw [htot]
    unfold totalAdded
    congr 2
    apply List.map_congr_left
    intro wk hwk
    obtain ⟨j, hj⟩ := List.mem_iff_getElem?.1 hwk
    exact ((hall j wk hj).2.2.2.2.2.2.2 (hd wk hwk)).1

theorem attempts_exact_witness :
    runSchedule wildMask doubledKey raceSchedule (world0 2) = some raceWorld ∧
    raceWorld.totalAttempts =
      (raceWorld.workers.map fun wk => wk.added.sum).sum % 18446744073709551616 :=
  ⟨raceSchedule_run,
    (attempts_exact wildMask doubledKey 2 raceSchedule raceWorld raceSchedule_run).2.2.2.1⟩

/-! ## The search with a mask that every address matches -/

theorem matchesMaskFast_wild (s : List Char)
    (hs : s = "????".toList ∨ s = "??????".toList) (a : List Nat) (hlen : a.length = 20)
    (hb : IsBytes a) : matchesMaskFast (maskOf '?' '?' s) a = some true := by
  have hcc : (maskOf '?' '?' s).checkCase = false := by
    cases hs with
    | inl e => rw [e]; decide
    | inr e => rw [e]; decide
  have hsl : (maskOf '?' '?' s).suffixLength ≤ 6 := by
    cases hs with
    | inl e => rw [e]; decide
    | inr e => rw [e]; decide
  have hw : ∀ i, i < (maskOf '?' '?' s).suffixLength →
      (maskOf '?' '?' s).suffixWildcard.getD i false = true := by
    cases hs with
    | inl e => rw [e]; decide
    | inr e => rw [e]; decide
  have h4 : (maskOf '?' '?' s).suffixWildcard.length = 6 := by
    cases hs with
    | inl e => rw [e]; decide
    | inr e => rw [e]; decide
  have h5 : (maskOf '?' '?' s).suffixCaseSensitive.length = 6 := by
    cases hs with
    | inl e => rw [e]; decide
    | inr e => rw [e]; decide
  have h6 : (maskOf '?' '?' s).suffixChar.length = 6 := by
    cases hs with
    | inl e => rw [e]; decide
    | inr e => rw [e]; decide
  have hall : ∀ f : Nat → Char, ((List.range (maskOf '?' '?' s).suffixLength).all fun i =>
      positionOk ((maskOf '?' '?' s).suffixWildcard.getD i false)
        ((maskOf '?' '?' s).suffixCaseSensitive.getD i false)
        ((maskOf '?' '?' s).suffixChar.getD i '0') (f i)) = true := by
    intro f
    rw [List.all_eq_true]
    intro i hi
    rw [hw i (List.mem_range.1 hi)]; rfl
  unfold matchesMaskFast
  simp only [hcc, Bool.false_eq_true, if_false, addressBytesToHex_eq a hb, List.drop_succ_cons,
    List.drop_zero]
  rw [matchesText_eq (maskOf '?' '?' s) (hexPairs a) (by rw [hexPairs_length, hlen]) rfl rfl rfl
    h4 h5 h6 hsl, hall]
  rfl

theorem getAddressBytes_some (pk : List Nat) (h : pk ≠ []) :
    ∃ a, getAddressBytes pk = some a ∧ a.length = 20 ∧ IsBytes a := by
  cases pk with
  | nil => exact absurd rfl h
  | cons x xs =>
    refine ⟨_, rfl, ?_, ?_⟩
    · rw [List.length_drop, keccak256_length]
    · intro y hy
      exact keccak256_bytes xs y (List.mem_of_mem_drop hy)

theorem alwaysMatch_wild (p s : List Char) (g : Mask) (hp : p = "??".toList)
    (hs : s = "????".toList ∨ s = "??????".toList) (hg : compileMask p s = some g)
    (ec : List Nat → List Nat) (hec : ∀ key, ec key ≠ []) : AlwaysMatch g ec := by
  obtain ⟨-, p0, p1, hp', hm⟩ := compileMask_some p s g hg
  rw [hp] at hp'
  have e0 : p0 = '?' := by
    have := congrArg (fun l => l.getD 0 'x') hp'
    exact this.symm
  have e1 : p1 = '?' := by
    have := congrArg (fun l => l.getD 1 'x') hp'
    exact this.symm
  rw [e0, e1] at hm
  intro key
  obtain ⟨a, ha, hl, hb⟩ := getAddressBytes_some (ec key) (hec key)
  exact ⟨hec key, a, ha, by rw [hm]; exact matchesMaskFast_wild s hs a hl hb⟩

/-- When every attempt matches, a step lowers the rank of the worker that takes it, keeps it
    at one attempt at most, and hands the mutex to that worker only. -/
theorem step_rank (g : Mask) (ec : List Nat → List Nat) (hm : AlwaysMatch g ec) (i : Nat)
    (key : List Nat) (w w' : World) (h : stepWorker g ec i key w = some w') :
    ∃ wk wk', w.workers[i]? = some wk ∧ w'.workers = w.workers.set i wk' ∧
      wk'.pc.rank < wk.pc.rank ∧ (OneAttempt wk → OneAttempt wk') ∧
      (∀ j, w'.resultMutex = some j → w.resultMutex = some j ∨ j = i) := by
  unfold stepWorker at h
  cases hi : w.workers[i]? with
  | none => rw [hi] at h; exact Option.noConfusion h
  | some wk =>
    rw [hi] at h
    cases hpc : wk.pc <;> simp only [hpc] at h
    · injection h with h; subst h
      refine ⟨wk, _, rfl, rfl, ?_, ?_, fun j hj => Or.inl hj⟩
      · dsimp only
        rw [hpc]
        split <;> simp [WorkerPc.rank]
      · intro ho
        refine ⟨ho.1, fun _ => ho.2 (Or.inl hpc)⟩
    · split at h
      · rename_i he
        exact absurd he (hm key).1
      · split at h
        · exact Option.noConfusion h
        · rename_i addressBytes ha
          split at h
          · exact Option.noConfusion h
          · rename_i m hmm
            injection h with h; subst h
            obtain ⟨-, a, ha', hma⟩ := hm key
            rw [ha] at ha'
            rw [← Option.some.inj ha', hmm] at hma
            have hmt : m = true := Option.some.inj hma
            subst hmt
            refine ⟨wk, _, rfl, rfl, by rw [hpc]; simp [WorkerPc.rank], ?_, fun j hj => Or.inl hj⟩
            intro ho
            have h0 := ho.2 (Or.inr hpc)
            refine ⟨?_, fun hx => ?_⟩
            · show wk.iterations + 1 ≤ 1
              omega
            · cases hx with
              | inl e => exact WorkerPc.noConfusion e
              | inr e => exact WorkerPc.noConfusion e
    · split at h
      · injection h with h; subst h
        refine ⟨wk, _, rfl, rfl, by rw [hpc]; simp [WorkerPc.rank], ?_, fun j hj => Or.inr (Option.some.inj hj).symm⟩
        intro ho
        refine ⟨ho.1, fun hx => ?_⟩
        cases hx with
        | inl e => exact WorkerPc.noConfusion e
        | inr e => exact WorkerPc.noConfusion e
      · exact Option.noConfusion h
    · split at h
      · injection h with h; subst h
        refine ⟨wk, _, rfl, rfl, by rw [hpc]; simp [WorkerPc.rank], ?_, fun j hj => Or.inl hj⟩
        intro ho
        refine ⟨ho.1, fun hx => ?_⟩
        cases hx with
        | inl e => exact WorkerPc.noConfusion e
        | inr e => exact WorkerPc.noConfusion e
      · injection h with h; subst h
        refine ⟨wk, _, rfl, rfl, by rw [hpc]; simp [WorkerPc.rank], ?_, fun j hj => Or.inl hj⟩
        intro ho
        refine ⟨ho.1, fun hx => ?_⟩
        cases hx with
        | inl e => exact WorkerPc.noConfusion e
        | inr e => exact WorkerPc.noConfusion e
    · injection h with h; subst h
      refine ⟨wk, _, rfl, rfl, by rw [hpc]; simp [WorkerPc.rank], ?_, fun j hj => Or.inl hj⟩
      intro ho
      refine ⟨ho.1, fun hx => ?_⟩
      cases hx with
      | inl e => exact WorkerPc.noConfusion e
      | inr e => exact WorkerPc.noConfusion e
    · injection h with h; subst h
      refine ⟨wk, _, rfl, rfl, by rw [hpc]; simp [WorkerPc.rank], ?_, fun j hj => Or.inl hj⟩
      intro ho
      refine ⟨ho.1, fun hx => ?_⟩
      cases hx with
      | inl e => exact WorkerPc.noConfusion e
      | inr e => exact WorkerPc.noConfusion e
    · injection h with h; subst h
      refine ⟨wk, _, rfl, rfl, by rw [hpc]; simp [WorkerPc.rank], ?_, fun j hj => Or.inl hj⟩
      intro ho
      refine ⟨ho.1, fun hx => ?_⟩
      cases hx with
      | inl e => exact WorkerPc.noConfusion e
      | inr e => exact WorkerPc.noConfusion e
    · injection h with h; subst h
      refine ⟨wk, _, rfl, rfl, by rw [hpc]; simp [WorkerPc.rank], ?_, fun j hj => Or.inl hj⟩
      intro ho
      refine ⟨ho.1, fun hx => ?_⟩
      cases hx with
      | inl e => exact WorkerPc.noConfusion e
      | inr e => exact WorkerPc.noConfusion e
    · injection h with h; subst h
      refine ⟨wk, _, rfl, rfl, by rw [hpc]; simp [WorkerPc.rank], ?_, fun j hj => Option.noConfusion hj⟩
      intro ho
      refine ⟨ho.1, fun hx => ?_⟩
      cases hx with
      | inl e => exact WorkerPc.noConfusion e
      | inr e => exact WorkerPc.noConfusion e
    · injection h with h; subst h
      refine ⟨wk, _, rfl, rfl, by rw [hpc]; simp [WorkerPc.rank], ?_, fun j hj => Or.inl hj⟩
      intro ho
      refine ⟨ho.1, fun hx => ?_⟩
      cases hx with
      | inl e => exact WorkerPc.noConfusion e
      | inr e => exact WorkerPc.noConfusion e
    · exact Option.noConfusion h

theorem totalRank_set (ws : List Worker) (i : Nat) (wk wk' : Worker) (h : ws[i]? = some wk) :
    totalRank (ws.set i wk') + wk.pc.rank = totalRank ws + wk'.pc.rank := by
  induction ws generalizing i with
  | nil => simp at h
  | cons x xs ih =>
    cases i with
    | zero =>
      simp only [List.getElem?_cons_zero, Option.some.injEq] at h
      subst h
      simp only [totalRank, List.set_cons_zero, List.map_cons, List.sum_cons]
      omega
    | succ k =>
      simp only [List.getElem?_cons_succ] at h
      have := ih k h
      simp only [totalRank, List.set_cons_succ, List.map_cons, List.sum_cons] at this ⊢
      omega

theorem totalRank_init (n : Nat) : totalRank (world0 n).workers = 10 * n := by
  induction n with
  | zero => rfl
  | succ k ih =>
    have : totalRank (world0 (k + 1)).workers = 10 + totalRank (world0 k).workers := by
      simp only [totalRank, world0, List.replicate_succ, List.map_cons, List.sum_cons]
      rfl
    rw [this, ih]; omega

theorem attemptInv_init (n : Nat) : AttemptInv (world0 n) := by
  refine ⟨?_, fun j hj => Option.noConfusion hj⟩
  intro j wk h
  have hwk : wk = worker0 := by
    simp only [world0, List.getElem?_replicate] at h
    split at h
    · exact (Option.some.inj h).symm
    · exact Option.noConfusion h
  rw [hwk]
  exact ⟨by decide, fun _ => rfl⟩

/-- When every attempt matches, a run of `k` steps lowers the sum of the ranks by `k` at
    least, and keeps every worker at one attempt at most. -/
theorem attemptInv_run (g : Mask) (ec : List Nat → List Nat) (hm : AlwaysMatch g ec)
    (sched : List (Nat × List Nat)) (w0 w : World) (h0 : AttemptInv w0)
    (h : runSchedule g ec sched w0 = some w) :
    AttemptInv w ∧ sched.length + totalRank w.workers ≤ totalRank w0.workers := by
  induction sched generalizing w0 with
  | nil =>
    simp only [runSchedule] at h
    rw [← Option.some.inj h]
    exact ⟨h0, by simp⟩
  | cons s rest ih =>
    obtain ⟨i, key⟩ := s
    simp only [runSchedule] at h
    cases hs : stepWorker g ec i key w0 with
    | none => rw [hs] at h; exact Option.noConfusion h
    | some w1 =>
      rw [hs] at h
      obtain ⟨wk, wk', hi, hws, hr, ho, hmx⟩ := step_rank g ec hm i key w0 w1 hs
      have hilt : i < w0.workers.length := by
        by_contra hc
        rw [List.getElem?_eq_none (by omega)] at hi
        exact Option.noConfusion hi
      have h1 : AttemptInv w1 := by
        refine ⟨?_, ?_⟩
        · intro j wkj hj
          rw [hws, List.getElem?_set] at hj
          by_cases hij : i = j
          · rw [if_pos hij, if_pos hilt] at hj
            rw [← Option.some.inj hj]
            exact ho (h0.1 i wk hi)
          · rw [if_neg hij] at hj
            exact h0.1 j wkj hj
        · intro j hj
          rw [hws, List.length_set]
          cases hmx j hj with
          | inl e => exact h0.2 j e
          | inr e => rw [e]; exact hilt
      obtain ⟨a, b⟩ := ih w1 h1 h
      refine ⟨a, ?_⟩
      have hset := totalRank_set w0.workers i wk wk' hi
      rw [← hws] at hset
      simp only [List.length_cons]
      omega

/-- A worker that has not returned can move, unless it waits for the mutex. -/
theorem step_enabled (g : Mask) (ec : List Nat → List Nat) (hm : AlwaysMatch g ec) (w : World)
    (i : Nat) (wk : Worker) (key : List Nat) (hi : w.workers[i]? = some wk)
    (hpc : wk.pc ≠ .done) (hl : wk.pc = .lockResult → w.resultMutex = none) :
    ∃ w', stepWorker g ec i key w = some w' := by
  unfold stepWorker
  rw [hi]
  cases hp : wk.pc <;> simp only [hp]
  · exact ⟨_, rfl⟩
  · obtain ⟨hne, a, ha, hma⟩ := hm key
    rw [if_neg hne]
    simp only [ha, hma]
    exact ⟨_, rfl⟩
  · rw [if_pos (hl hp)]
    exact ⟨_, rfl⟩
  · split <;> exact ⟨_, rfl⟩
  · exact ⟨_, rfl⟩
  · exact ⟨_, rfl⟩
  · exact ⟨_, rfl⟩
  · exact ⟨_, rfl⟩
  · exact ⟨_, rfl⟩
  · exact ⟨_, rfl⟩
  · exact absurd hp hpc

theorem sum_map_le_length (ws : List Worker) (f : Worker → Nat) (h : ∀ wk ∈ ws, f wk ≤ 1) :
    (ws.map f).sum ≤ ws.length := by
  induction ws with
  | nil => simp
  | cons x xs ih =>
    have h1 := h x (List.mem_cons_self x xs)
    have h2 := ih fun wk hwk => h wk (List.mem_cons_of_mem x hwk)
    simp only [List.map_cons, List.sum_cons, List.length_cons]
    omega

theorem le_sum_map_of_mem (ws : List Worker) (f : Worker → Nat) (wk : Worker) (h : wk ∈ ws) :
    f wk ≤ (ws.map f).sum := by
  induction ws with
  | nil => simp at h
  | cons x xs ih =>
    simp only [List.map_cons, List.sum_cons]
    cases List.mem_cons.1 h with
    | inl e => rw [e]; omega
    | inr e => have := ih e; omega

theorem run_length (g : Mask) (ec : List Nat → List Nat) (sched : List (Nat × List Nat))
    (w0 w : World) (h : runSchedule g ec sched w0 = some w) :
    w.workers.length = w0.workers.length := by
  induction sched generalizing w0 with
  | nil =>
    simp only [runSchedule] at h
    rw [← Option.some.inj h]
  | cons s rest ih =>
    obtain ⟨i, key⟩ := s
    simp only [runSchedule] at h
    cases hs : stepWorker g ec i key w0 with
    | none => rw [hs] at h; exact Option.noConfusion h
    | some w1 =>
      rw [hs] at h
      obtain ⟨wk, wk', -, hws, -⟩ := step_frame g ec i key w0 w1 hs
      rw [ih w1 h, hws, List.length_set]

/-- Once `found` is set, the record is the key and the address of the one worker that wrote
    it, and that worker has made an attempt. -/
theorem record_of_found (w : World) (hinv : WorldInv w) (hf : w.found = true) :
    ∃ x wk, w.writers = [x] ∧ w.workers[x]? = some wk ∧
      w.foundResult =
        { privateKey := wk.privateKey, addressBytes := wk.addressBytes, found := true } ∧
      1 ≤ wk.iterations := by
  obtain ⟨hall, hE, hlen, hlt, -⟩ := hinv
  match hw : w.writers, hlen with
  | [], _ =>
    have := (hE hw).1
    rw [hf] at this
    exact Bool.noConfusion this
  | [x], _ =>
    have hx : x < w.workers.length := hlt x (by rw [hw]; exact List.mem_singleton.2 rfl)
    have hgx := List.getElem?_eq_getElem hx
    obtain ⟨-, -, -, s4, -, -⟩ := hall x _ hgx
    exact ⟨x, _, rfl, hgx, writerStage_found w _ (s4 hw).1 hf, (s4 hw).2⟩

/-! ## The search with an all-wildcard mask -/

set_option maxRecDepth 1000000 in
/-- C14 as it is written fails: with the mask compiled from `??` and `????` and two workers,
    the schedule in which the worker 0 runs to its end before the worker 1 first tests `found`
    ends with both workers returned and `totalAttempts = 1`, less than the number of
    workers. -/
theorem totalAttempts_below_workers :
    compileMask "??".toList "????".toList = some wildMask ∧
    runSchedule wildMask doubledKey lateSchedule (world0 2) = some lateWorld ∧
    (∀ wk ∈ lateWorld.workers, wk.pc = .done) ∧
    lateWorld.totalAttempts < 2 :=
  ⟨by decide, by decide!, by decide, by decide⟩

/-- C14, amended: with a mask compiled from an all-wildcard prefix and suffix, a key
    derivation that does not fail and `N ≥ 2` workers, every interleaving has at most `10 * N`
    steps, and as long as a worker has not returned some worker can move, whatever key it
    draws: the search terminates. No worker enters its loop body more than once. When all
    the workers have returned there is exactly one record, whole, written by one worker, and
    `totalAttempts` is the number of loop bodies entered, at least 1 and at most `N`. -/
theorem allWildcard_search (p s : List Char) (g : Mask) (hp : p = "??".toList)
    (hs : s = "????".toList ∨ s = "??????".toList) (hg : compileMask p s = some g)
    (ec : List Nat → List Nat) (hec : ∀ key, ec key ≠ []) (n : Nat) (hn : 2 ≤ n)
    (hn' : n < 4294967296) (sched : List (Nat × List Nat)) (w : World)
    (h : runSchedule g ec sched (world0 n) = some w) :
    sched.length ≤ 10 * n ∧
    ((∃ wk ∈ w.workers, wk.pc ≠ .done) →
      ∃ i, ∀ key, ∃ w', stepWorker g ec i key w = some w') ∧
    (∀ wk ∈ w.workers, wk.iterations ≤ 1) ∧
    ((∀ wk ∈ w.workers, wk.pc = .done) →
      (∃ x wk, w.writers = [x] ∧ w.workers[x]? = some wk ∧ w.found = true ∧
        w.foundResult =
          { privateKey := wk.privateKey, addressBytes := wk.addressBytes, found := true }) ∧
      w.totalAttempts = (w.workers.map fun wk => wk.iterations).sum ∧
      1 ≤ w.totalAttempts ∧ w.totalAttempts ≤ n) := by
  have hm := alwaysMatch_wild p s g hp hs hg ec hec
  have hinv := worldInv_run g ec sched (world0 n) w (worldInv_init n) h
  obtain ⟨ha, hrank⟩ := attemptInv_run g ec hm sched (world0 n) w (attemptInv_init n) h
  rw [totalRank_init] at hrank
  have hlen : w.workers.length = n := by
    rw [run_length g ec sched (world0 n) w h]
    exact List.length_replicate n worker0
  have hit : ∀ wk ∈ w.workers, wk.iterations ≤ 1 := by
    intro wk hwk
    obtain ⟨j, hj⟩ := List.mem_iff_getElem?.1 hwk
    exact (ha.1 j wk hj).1
  refine ⟨by omega, ?_, hit, ?_⟩
  · rintro ⟨wk, hwk, hnd⟩
    cases hmx : w.resultMutex with
    | none =>
      obtain ⟨j, hj⟩ := List.mem_iff_getElem?.1 hwk
      exact ⟨j, fun key => step_enabled g ec hm w j wk key hj hnd fun _ => hmx⟩
    | some j =>
      have hj := List.getElem?_eq_getElem (ha.2 j hmx)
      have hc := (hinv.1 j _ hj).1.2 hmx
      refine ⟨j, fun key => step_enabled g ec hm w j _ key hj ?_ ?_⟩
      · intro e
        rw [e] at hc
        exact Bool.noConfusion hc
      · intro e
        rw [e] at hc
        exact Bool.noConfusion hc
  · intro hd
    have h0 : 0 < w.workers.length := by omega
    have hg0 := List.getElem?_eq_getElem h0
    have hf : w.found = true :=
      (hinv.1 0 _ hg0).2.2.1 (by rw [hd _ (List.getElem_mem h0)]; rfl)
    obtain ⟨x, wk, hw, hx, hfr, h1⟩ := record_of_found w hinv hf
    have hsum : w.totalAttempts = (w.workers.map fun wk => wk.iterations).sum := by
      have e : totalAdded w.workers = (w.workers.map fun wk => wk.iterations).sum := by
        unfold totalAdded
        congr 1
        apply List.map_congr_left
        intro wk hwk
        obtain ⟨j, hj⟩ := List.mem_iff_getElem?.1 hwk
        exact ((hinv.1 j wk hj).2.2.2.2.2.2.2 (hd wk hwk)).1
      have hb := sum_map_le_length w.workers (fun wk => wk.iterations) hit
      rw [hinv.2.2.2.2, e]
      exact Nat.mod_eq_of_lt (by omega)
    refine ⟨⟨x, wk, hw, hx, hf, hfr⟩, hsum, ?_, ?_⟩
    · rw [hsum]
      exact Nat.le_trans h1
        (le_sum_map_of_mem w.workers (fun wk => wk.iterations) wk (List.getElem?_mem hx))
    · rw [hsum, ← hlen]
      exact sum_map_le_length w.workers (fun wk => wk.iterations) hit

theorem allWildcard_search_witness :
    compileMask "??".toList "????".toList = some wildMask ∧
    (∀ key, doubledKey key ≠ []) ∧
    runSchedule wildMask doubledKey raceSchedule (world0 2) = some raceWorld ∧
    raceSchedule.length ≤ 10 * 2 ∧
    ((∀ wk ∈ raceWorld.workers, wk.pc = .done) →
      (∃ x wk, raceWorld.writers = [x] ∧ raceWorld.workers[x]? = some wk ∧
        raceWorld.found = true ∧
        raceWorld.foundResult =
          { privateKey := wk.privateKey, addressBytes := wk.addressBytes, found := true }) ∧
      raceWorld.totalAttempts = (raceWorld.workers.map fun wk => wk.iterations).sum ∧
      1 ≤ raceWorld.totalAttempts ∧ raceWorld.totalAttempts ≤ 2) :=
  ⟨by decide, fun _ => List.cons_ne_nil _ _, raceSchedule_run,
    (allWildcard_search "??".toList "????".toList wildMask rfl (Or.inl rfl) (by decide)
      doubledKey (fun _ => List.cons_ne_nil _ _) 2 (by decide) (by decide) raceSchedule
      raceWorld raceSchedule_run).1,
    (allWildcard_search "??".toList "????".toList wildMask rfl (Or.inl rfl) (by decide)
      doubledKey (fun _ => List.cons_ne_nil _ _) 2 (by decide) (by decide) raceSchedule
      raceWorld raceSchedule_run).2.2.2⟩

/-! ## The projection chosen at compile time -/

theorem getD_false_of_all (l : List Bool) (h : ∀ x ∈ l, x = false) (i : Nat) :
    l.getD i false = false := by
  rw [List.getD_eq_getElem?_getD]
  cases hx : l[i]? with
  | none => rfl
  | some x => exact h x (List.getElem?_mem hx)

theorem caseFlagOf_lower (c : Char) (h : isUpperHex c = false) : caseFlagOf c = false := by
  unfold caseFlagOf
  split
  · rfl
  · exact h

/-- Lowercasing a character of the checksum text gives the character of the lowercase
    text. -/
theorem tolower_checksumChar (k : Nat) (hk : k < 16) (d : List Nat) (i : Nat) :
    tolower (checksumChar (hexDigit k) d i) = tolower (hexDigit k) := by
  obtain ⟨-, -, h3, h4, -⟩ := hexDigit_case k hk
  unfold checksumChar
  split
  · rw [h3, h4]
  · rfl

/-- On a position that is not case-sensitive, the comparison sees only the lowercased
    character of the text. -/
theorem positionOk_tolower (w : Bool) (m c c' : Char) (h : tolower c = tolower c') :
    positionOk w false m c = positionOk w false m c' := by
  unfold positionOk
  simp only [Bool.false_eq_true, if_false, h]

theorem all_congr_mem {α : Type} (l : List α) (f f' : α → Bool) (h : ∀ x ∈ l, f x = f' x) :
    l.all f = l.all f' := by
  induction l with
  | nil => rfl
  | cons x xs ih =>
    rw [List.all_cons, List.all_cons, h x (List.mem_cons_self x xs),
      ih fun y hy => h y (List.mem_cons_of_mem x hy)]

/-- Two texts of 40 characters that agree after lowercasing give the same answer for a mask
    none of whose positions is case-sensitive. -/
theorem matchesText_lowered (g : Mask) (T L : List Char) (hT : T.length = 40)
    (hL : L.length = 40) (h1 : g.prefixWildcard.length = 2)
    (h2 : g.prefixCaseSensitive.length = 2) (h3 : g.prefixChar.length = 2)
    (h4 : g.suffixWildcard.length = 6) (h5 : g.suffixCaseSensitive.length = 6)
    (h6 : g.suffixChar.length = 6) (hs : g.suffixLength ≤ 6)
    (hp : ∀ i, g.prefixCaseSensitive.getD i false = false)
    (hq : ∀ i, g.suffixCaseSensitive.getD i false = false)
    (hTL : ∀ i, i < 40 → tolower (T.getD i '0') = tolower (L.getD i '0')) :
    matchesText g T = matchesText g L := by
  rw [matchesText_eq g T hT h1 h2 h3 h4 h5 h6 hs, matchesText_eq g L hL h1 h2 h3 h4 h5 h6 hs]
  rw [hp 0, hp 1]
  rw [positionOk_tolower _ _ _ _ (hTL 0 (by omega)), positionOk_tolower _ _ _ _ (hTL 1 (by omega))]
  congr 3
  apply all_congr_mem
  intro i hi
  have hi' := List.mem_range.1 hi
  rw [hq i]
  exact positionOk_tolower _ _ _ _ (hTL _ (by omega))

/-- C21: for a mask compiled from patterns without any uppercase letter `A`..`F`, `checkCase`
    is false and no position is case-sensitive; and for every 20-byte address, with `L` the
    lowercase text and `T` the checksum text after their markers, `matchesMaskFast` compares
    `L`, the same mask with `checkCase` forced to true compares `T`, and the two comparisons
    give the same answer. -/
theorem projection_sound (p s : List Char) (g : Mask) (hg : compileMask p s = some g)
    (hup : ∀ c ∈ p ++ s, isUpperHex c = false) (a : List Nat) (hlen : a.length = 20)
    (hb : IsBytes a) :
    g.checkCase = false ∧
    (∀ i, g.prefixCaseSensitive.getD i false = false) ∧
    (∀ i, g.suffixCaseSensitive.getD i false = false) ∧
    ∃ L T : List Char,
      addressBytesToHex a = '0' :: 'x' :: L ∧
      getAddressWithChecksum a = some ('0' :: 'x' :: T) ∧
      matchesMaskFast g a = matchesText g L ∧
      matchesMaskFast { g with checkCase := true } a = matchesText g T ∧
      matchesText g T = matchesText g L ∧
      matchesMaskFast { g with checkCase := true } a = matchesMaskFast g a := by
  obtain ⟨hw, p0, p1, hp, rfl⟩ := compileMask_some p s g hg
  obtain ⟨h1, h2, h3, h4, h5, h6, h7⟩ := maskOf_sizes p0 p1 s hw.2.1
  have u0 : isUpperHex p0 = false := hup p0 (by rw [hp]; simp)
  have u1 : isUpperHex p1 = false := hup p1 (by rw [hp]; simp)
  have us : ∀ c ∈ s, isUpperHex c = false := fun c hc => hup c (List.mem_append_right p hc)
  have hcc : (maskOf p0 p1 s).checkCase = false := by
    have e : scanUpper s = false := by
      rw [scanUpper_eq_any, List.any_eq_false]
      intro c hc
      rw [us c hc]; exact Bool.false_ne_true
    simp only [maskOf, scanUpper, u0, u1, e, Bool.false_eq_true, if_false, Bool.or_self]
  have hpc : ∀ i, (maskOf p0 p1 s).prefixCaseSensitive.getD i false = false := by
    apply getD_false_of_all
    intro x hx
    simp only [maskOf, List.mem_cons, List.mem_singleton, List.not_mem_nil, or_false] at hx
    rcases hx with e | e
    · rw [e]; exact caseFlagOf_lower p0 u0
    · rw [e]; exact caseFlagOf_lower p1 u1
  have hsc : ∀ i, (maskOf p0 p1 s).suffixCaseSensitive.getD i false = false := by
    apply getD_false_of_all
    intro x hx
    simp only [maskOf, List.mem_append, List.mem_map] at hx
    rcases hx with ⟨c, hc, e⟩ | e
    · rw [← e]; exact caseFlagOf_lower c (us c hc)
    · exact List.eq_of_mem_replicate e
  have hLlen : (hexPairs a).length = 40 := by rw [hexPairs_length, hlen]
  have hL : addressBytesToHex a = '0' :: 'x' :: hexPairs a := addressBytesToHex_eq a hb
  have hT := getAddressWithChecksum_eq a hlen hb
  have m1 : matchesMaskFast (maskOf p0 p1 s) a = matchesText (maskOf p0 p1 s) (hexPairs a) := by
    unfold matchesMaskFast
    simp only [hcc, Bool.false_eq_true, if_false, hL, List.drop_succ_cons, List.drop_zero]
  have m2 : matchesMaskFast { maskOf p0 p1 s with checkCase := true } a =
      matchesText (maskOf p0 p1 s) ((List.range 40).map fun i =>
        checksumChar ((hexPairs a).getD i '0') (keccak256 ((hexPairs a).map Char.toNat)) i) := by
    unfold matchesMaskFast
    simp only [if_true, hT, List.drop_succ_cons, List.drop_zero]
    rfl
  have m3 : matchesText (maskOf p0 p1 s) ((List.range 40).map fun i =>
        checksumChar ((hexPairs a).getD i '0') (keccak256 ((hexPairs a).map Char.toNat)) i) =
      matchesText (maskOf p0 p1 s) (hexPairs a) := by
    apply matchesText_lowered _ _ _ (by simp) hLlen h1 h2 h3 h4 h5 h6 h7 hpc hsc
    intro i hi
    obtain ⟨k, hk, e⟩ := hexPairs_digit a i (by omega)
    have e' : (hexPairs a).getD i '0' = hexDigit k := by
      rw [List.getD_eq_getElem?_getD, e]; rfl
    have e2 : ((List.range 40).map fun i =>
        checksumChar ((hexPairs a).getD i '0') (keccak256 ((hexPairs a).map Char.toNat))
          i).getD i '0' =
        checksumChar ((hexPairs a).getD i '0') (keccak256 ((hexPairs a).map Char.toNat)) i := by
      rw [List.getD_eq_getElem?_getD, List.getElem?_map, List.getElem?_range hi]; rfl
    rw [e2, e']
    exact tolower_checksumChar k hk _ i
  exact ⟨hcc, hpc, hsc, hexPairs a, _, hL, hT, m1, m2, m3, by rw [m2, m3, m1]⟩

theorem projection_sound_witness :
    compileMask "a?".toList "??cd".toList = some (maskOf 'a' '?' "??cd".toList) ∧
    (∀ c ∈ "a?".toList ++ "??cd".toList, isUpperHex c = false) ∧
    testAddress.length = 20 ∧ IsBytes testAddress ∧
    matchesMaskFast { maskOf 'a' '?' "??cd".toList with checkCase := true } testAddress =
      matchesMaskFast (maskOf 'a' '?' "??cd".toList) testAddress :=
  ⟨by decide, by decide, by decide, testAddress_bytes,
    (projection_sound "a?".toList "??cd".toList (maskOf 'a' '?' "??cd".toList) (by decide)
      (by decide) testAddress (by decide) testAddress_bytes).2.2.2.elim
        fun _ h => h.elim fun _ h => h.2.2.2.2.2⟩

/-! ## The record is a genuine match -/

/-- What one step does to the key and the address of the worker that takes it, and to the
    record. -/
theorem step_locals (g : Mask) (ec : List Nat → List Nat) (i : Nat) (key : List Nat)
    (w w' : World) (h : stepWorker g ec i key w = some w') :
    ∃ wk wk', w.workers[i]? = some wk ∧ w'.workers = w.workers.set i wk' ∧
      (wk.pc ≠ .loopBody →
        wk'.privateKey = wk.privateKey ∧ wk'.addressBytes = wk.addressBytes) ∧
      (wk.pc = .loopBody →
        wk'.privateKey = key ∧ w'.foundResult = w.foundResult ∧
        (ec key = [] → wk'.pc = .loopTest ∧ wk'.addressBytes = wk.addressBytes) ∧
        (wk'.pc = .lockResult → Derived g ec key wk'.addressBytes)) ∧
      (w'.foundResult = w.foundResult ∨
        (wk.pc = .writeKey ∧
          w'.foundResult = { w.foundResult with privateKey := wk.privateKey }) ∨
        (wk.pc = .writeAddress ∧
          w'.foundResult = { w.foundResult with addressBytes := wk.addressBytes }) ∨
        (wk.pc = .writeFound ∧ w'.foundResult = { w.foundResult with found := true })) := by
  unfold stepWorker at h
  cases hi : w.workers[i]? with
  | none => rw [hi] at h; exact Option.noConfusion h
  | some wk =>
    rw [hi] at h
    cases hpc : wk.pc <;> simp only [hpc] at h
    · injection h with h; subst h
      exact ⟨wk, _, rfl, rfl, by simp [hpc]⟩
    · split at h
      · rename_i he
        injection h with h; subst h
        exact ⟨wk, _, rfl, rfl, by simp [hpc, he]⟩
      · rename_i hne
        split at h
        · exact Option.noConfusion h
        · rename_i addressBytes ha
          split at h
          · exact Option.noConfusion h
          · rename_i m hmm
            injection h with h; subst h
            cases m
            · exact ⟨wk, _, rfl, rfl, by simp [hpc, hne]⟩
            · exact ⟨wk, _, rfl, rfl, by simp [hpc, hne, Derived, ha, hmm]⟩
    · split at h
      · injection h with h; subst h
        exact ⟨wk, _, rfl, rfl, by simp [hpc]⟩
      · exact Option.noConfusion h
    · split at h
      · injection h with h; subst h
        exact ⟨wk, _, rfl, rfl, by simp [hpc]⟩
      · injection h with h; subst h
        exact ⟨wk, _, rfl, rfl, by simp [hpc]⟩
    · injection h with h; subst h
      exact ⟨wk, _, rfl, rfl, by simp [hpc]⟩
    · injection h with h; subst h
      exact ⟨wk, _, rfl, rfl, by simp [hpc]⟩
    · injection h with h; subst h
      exact ⟨wk, _, rfl, rfl, by simp [hpc]⟩
    · injection h with h; subst h
      exact ⟨wk, _, rfl, rfl, by simp [hpc]⟩
    · injection h with h; subst h
      exact ⟨wk, _, rfl, rfl, by simp [hpc]⟩
    · injection h with h; subst h
      exact ⟨wk, _, rfl, rfl, by simp [hpc]⟩
    · exact Option.noConfusion h

/-- While it is written, the record holds nothing but the key and the address of a worker
    that has matched. -/
theorem record_partial (g : Mask) (ec : List Nat → List Nat) (w : World) (hinv : WorldInv w)
    (hres : ResultInv g ec w) :
    (w.foundResult = foundResult0 ∨ ec w.foundResult.privateKey ≠ []) ∧
    (w.foundResult.addressBytes = [] ∨
      Derived g ec w.foundResult.privateKey w.foundResult.addressBytes) := by
  obtain ⟨hall, hE, hlen, hlt, -⟩ := hinv
  match hw : w.writers, hlen with
  | [], _ =>
    have e := (hE hw).2
    exact ⟨Or.inl e, Or.inl (by rw [e]; rfl)⟩
  | [x], _ =>
    have hx : x < w.workers.length := hlt x (by rw [hw]; exact List.mem_singleton.2 rfl)
    have hgx := List.getElem?_eq_getElem hx
    obtain ⟨-, -, -, s4, -, -⟩ := hall x _ hgx
    have hst := (s4 hw).1
    have hd := hres.1 x _ hgx
    have hf := hres.2
    generalize w.workers[x] = wk at hst hd
    unfold WriterStage at hst
    cases hpc : wk.pc <;> simp only [hpc, WorkerPc.hasMatched, true_implies] at hst hd
    · exact ⟨Or.inl hst.2, Or.inl (by rw [hst.2]; rfl)⟩
    · rw [hst.2]
      exact ⟨Or.inr hd.1, Or.inl rfl⟩
    · rw [hst.2]
      exact ⟨Or.inr hd.1, Or.inr hd⟩
    · rw [hst.2]
      exact ⟨Or.inr hd.1, Or.inr hd⟩
    · rw [hst.2]
      exact ⟨Or.inr hd.1, Or.inr hd⟩
    · have := hf (by rw [hst.2])
      exact ⟨Or.inr this.1, Or.inr this⟩
    · have := hf (by rw [hst.2])
      exact ⟨Or.inr this.1, Or.inr this⟩

/-- C22: in every state that an interleaving reaches, a whole record holds a private key `k`
    whose key derivation gave a non-empty public key and the address `getAddressBytes` of that
    public key, which `matchesMaskFast` accepts; a record being written holds no key whose
    derivation failed and no address but the one derived from its key. Every step that stores
    into the record is taken by a worker whose key and address are such a pair, set together
    by its last loop body and unchanged since. A loop body whose key derivation gives the
    empty public key goes back to the loop test without calling `getAddressBytes` (which has
    no defined result on the empty key), and changes neither the address of the worker nor
    the record. -/
theorem recorded_result_genuine (g : Mask) (ec : List Nat → List Nat) (n : Nat)
    (sched : List (Nat × List Nat)) (w : World)
    (h : runSchedule g ec sched (world0 n) = some w) :
    (w.foundResult.found = true →
      ec w.foundResult.privateKey ≠ [] ∧
      getAddressBytes (ec w.foundResult.privateKey) = some w.foundResult.addressBytes ∧
      matchesMaskFast g w.foundResult.addressBytes = some true) ∧
    (w.foundResult = foundResult0 ∨ ec w.foundResult.privateKey ≠ []) ∧
    (w.foundResult.addressBytes = [] ∨
      Derived g ec w.foundResult.privateKey w.foundResult.addressBytes) ∧
    (∀ i key w', stepWorker g ec i key w = some w' → w'.foundResult ≠ w.foundResult →
      ∃ wk, w.workers[i]? = some wk ∧ Derived g ec wk.privateKey wk.addressBytes ∧
        (w'.foundResult = { w.foundResult with privateKey := wk.privateKey } ∨
          w'.foundResult = { w.foundResult with addressBytes := wk.addressBytes } ∨
          w'.foundResult = { w.foundResult with found := true })) ∧
    (∀ i key w', stepWorker g ec i key w = some w' →
      ∃ wk wk', w.workers[i]? = some wk ∧ w'.workers[i]? = some wk' ∧
        (wk.pc ≠ .loopBody →
          wk'.privateKey = wk.privateKey ∧ wk'.addressBytes = wk.addressBytes) ∧
        (wk.pc = .loopBody → wk'.pc = .lockResult →
          wk'.privateKey = key ∧ Derived g ec key wk'.addressBytes)) ∧
    (∀ (i : Nat) (key : List Nat) (wk : Worker), w.workers[i]? = some wk →
      wk.pc = .loopBody → ec key = [] →
      getAddressBytes (ec key) = none ∧
      ∃ w' wk', stepWorker g ec i key w = some w' ∧ w'.workers[i]? = some wk' ∧
        wk'.pc = .loopTest ∧ wk'.addressBytes = wk.addressBytes ∧
        w'.foundResult = w.foundResult ∧ w'.found = w.found) := by
  have hinv := worldInv_run g ec sched (world0 n) w (worldInv_init n) h
  have hres := resultInv_run g ec sched (world0 n) w (worldInv_init n) (resultInv_init g ec n) h
  obtain ⟨hp1, hp2⟩ := record_partial g ec w hinv hres
  have hget : ∀ (i : Nat) (wk wk' : Worker), w.workers[i]? = some wk →
      (w.workers.set i wk')[i]? = some wk' := by
    intro i wk wk' hi
    have hilt : i < w.workers.length := by
      by_contra hc
      rw [List.getElem?_eq_none (by omega)] at hi
      exact Option.noConfusion hi
    rw [List.getElem?_set, if_pos rfl, if_pos hilt]
  refine ⟨hres.2, hp1, hp2, ?_, ?_, ?_⟩
  · intro i key w' hs hne
    obtain ⟨wk, wk', hi, -, -, -, hfr⟩ := step_locals g ec i key w w' hs
    have hd := hres.1 i wk hi
    rcases hfr with e | ⟨hpc, e⟩ | ⟨hpc, e⟩ | ⟨hpc, e⟩
    · exact absurd e hne
    · exact ⟨wk, hi, hd (by rw [hpc]; rfl), Or.inl e⟩
    · exact ⟨wk, hi, hd (by rw [hpc]; rfl), Or.inr (Or.inl e)⟩
    · exact ⟨wk, hi, hd (by rw [hpc]; rfl), Or.inr (Or.inr e)⟩
  · intro i key w' hs
    obtain ⟨wk, wk', hi, hws, hk, hb, -⟩ := step_locals g ec i key w w' hs
    refine ⟨wk, wk', hi, by rw [hws]; exact hget i wk wk' hi, hk, fun hpc hl => ?_⟩
    exact ⟨(hb hpc).1, (hb hpc).2.2.2 hl⟩
  · intro i key wk hi hpc hk
    refine ⟨by rw [hk]; rfl, ?_⟩
    have hstep : ∃ w', stepWorker g ec i key w = some w' := by
      unfold stepWorker
      rw [hi]
      simp only [hpc, hk, if_true]
      exact ⟨_, rfl⟩
    obtain ⟨w', hs⟩ := hstep
    obtain ⟨wk0, wk', hi0, hws, -, hb, -⟩ := step_locals g ec i key w w' hs
    obtain ⟨-, -, -, hfd, -⟩ := step_frame g ec i key w w' hs
    rw [hi] at hi0
    have e0 : wk = wk0 := Option.some.inj hi0
    subst e0
    obtain ⟨-, hfr, hfail, -⟩ := hb hpc
    refine ⟨w', wk', hs, by rw [hws]; exact hget i wk wk' hi, (hfail hk).1, (hfail hk).2, hfr, ?_⟩
    obtain ⟨wk1, -, hi1, -, -, hf1, -⟩ := step_frame g ec i key w w' hs
    rw [hi] at hi1
    have e1 : wk = wk1 := Option.some.inj hi1
    subst e1
    exact hf1 (by rw [hpc]; exact fun e => WorkerPc.noConfusion e)

theorem recorded_result_genuine_witness :
    runSchedule wildMask doubledKey raceSchedule (world0 2) = some raceWorld ∧
    (raceWorld.foundResult.found = true →
      doubledKey raceWorld.foundResult.privateKey ≠ [] ∧
      getAddressBytes (doubledKey raceWorld.foundResult.privateKey) =
        some raceWorld.foundResult.addressBytes ∧
      matchesMaskFast wildMask raceWorld.foundResult.addressBytes = some true) :=
  ⟨raceSchedule_run,
    (recorded_result_genuine wildMask doubledKey 2 raceSchedule raceWorld raceSchedule_run).1⟩

/-! ## Known vectors -/

set_option maxRecDepth 1000000 in
/-- Digest of the empty input, evaluated. -/
theorem keccak256_nil : keccak256 [] =
    [0xc5, 0xd2, 0x46, 0x01, 0x86, 0xf7, 0x23, 0x3c, 0x92, 0x7e, 0x7d, 0xb2, 0xdc, 0xc7, 0x03, 0xc0,
     0xe5, 0x00, 0xb6, 0x53, 0xca, 0x82, 0x27, 0x3b, 0x7b, 0xfa, 0xd8, 0x04, 0x5d, 0x85, 0xa4, 0x70] := by
  decide!

set_option maxRecDepth 1000000 in
/-- Checksum text of the test address, evaluated. -/
theorem checksum_testAddress : getAddressWithChecksum testAddress =
    some "0x5aAeb6053F3E94C9b9A09f33669435E7Ef1BeAed".toList := by
  decide!

set_option maxRecDepth 100000 in
/-- C2, as the specification states it, fails: the hexadecimal text of the digest of the empty
    input is not the 63-character string of the specification. -/
theorem keccak256_empty_hex_ne_spec :
    (addressBytesToHex (keccak256 [])).drop 2 ≠
      "c5d2460186f7233c927e7db2dcc703c0e500b653ca82273b7bfad8045d85a47".toList := by
  rw [keccak256_nil]
  decide!

set_option maxRecDepth 100000 in
/-- C2, amended: the lowercase hexadecimal text of the digest of the empty input is the
    64-character reference vector of Keccak-256, which ends in `a470`. -/
theorem keccak256_empty_hex :
    (addressBytesToHex (keccak256 [])).drop 2 =
        "c5d2460186f7233c927e7db2dcc703c0e500b653ca82273b7bfad8045d85a470".toList ∧
    ((addressBytesToHex (keccak256 [])).drop 2).length = 64 := by
  rw [keccak256_nil]
  decide!

set_option maxRecDepth 100000 in
/-- C4, as the specification states it, fails: the checksum text of the test address is not
    the mixed-case string of the specification. -/
theorem checksum_testAddress_ne_spec :
    addressBytesToHex testAddress = "0x5aaeb6053f3e94c9b9a09f33669435e7ef1beaed".toList ∧
    getAddressWithChecksum testAddress ≠
      some "0x5aAeb6053f3e94c9b9a09f33669435e7ef1bEAed".toList := by
  rw [checksum_testAddress]
  decide!

set_option maxRecDepth 100000 in
/-- C4, amended: for the address `5aaeb6053f3e94c9b9a09f33669435e7ef1beaed`, whose
    `addressBytesToHex` text is that string after `0x`, `getAddressWithChecksum` is the EIP-55
    text `0x5aAeb6053F3E94C9b9A09f33669435E7Ef1BeAed`. -/
theorem checksum_testAddress_eip55 :
    addressBytesToHex testAddress = "0x5aaeb6053f3e94c9b9a09f33669435e7ef1beaed".toList ∧
    getAddressWithChecksum testAddress =
      some "0x5aAeb6053F3E94C9b9A09f33669435E7Ef1BeAed".toList := by
  rw [checksum_testAddress]
  decide!
